import Mathlib

/-!
A shallow embedding of the core transaction pool (`src/tx-pool/src/pool.rs`)
of a UTXO-style blockchain node, together with proofs about its operations.

Conventions of the embedding:
* transaction hashes, short ids and header hashes are `Nat`;
* `Capacity` (u64 shannons) is `Nat` together with an explicit bound
  `CAP_MAX = 2 ^ 64 - 1`; `safe_add` is addition with an overflow check;
* statistics counters (`usize` / `Cycle`) are `Nat`; the source's
  `checked_sub(..).unwrap_or(0)` is exactly truncated `Nat` subtraction;
* fallible operations return `Except Reject`; a Rust `assert!` failure
  (process abort) is modelled by an outer `Option` being `none`;
* the pool entry map is a duplicate-free list of entries; secondary
  indices (`by_input`, `by_output`, parent/child links) are derived from
  the entry list on demand, which the design notes of the specification
  explicitly allow ("parent/child edges are derived from outpoint tables
  on demand");
* ancestor/descendant accumulators are derived by recomputation from the
  graph, which the specification states as an invariant ("Ancestor/
  descendant accumulators equal recomputation from the graph").
-/

/-- A cell reference `(tx_hash, index)`. -/
structure OutPoint where
  txHash : Nat
  index : Nat

deriving DecidableEq, Repr

/-- The part of a `TransactionView` that the pool consults: hash, compact
short id, inputs, number of outputs, cell deps and header deps. -/
structure Tx where
  txHash : Nat
  shortId : Nat
  inputs : List OutPoint
  outputsCount : Nat
  cellDeps : List OutPoint
  headerDeps : List Nat

deriving DecidableEq, Repr

/-- `output_pts_iter`: the outpoints produced by a transaction. -/
def Tx.outPts (tx : Tx) : List OutPoint :=
  (List.range tx.outputsCount).map (fun i => ⟨tx.txHash, i⟩)

/-- `TxEntry`: a transaction plus its derived metrics. -/
structure TxEntry where
  tx : Tx
  size : Nat
  cycles : Nat
  fee : Nat
  timestamp : Nat

deriving DecidableEq, Repr

/-- Entry status: one of Pending, Gap, Proposed. -/
inductive Status where
  | pending
  | gap
  | proposed

deriving DecidableEq, Repr

/-- `PoolEntry`: an entry as stored in the pool map, with its status. -/
structure PoolEntry where
  status : Status
  inner : TxEntry

deriving DecidableEq, Repr

/-- The id under which an entry is indexed. -/
def PoolEntry.entryId (e : PoolEntry) : Nat := e.inner.tx.shortId

/-- The inner error of `Reject::Resolve` (mirrors `OutPointError`). -/
inductive ResolveErr where
  | dead (o : OutPoint)
  | invalidHeader (h : Nat)

deriving DecidableEq, Repr

/-- The `Reject` error enum of the tx-pool. -/
inductive Reject where
  | duplicated (txHash : Nat)
  | malformed (reason : String)
  | resolve (e : ResolveErr)
  | expiry (timestamp : Nat)
  | full (details : String)
  | rbfRejected (reason : String)
  | exceededMaximumAncestorsCount

deriving DecidableEq, Repr

deriving instance DecidableEq for Except

/-- Configuration options relevant to the core pool. -/
structure TxPoolConfig where
  minFeeRate : Nat
  minRbfRate : Nat
  maxTxPoolSize : Nat
  maxAncestorsCount : Nat
  expiryMs : Nat

deriving DecidableEq, Repr

/-- `COMMITTED_HASH_CACHE_SIZE`. -/
def COMMITTED_HASH_CACHE_SIZE : Nat := 100000

/-- `MAX_REPLACEMENT_CANDIDATES`. -/
def MAX_REPLACEMENT_CANDIDATES : Nat := 100

/-- The tx-pool state: configuration, entry map, committed-hash LRU cache,
aggregate statistics, and the snapshot (modelled as the list of confirmed
transaction hashes). -/
structure TxPool where
  config : TxPoolConfig
  entries : List PoolEntry
  committedTxsHashCache : List (Nat × Nat)
  totalTxSize : Nat
  totalTxCycles : Nat
  snapshot : List Nat

deriving DecidableEq, Repr

/-- `TxPool::new`. -/
def TxPool.new (config : TxPoolConfig) (snapshot : List Nat) : TxPool :=
  { config := config
    entries := []
    committedTxsHashCache := []
    totalTxSize := 0
    totalTxCycles := 0
    snapshot := snapshot }

/-- Boolean membership test via decidable equality. -/
def inList {α : Type} [DecidableEq α] (a : α) (l : List α) : Bool :=
  decide (a ∈ l)

/-- Primary index lookup: `by_id`. -/
def getById (entries : List PoolEntry) (id : Nat) : Option PoolEntry :=
  entries.find? (fun e => decide (e.entryId = id))

/-- `p` is an in-pool parent of the transaction `c`: some input of `c`
references an outpoint produced by `p` (input→output overlap). -/
def txParentOf (p c : Tx) : Bool :=
  c.inputs.any (fun i => inList i (Tx.outPts p))

/-- Edge test by id inside a pool: entry `pid` is a parent of entry `cid`. -/
def parentEdgeB (entries : List PoolEntry) (pid cid : Nat) : Bool :=
  match getById entries pid, getById entries cid with
  | some p, some c => txParentOf p.inner.tx c.inner.tx
  | _, _ => false

/-- All ids present in a pool (in entry order, possibly with duplicates). -/
def poolIds (entries : List PoolEntry) : List Nat :=
  entries.map PoolEntry.entryId

/-- One closure step: the ids of `allIds` adjacent to a member of `s` that
are not yet in `s` (freshly discovered, duplicate-free). -/
def relNew (allIds : List Nat) (adj : Nat → Nat → Bool) (s : List Nat) :
    List Nat :=
  (allIds.filter (fun i => !(inList i s) && s.any (fun a => adj a i))).dedup

/-- Fuelled transitive-closure iteration: repeatedly add freshly discovered
ids until none remain or the fuel runs out. -/
def relClosureAux (allIds : List Nat) (adj : Nat → Nat → Bool) :
    Nat → List Nat → List Nat
  | 0, s => s
  | fuel + 1, s =>
    let nw := relNew allIds adj s
    if nw.isEmpty then s else relClosureAux allIds adj fuel (s ++ nw)

/-- Transitive closure of `seeds` under `adj` inside a pool; `entries.length`
steps of fuel always suffice to reach the fixpoint. -/
def relClosure (entries : List PoolEntry) (adj : Nat → Nat → Bool)
    (seeds : List Nat) : List Nat :=
  relClosureAux (poolIds entries) adj entries.length seeds

/-- Reachability from `seeds` via `adj`, restricted to ids of the pool:
the specification of `relClosure`. -/
inductive ReachG (allIds : List Nat) (adj : Nat → Nat → Bool)
    (seeds : List Nat) : Nat → Prop
  | seed (x : Nat) : x ∈ seeds → ReachG allIds adj seeds x
  | step (a x : Nat) : ReachG allIds adj seeds a → adj a x = true →
      x ∈ allIds → ReachG allIds adj seeds x

/-- `calc_descendants(id)`: all transitive in-pool descendants of entry
`id`, excluding `id` itself. -/
def calcDescendants (entries : List PoolEntry) (id : Nat) : List Nat :=
  (relClosure entries (fun a b => parentEdgeB entries a b) [id]).filter
    (fun x => decide (x ≠ id))

/-- The ids of the direct in-pool parents of a transaction. -/
def parentIdsOfTx (entries : List PoolEntry) (tx : Tx) : List Nat :=
  ((entries.filter (fun p => txParentOf p.inner.tx tx)).map
    PoolEntry.entryId).dedup

/-- `calc_ancestors` for a transaction (which need not be in the pool):
all transitive in-pool ancestors. -/
def calcAncestorsOfTx (entries : List PoolEntry) (tx : Tx) : List Nat :=
  relClosure entries (fun a b => parentEdgeB entries b a)
    (parentIdsOfTx entries tx)

/-- Number of pool ids not yet absorbed into `s`: the termination measure
of the closure iteration. -/
def availCount (allIds : List Nat) (s : List Nat) : Nat :=
  (allIds.dedup.filter (fun i => !(inList i s))).length

/-- The largest value of the `Capacity` type (u64 shannons). -/
def CAP_MAX : Nat := 2 ^ 64 - 1

/-- `Capacity::safe_add`: checked addition on capacities. -/
def safeAdd (a b : Nat) : Option Nat :=
  if a + b ≤ CAP_MAX then some (a + b) else none

/-- Modelled from the spec: `min_rbf_rate.fee(size)` — the fee a fee rate
charges for a given virtual size (`FeeRate::fee` of `ckb-types`, which is
not under `src/`): saturating multiply, then divide by 1000. -/
def feeRateFee (rate size : Nat) : Nat :=
  min (rate * size) CAP_MAX / 1000

/-- `TxPool::enable_rbf`: RBF is on iff `min_rbf_rate > min_fee_rate`. -/
def enableRbf (pool : TxPool) : Bool :=
  decide (pool.config.minFeeRate < pool.config.minRbfRate)

/-- `TxPool::get_pool_entry`. -/
def TxPool.getPoolEntry (pool : TxPool) (id : Nat) : Option PoolEntry :=
  getById pool.entries id

/-- `calculate_min_replace_fee`:
`min_replace_fee = sum(replaced_txs.fee) + extra_rbf_fee`, with checked
addition throughout; `none` on overflow. -/
def calculateMinReplaceFee (cfg : TxPoolConfig) (conflicts : List PoolEntry)
    (size : Nat) : Option Nat :=
  let extraRbfFee := feeRateFee cfg.minRbfRate size
  let replacedSumFee :=
    conflicts.foldl (fun acc c => acc.bind (fun a => safeAdd a c.inner.fee))
      (some 0)
  replacedSumFee.bind (fun s => safeAdd s extraRbfFee)

/-- Rejection message of RBF rule 3/4 (insufficient fee). -/
def feeMsg (fee minReplaceFee : Nat) : String :=
  "Tx current fee is " ++ toString fee ++ ", expect it to >= " ++
    toString minReplaceFee ++ " to replace old txs"

/-- Rejection message when `calculate_min_replace_fee` overflows. -/
def minFeeFailedMsg : String := "calculate_min_replace_fee failed"

/-- Rejection message of RBF rule 2. -/
def unconfirmedInputsMsg : String := "new Tx contains unconfirmed inputs"

/-- Rejection message of the cell-dep rule. -/
def cellDepsMsg : String := "new Tx contains cell deps from conflicts"

/-- Rejection message of RBF rule 5 (too many replaced transactions). -/
def tooManyMsg (replaceCount : Nat) : String :=
  "Tx conflict too many txs, conflict txs count: " ++ toString replaceCount

/-- Rejection message of the ancestry-disjointness rule. -/
def ancestorsCommonMsg : String :=
  "Tx ancestors have common with conflict Tx descendants"

/-- Rejection message of the inputs-from-descendants rule. -/
def inputsInDescMsg : String :=
  "new Tx contains inputs in descendants of to be replaced Tx"

/-- Rejection message of RBF rule 6 (status constraint). -/
def statusMsg : String := "all conflict Txs should be in Pending status"

/-- The per-conflict loop of `check_rbf` (rules 5, ancestry disjointness,
inputs-from-descendants, and 6), carrying the running `replace_count`. -/
def rbfLoop (pool : TxPool) (rtx : Tx) (ancestors : List Nat) :
    List PoolEntry → Nat → Except Reject Unit
  | [], _ => Except.ok ()
  | c :: rest, replaceCount =>
    let descendants := calcDescendants pool.entries c.entryId
    let rc := replaceCount + descendants.length + 1
    if MAX_REPLACEMENT_CANDIDATES < rc then
      Except.error (Reject.rbfRejected (tooManyMsg rc))
    else if !(descendants.all (fun d => !(inList d ancestors))) then
      Except.error (Reject.rbfRejected ancestorsCommonMsg)
    else
      let entries := descendants.filterMap (fun id => getById pool.entries id)
      if entries.any (fun e =>
          rtx.inputs.any (fun pt => decide (pt.txHash = e.inner.tx.txHash))) then
        Except.error (Reject.rbfRejected inputsInDescMsg)
      else if (entries.map (fun e => e.status) ++ [c.status]).any
          (fun s => !(inList s [Status.pending, Status.gap])) then
        Except.error (Reject.rbfRejected statusMsg)
      else rbfLoop pool rtx ancestors rest rc

/-- The body of `check_rbf` after its `assert!` preconditions: rules 3/4
(fee floor, with overflow rejection), rule 2 (no new unconfirmed inputs),
no cell-dep on conflict outputs, then the per-conflict loop. -/
def checkRbfInner (pool : TxPool) (snapshot : List Nat) (rtx : Tx)
    (conflicts : List PoolEntry) (fee : Nat) (txSize : Nat) :
    Except Reject Unit :=
  match calculateMinReplaceFee pool.config conflicts txSize with
  | some minReplaceFee =>
    if fee < minReplaceFee then
      Except.error (Reject.rbfRejected (feeMsg fee minReplaceFee))
    else
      let inputs := (conflicts.map (fun c => c.inner.tx.inputs)).flatten
      let outputs := (conflicts.map (fun c => Tx.outPts c.inner.tx)).flatten
      if rtx.inputs.any
          (fun pt => !(inList pt inputs) && !(inList pt.txHash snapshot)) then
        Except.error (Reject.rbfRejected unconfirmedInputsMsg)
      else if rtx.cellDeps.any (fun dep => inList dep outputs) then
        Except.error (Reject.rbfRejected cellDepsMsg)
      else
        rbfLoop pool rtx (calcAncestorsOfTx pool.entries rtx) conflicts 0
  | none => Except.error (Reject.rbfRejected minFeeFailedMsg)

/-- `check_rbf`. The three `assert!` preconditions (RBF enabled, non-empty
conflict set, all conflict ids present in the pool) are modelled by the
outer `Option`: `none` is an assertion failure (process abort). The
pool-map ancestor/descendant queries used inside are derived from the
entry list as the spec prescribes. -/
def checkRbf (pool : TxPool) (snapshot : List Nat) (rtx : Tx)
    (conflictIds : List Nat) (fee : Nat) (txSize : Nat) :
    Option (Except Reject Unit) :=
  if !(enableRbf pool) then none
  else if conflictIds.isEmpty then none
  else
    let conflicts := conflictIds.filterMap (fun id => pool.getPoolEntry id)
    if conflicts.length ≠ conflictIds.length then none
    else some (checkRbfInner pool snapshot rtx conflicts fee txSize)

/-- Total fee of the conflict set. -/
def conflictsFees (conflicts : List PoolEntry) : Nat :=
  (conflicts.map (fun c => c.inner.fee)).sum

/-- Spec rule R3/R4: the fee floor. The new fee must cover the sum of
the replaced fees plus the RBF premium, and that sum must not overflow
the capacity type. -/
def SpecFeeFloor (cfg : TxPoolConfig) (conflicts : List PoolEntry)
    (fee txSize : Nat) : Prop :=
  conflictsFees conflicts + feeRateFee cfg.minRbfRate txSize ≤ CAP_MAX ∧
  conflictsFees conflicts + feeRateFee cfg.minRbfRate txSize ≤ fee

/-- Spec rule R2: every input of the new tx is either spent by a conflict
or confirmed in the snapshot. -/
def SpecNoNewUnconfirmed (snapshot : List Nat) (rtx : Tx)
    (conflicts : List PoolEntry) : Prop :=
  ∀ pt ∈ rtx.inputs,
    pt ∈ (conflicts.map (fun c => c.inner.tx.inputs)).flatten ∨
    pt.txHash ∈ snapshot

/-- Spec rule: no cell-dep of the new tx points at an output of a
conflict. -/
def SpecNoDepOnConflictOutputs (rtx : Tx) (conflicts : List PoolEntry) :
    Prop :=
  ∀ dep ∈ rtx.cellDeps,
    dep ∉ (conflicts.map (fun c => Tx.outPts c.inner.tx)).flatten

/-- Spec rule R5: the total number of replaced transactions,
`Σ (1 + |descendants(conflict)|)`, is bounded by 100. -/
def SpecReplacementBound (entries : List PoolEntry)
    (conflicts : List PoolEntry) : Prop :=
  (conflicts.map
      (fun c => (calcDescendants entries c.entryId).length + 1)).sum ≤
    MAX_REPLACEMENT_CANDIDATES

/-- Spec rule: each conflict's descendants are disjoint from the new tx's
in-pool ancestors. -/
def SpecAncestryDisjoint (entries : List PoolEntry) (rtx : Tx)
    (conflicts : List PoolEntry) : Prop :=
  ∀ c ∈ conflicts, ∀ d ∈ calcDescendants entries c.entryId,
    d ∉ calcAncestorsOfTx entries rtx

/-- Spec rule: no input of the new tx references an output of a descendant
of a conflict. -/
def SpecNoInputFromDesc (entries : List PoolEntry) (rtx : Tx)
    (conflicts : List PoolEntry) : Prop :=
  ∀ c ∈ conflicts, ∀ d ∈ calcDescendants entries c.entryId,
    ∀ e, getById entries d = some e →
      ∀ pt ∈ rtx.inputs, pt.txHash ≠ e.inner.tx.txHash

/-- Spec rule R6: every conflict and every descendant of a conflict is in
status Pending or Gap. -/
def SpecStatusRule (entries : List PoolEntry) (conflicts : List PoolEntry) :
    Prop :=
  ∀ c ∈ conflicts,
    (c.status = Status.pending ∨ c.status = Status.gap) ∧
    ∀ d ∈ calcDescendants entries c.entryId,
      ∀ e, getById entries d = some e →
        (e.status = Status.pending ∨ e.status = Status.gap)

/-- All RBF admission rules of spec §4.5, stated from the spec's words. -/
def SpecRbfRules (pool : TxPool) (snapshot : List Nat) (rtx : Tx)
    (conflicts : List PoolEntry) (fee txSize : Nat) : Prop :=
  SpecFeeFloor pool.config conflicts fee txSize ∧
  SpecNoNewUnconfirmed snapshot rtx conflicts ∧
  SpecNoDepOnConflictOutputs rtx conflicts ∧
  SpecReplacementBound pool.entries conflicts ∧
  SpecAncestryDisjoint pool.entries rtx conflicts ∧
  SpecNoInputFromDesc pool.entries rtx conflicts ∧
  SpecStatusRule pool.entries conflicts

/-- The conditions the per-conflict loop checks for one conflict, besides
the running replacement count. -/
def perConflictOk (pool : TxPool) (rtx : Tx) (ancestors : List Nat)
    (c : PoolEntry) : Prop :=
  (∀ d ∈ calcDescendants pool.entries c.entryId, d ∉ ancestors) ∧
  (∀ d ∈ calcDescendants pool.entries c.entryId,
    ∀ e, getById pool.entries d = some e →
      ∀ pt ∈ rtx.inputs, pt.txHash ≠ e.inner.tx.txHash) ∧
  ((c.status = Status.pending ∨ c.status = Status.gap) ∧
   ∀ d ∈ calcDescendants pool.entries c.entryId,
     ∀ e, getById pool.entries d = some e →
       (e.status = Status.pending ∨ e.status = Status.gap))

/-- `update_statics_for_add_tx`. -/
def updateStaticsForAddTx (p : TxPool) (txSize cycles : Nat) : TxPool :=
  { p with totalTxSize := p.totalTxSize + txSize
           totalTxCycles := p.totalTxCycles + cycles }

/-- `update_statics_for_remove_tx`: the source clamps the checked
subtractions to zero, which is exactly truncated `Nat` subtraction. -/
def updateStaticsForRemoveTx (p : TxPool) (txSize cycles : Nat) : TxPool :=
  { p with totalTxSize := p.totalTxSize - txSize
           totalTxCycles := p.totalTxCycles - cycles }

/-- Modelled from the spec (§4.1): `PoolMap::remove_entry` (not under
`src/`) removes the single entry with this id together with its index
references; descendants stay. -/
def poolMapRemoveEntry (p : TxPool) (id : Nat) : TxPool × Option PoolEntry :=
  match getById p.entries id with
  | none => (p, none)
  | some e =>
    ({ p with entries := p.entries.filter (fun x => decide (x.entryId ≠ id)) },
      some e)

/-- Modelled from the spec (§4.1): `PoolMap::remove_entry_and_descendants`
(not under `src/`): transitive removal of the entry and all of its in-pool
descendants, returning the removed entries. -/
def poolMapRemoveEntryAndDescendants (p : TxPool) (id : Nat) :
    TxPool × List PoolEntry :=
  let ids := id :: calcDescendants p.entries id
  ({ p with entries := p.entries.filter (fun x => !(inList x.entryId ids)) },
    p.entries.filter (fun x => inList x.entryId ids))

/-- Modelled from the spec (§6): the `call_reject` callback wiring (outside
`src/`) delivers the rejection to observers and keeps the aggregate
statistics in step with the entry set (invariant 1 of §3). -/
def callReject (p : TxPool) (e : TxEntry) (r : Reject) :
    TxPool × (TxEntry × Reject) :=
  (updateStaticsForRemoveTx p e.size e.cycles, (e, r))

/-- Modelled from the spec (§6, scenario S1): the `call_committed`
callback likewise updates the aggregates for the removed entry. -/
def callCommitted (p : TxPool) (e : TxEntry) : TxPool × TxEntry :=
  (updateStaticsForRemoveTx p e.size e.cycles, e)

/-- Modelled from the spec (§4.1): `PoolMap::add_entry` (not under
`src/`). Returns `Ok(false)` when the short id is already present;
rejects with `ExceededMaximumAncestorsCount` when, after linking parents,
the ancestor count would exceed the configured bound. A fresh insert has
no in-pool descendants (§4.1 records "none on fresh insert": orphan
transactions never reach the pool map, and a transaction cannot spend its
own outputs since its hash depends on its inputs), which the model makes
explicit as a `Malformed` rejection. -/
def poolMapAddEntry (p : TxPool) (e : TxEntry) (st : Status) :
    TxPool × Except Reject Bool :=
  if (getById p.entries e.tx.shortId).isSome then (p, Except.ok false)
  else if txParentOf e.tx e.tx || p.entries.any (fun c => txParentOf e.tx c.inner.tx) then
    (p, Except.error (Reject.malformed "fresh insert with in-pool descendants"))
  else if p.config.maxAncestorsCount <
      (calcAncestorsOfTx p.entries e.tx).length then
    (p, Except.error Reject.exceededMaximumAncestorsCount)
  else
    ({ p with entries := p.entries ++ [⟨st, e⟩] }, Except.ok true)

/-- `TxPool::add_pending`. -/
def addPending (p : TxPool) (e : TxEntry) : TxPool × Except Reject Bool :=
  poolMapAddEntry p e Status.pending

/-- `TxPool::add_gap`. -/
def addGap (p : TxPool) (e : TxEntry) : TxPool × Except Reject Bool :=
  poolMapAddEntry p e Status.gap

/-- `TxPool::add_proposed`. -/
def addProposed (p : TxPool) (e : TxEntry) : TxPool × Except Reject Bool :=
  poolMapAddEntry p e Status.proposed

/-- Remove an entry with its descendants and report every removed entry
through `call_reject` with the given rejection reason. -/
def rejectStep (mkr : TxEntry → Reject)
    (acc : TxPool × List (TxEntry × Reject)) (e : PoolEntry) :
    TxPool × List (TxEntry × Reject) :=
  let pe := callReject acc.1 e.inner (mkr e.inner)
  (pe.1, acc.2 ++ [pe.2])

def removeWithDescAndReject (p : TxPool) (id : Nat) (mkr : TxEntry → Reject) :
    TxPool × List (TxEntry × Reject) :=
  let pr := poolMapRemoveEntryAndDescendants p id
  pr.2.foldl (rejectStep mkr) (pr.1, [])

/-- Modelled from the spec (§4.5): the caller of `check_rbf` in the
admission flow (outside `src/`). On any rule violation the pool is not
mutated; on success the conflicts are removed with their descendants,
each reported as `Reject::RBFRejected`, and the new entry is inserted as
Pending with the aggregates updated. -/
def submitRbf (p : TxPool) (snapshot : List Nat) (newEntry : TxEntry)
    (conflictIds : List Nat) :
    Option (TxPool × List (TxEntry × Reject)) :=
  match checkRbf p snapshot newEntry.tx conflictIds newEntry.fee
      newEntry.size with
  | none => none
  | some (Except.error _) => some (p, [])
  | some (Except.ok ()) =>
    let afterRemove := conflictIds.foldl (fun acc id =>
      let pr := removeWithDescAndReject acc.1 id
        (fun _ => Reject.rbfRejected
          ("replaced by tx " ++ toString newEntry.tx.txHash))
      (pr.1, acc.2 ++ pr.2)) (p, [])
    let added := addPending afterRemove.1 newEntry
    match added.2 with
    | Except.ok true =>
      some (updateStaticsForAddTx added.1 newEntry.size newEntry.cycles,
        afterRemove.2)
    | _ => some (added.1, afterRemove.2)

/-- The per-conflict loop of `check_rbf` with rule R5 (the replacement
count bound) removed; used to state that R5 alone never causes rejection
when the bound holds. -/
def rbfLoopNoLimit (pool : TxPool) (rtx : Tx) (ancestors : List Nat) :
    List PoolEntry → Except Reject Unit
  | [] => Except.ok ()
  | c :: rest =>
    let descendants := calcDescendants pool.entries c.entryId
    if !(descendants.all (fun d => !(inList d ancestors))) then
      Except.error (Reject.rbfRejected ancestorsCommonMsg)
    else
      let entries := descendants.filterMap (fun id => getById pool.entries id)
      if entries.any (fun e =>
          rtx.inputs.any (fun pt => decide (pt.txHash = e.inner.tx.txHash))) then
        Except.error (Reject.rbfRejected inputsInDescMsg)
      else if (entries.map (fun e => e.status) ++ [c.status]).any
          (fun s => !(inList s [Status.pending, Status.gap])) then
        Except.error (Reject.rbfRejected statusMsg)
      else rbfLoopNoLimit pool rtx ancestors rest

/-- Does `needle` start `hay`? (plain character-list comparison). -/
def startsWithChars : List Char → List Char → Bool
  | [], _ => true
  | _ :: _, [] => false
  | a :: as, b :: bs => a == b && startsWithChars as bs

/-- Does `needle` occur anywhere inside `hay`? -/
def containsChars (needle : List Char) : List Char → Bool
  | [] => needle.isEmpty
  | c :: rest =>
    startsWithChars needle (c :: rest) || containsChars needle rest

/-- Does the string `hay` mention the string `needle` as a substring? -/
def strMentions (needle hay : String) : Bool :=
  containsChars needle.data hay.data

/-- The RBF admission rules other than R5 (the replacement-count bound). -/
def SpecRbfRulesExceptBound (pool : TxPool) (snapshot : List Nat) (rtx : Tx)
    (conflicts : List PoolEntry) (fee txSize : Nat) : Prop :=
  SpecFeeFloor pool.config conflicts fee txSize ∧
  SpecNoNewUnconfirmed snapshot rtx conflicts ∧
  SpecNoDepOnConflictOutputs rtx conflicts ∧
  SpecAncestryDisjoint pool.entries rtx conflicts ∧
  SpecNoInputFromDesc pool.entries rtx conflicts ∧
  SpecStatusRule pool.entries conflicts

/-- `check_rbf` body with rule R5 removed: identical to `checkRbfInner`
except that the per-conflict loop does not check the replacement count. -/
def checkRbfInnerNoLimit (pool : TxPool) (snapshot : List Nat) (rtx : Tx)
    (conflicts : List PoolEntry) (fee txSize : Nat) : Except Reject Unit :=
  match calculateMinReplaceFee pool.config conflicts txSize with
  | some minReplaceFee =>
    if fee < minReplaceFee then
      Except.error (Reject.rbfRejected (feeMsg fee minReplaceFee))
    else
      let inputs := (conflicts.map (fun c => c.inner.tx.inputs)).flatten
      let outputs := (conflicts.map (fun c => Tx.outPts c.inner.tx)).flatten
      if rtx.inputs.any
          (fun pt => !(inList pt inputs) && !(inList pt.txHash snapshot)) then
        Except.error (Reject.rbfRejected unconfirmedInputsMsg)
      else if rtx.cellDeps.any (fun dep => inList dep outputs) then
        Except.error (Reject.rbfRejected cellDepsMsg)
      else
        rbfLoopNoLimit pool rtx (calcAncestorsOfTx pool.entries rtx) conflicts
  | none => Except.error (Reject.rbfRejected minFeeFailedMsg)

/-- A confirmed outpoint used by the concrete examples. -/
def exOut (i : Nat) : OutPoint := ⟨500, i⟩

/-- Example configuration: RBF enabled (2000 > 1000). -/
def exCfg : TxPoolConfig :=
  { minFeeRate := 1000
    minRbfRate := 2000
    maxTxPoolSize := 10000
    maxAncestorsCount := 25
    expiryMs := 3600000 }

/-- Example pool with a single pending entry spending `exOut 0`. -/
def rbfPoolSmall : TxPool :=
  { config := exCfg
    entries := [⟨Status.pending, ⟨⟨10, 10, [exOut 0], 1, [], []⟩, 100, 10, 200, 0⟩⟩]
    committedTxsHashCache := []
    totalTxSize := 100
    totalTxCycles := 10
    snapshot := [500] }

/-- Example replacement entry: same input, higher fee. -/
def rbfNewEntry : TxEntry := ⟨⟨99, 99, [exOut 0], 1, [], []⟩, 100, 10, 500, 5⟩

/-- Ten conflicting entries (ids 1..10). -/
def c4Conflicts : List PoolEntry :=
  (List.range 10).map (fun i =>
    ⟨Status.pending, ⟨⟨i + 1, i + 1, [exOut (i + 1)], 1, [], []⟩, 100, 10, 100, 0⟩⟩)

/-- A descendant spending one output of every conflict (id 11). -/
def c4DescHead : PoolEntry :=
  ⟨Status.pending,
    ⟨⟨11, 11, (List.range 10).map (fun i => ⟨i + 1, 0⟩), 1, [], []⟩, 100, 10, 100, 0⟩⟩

/-- A chain of nine further descendants (ids 12..20). -/
def c4DescTail : List PoolEntry :=
  (List.range 9).map (fun j =>
    ⟨Status.pending, ⟨⟨12 + j, 12 + j, [⟨11 + j, 0⟩], 1, [], []⟩, 100, 10, 100, 0⟩⟩)

/-- Pool in which each of the ten conflicts has the same ten descendants,
so the replacement count is `10 * (1 + 10) = 110 > 100`. -/
def c4Pool : TxPool :=
  { config := exCfg
    entries := c4Conflicts ++ c4DescHead :: c4DescTail
    committedTxsHashCache := []
    totalTxSize := 2000
    totalTxCycles := 200
    snapshot := [500] }

/-- A new transaction conflicting with all ten conflicts. -/
def c4NewTx : Tx := ⟨99, 99, (List.range 10).map (fun i => exOut (i + 1)), 1, [], []⟩

/-- The conflict ids 1..10. -/
def c4Ids : List Nat := (List.range 10).map (fun i => i + 1)

/-- Modelled from the spec (§4.3): `PoolMap::set_entry` (not under
`src/`) moves an entry to the given status bucket. -/
def setEntry (p : TxPool) (id : Nat) (st : Status) : TxPool :=
  { p with entries := p.entries.map (fun e => if e.entryId = id then { e with status := st } else e) }

/-- `set_entry_gap`. -/
def setEntryGap (p : TxPool) (id : Nat) : TxPool := setEntry p id Status.gap

/-- `set_entry_proposed`. -/
def setEntryProposed (p : TxPool) (id : Nat) : TxPool :=
  setEntry p id Status.proposed

/-- `gap_rtx`. -/
def gapRtx (p : TxPool) (id : Nat) : TxPool × Except Reject Unit :=
  match getById p.entries id with
  | some entry =>
    if entry.status = Status.gap then
      (p, Except.error (Reject.duplicated entry.inner.tx.txHash))
    else
      (setEntryGap p id, Except.ok ())
  | none => (p, Except.error (Reject.malformed "invalid short_id"))

/-- `proposed_rtx`. -/
def proposedRtx (p : TxPool) (id : Nat) : TxPool × Except Reject Unit :=
  match getById p.entries id with
  | some entry =>
    if entry.status = Status.proposed then
      (p, Except.error (Reject.duplicated entry.inner.tx.txHash))
    else
      (setEntryProposed p id, Except.ok ())
  | none => (p, Except.error (Reject.malformed "invalid short_id"))

/-- Pool with a single Proposed entry (id 7), for the C5 counterexample. -/
def c5Pool : TxPool :=
  { config := exCfg
    entries := [⟨Status.proposed, ⟨⟨7, 7, [exOut 0], 1, [], []⟩, 100, 10, 200, 0⟩⟩]
    committedTxsHashCache := []
    totalTxSize := 100
    totalTxCycles := 10
    snapshot := [500] }

/-- `remove_expired`, with the current time passed explicitly (the source
reads `unix_time_as_millis()`): collect every entry with
`expiry + timestamp < now_ms`, then remove each one (alone, without
descendants) and report it via `call_reject` with `Reject::Expiry`. -/
def expireStep (acc : TxPool × List (TxEntry × Reject)) (e : TxEntry) :
    TxPool × List (TxEntry × Reject) :=
  let pr := poolMapRemoveEntry acc.1 e.tx.shortId
  let pe := callReject pr.1 e (Reject.expiry e.timestamp)
  (pe.1, acc.2 ++ [pe.2])

def removeExpired (p : TxPool) (nowMs : Nat) :
    TxPool × List (TxEntry × Reject) :=
  let removed := (p.entries.filter
    (fun e => decide (p.config.expiryMs + e.inner.timestamp < nowMs))).map
      (fun e => e.inner)
  removed.foldl expireStep (p, [])

/-- Pool whose single entry (id 7) has `timestamp + expiry = now` at
`now = 10`, for the C6 boundary counterexample; its config expiry is 10ms. -/
def c6Pool : TxPool :=
  { config := { exCfg with expiryMs := 10 }
    entries := [⟨Status.pending, ⟨⟨7, 7, [exOut 0], 1, [], []⟩, 100, 10, 200, 0⟩⟩]
    committedTxsHashCache := []
    totalTxSize := 100
    totalTxCycles := 10
    snapshot := [500] }

/-- Sum of the virtual sizes of the entries in the pool. -/
def sizeSum (entries : List PoolEntry) : Nat :=
  (entries.map (fun e => e.inner.size)).sum

/-- Sum of the cycles of the entries in the pool. -/
def cycleSum (entries : List PoolEntry) : Nat :=
  (entries.map (fun e => e.inner.cycles)).sum

/-- Modelled from the spec (§9): `TxEntry::fee_rate` as fixed-point
integer arithmetic, `fee * 1000 / size`. -/
def entryFeeRate (e : TxEntry) : Nat := e.fee * 1000 / e.size

/-- Modelled from the spec (§4.2): the effective eviction score,
`min(fee/size, ancestors_fee/ancestors_size)` in fixed-point integer
arithmetic, with the ancestor accumulators derived from the graph. -/
def effRate (entries : List PoolEntry) (e : PoolEntry) : Nat :=
  let ancEntries := (calcAncestorsOfTx entries e.inner.tx).filterMap
    (fun id => getById entries id)
  let af := e.inner.fee + (ancEntries.map (fun a => a.inner.fee)).sum
  let asz := e.inner.size + (ancEntries.map (fun a => a.inner.size)).sum
  min (entryFeeRate e.inner) (af * 1000 / asz)

/-- Modelled from the spec (§4.7): `PoolMap::next_evict_entry` (not under
`src/`) picks, within the given status bucket, an entry with the lowest
effective score. -/
def nextEvictEntry (p : TxPool) (st : Status) : Option Nat :=
  match p.entries.filter (fun e => decide (e.status = st)) with
  | [] => none
  | b :: bs => some ((bs.foldl (fun best c =>
      if effRate p.entries c < effRate p.entries best then c else best)
        b).entryId)

/-- The eviction candidate: scan the buckets Pending → Gap → Proposed. -/
def nextEvict (p : TxPool) : Option Nat :=
  match nextEvictEntry p Status.pending with
  | some id => some id
  | none =>
    match nextEvictEntry p Status.gap with
    | some id => some id
    | none => nextEvictEntry p Status.proposed

/-- The `Reject::Full` message carrying the victim's fee rate. -/
def fullMsg (e : TxEntry) : String :=
  "the fee_rate for this transaction is: " ++ toString (entryFeeRate e)

/-- The while-loop of `limit_size`, fuelled by the entry count (each
iteration removes at least one entry, so the fuel suffices). -/
def limitSizeAux : Nat → TxPool → List (TxEntry × Reject) →
    TxPool × List (TxEntry × Reject)
  | 0, p, evts => (p, evts)
  | fuel + 1, p, evts =>
    if p.totalTxSize ≤ p.config.maxTxPoolSize then (p, evts)
    else
      match nextEvict p with
      | none => (p, evts)
      | some id =>
        let pr := removeWithDescAndReject p id (fun e => Reject.full (fullMsg e))
        limitSizeAux fuel pr.1 (evts ++ pr.2)

/-- `limit_size`: evict lowest-scored entries (with descendants) while
`total_tx_size > max_tx_pool_size`, reporting each removal as
`Reject::Full`. -/
def limitSize (p : TxPool) : TxPool × List (TxEntry × Reject) :=
  limitSizeAux p.entries.length p []

/-- `remove_tx`. -/
def removeTx (p : TxPool) (id : Nat) : TxPool × Bool :=
  let pr := poolMapRemoveEntryAndDescendants p id
  if !pr.2.isEmpty then
    (pr.2.foldl (fun acc e =>
      updateStaticsForRemoveTx acc e.inner.size e.inner.cycles) pr.1, true)
  else
    match poolMapRemoveEntry pr.1 id with
    | (p2, some entry) =>
      (updateStaticsForRemoveTx p2 entry.inner.size entry.inner.cycles, true)
    | (p2, none) => (p2, false)

/-- One conflicting spender: remove it with descendants, reporting each
removed entry as `Reject::Resolve(Dead(outpoint))`. -/
def resolveStep (i : OutPoint) (acc : TxPool × List (TxEntry × Reject))
    (sid : Nat) : TxPool × List (TxEntry × Reject) :=
  let pr := removeWithDescAndReject acc.1 sid
    (fun _ => Reject.resolve (ResolveErr.dead i))
  (pr.1, acc.2 ++ pr.2)

/-- Modelled from the spec (§4.1): `PoolMap::resolve_conflict` (not
under `src/`): for each outpoint spent by the committed transaction, any
pool entry found spending it is removed with its descendants and reported
as rejected. -/
def resolveConflict (p : TxPool) (tx : Tx) : TxPool × List (TxEntry × Reject) :=
  tx.inputs.foldl (fun acc i =>
    ((acc.1.entries.filter (fun e => decide (i ∈ e.inner.tx.inputs))).map
      PoolEntry.entryId).foldl (resolveStep i) acc) (p, [])

/-- Modelled from the spec (§4.1): `resolve_conflict_header_dep` (not
under `src/`): every entry referencing a detached header is removed with
its descendants and reported as `Reject::Resolve`. -/
def resolveConflictHeaderDep (p : TxPool) (detached : List Nat) :
    TxPool × List (TxEntry × Reject) :=
  ((p.entries.filter (fun e =>
    e.inner.tx.headerDeps.any (fun hh => inList hh detached))).map
      PoolEntry.entryId).foldl (fun acc aid =>
    let pr := removeWithDescAndReject acc.1 aid
      (fun _ => Reject.resolve (ResolveErr.invalidHeader (detached.headD 0)))
    (pr.1, acc.2 ++ pr.2)) (p, [])

/-- `LruCache::put` for the committed-hash cache: most-recent first, the
older binding of the same key dropped, capacity 100,000. -/
def lruPut (cache : List (Nat × Nat)) (k v : Nat) : List (Nat × Nat) :=
  ((k, v) :: cache.filter (fun q => decide (q.1 ≠ k))).take
    COMMITTED_HASH_CACHE_SIZE

/-- `LruCache::peek`. -/
def lruPeek (cache : List (Nat × Nat)) (k : Nat) : Option Nat :=
  (cache.find? (fun q => decide (q.1 = k))).map (fun q => q.2)

/-- `remove_committed_tx`: remove the committed transaction's own entry
(reported via `call_committed`), then resolve input conflicts. -/
def removeCommittedTx (p : TxPool) (tx : Tx) :
    TxPool × List TxEntry × List (TxEntry × Reject) :=
  let pr := poolMapRemoveEntry p tx.shortId
  match pr.2 with
  | some entry =>
    let pc := callCommitted pr.1 entry.inner
    let rc := resolveConflict pc.1 tx
    (rc.1, [pc.2], rc.2)
  | none =>
    let rc := resolveConflict pr.1 tx
    (rc.1, [], rc.2)

/-- The per-transaction step of `remove_committed_txs`: process the
committed transaction, then record its hash in the committed LRU keyed by
its short id. -/
def committedStep (acc : TxPool × List TxEntry × List (TxEntry × Reject))
    (tx : Tx) : TxPool × List TxEntry × List (TxEntry × Reject) :=
  let r := removeCommittedTx acc.1 tx
  let p2 := { r.1 with committedTxsHashCache := lruPut r.1.committedTxsHashCache tx.shortId tx.txHash }
  (p2, acc.2.1 ++ r.2.1, acc.2.2 ++ r.2.2)

/-- `remove_committed_txs`: process every committed transaction, then, if
any headers were detached, resolve header-dep conflicts. -/
def removeCommittedTxs (p : TxPool) (txs : List Tx) (detachedHeaders : List Nat) :
    TxPool × List TxEntry × List (TxEntry × Reject) :=
  let r := txs.foldl committedStep (p, [], [])
  if detachedHeaders.isEmpty then r
  else
    let hr := resolveConflictHeaderDep r.1 detachedHeaders
    (hr.1, r.2.1, r.2.2 ++ hr.2)

/-- Insert into a key-sorted list (structural recursion, so concrete
examples evaluate in the kernel). -/
def insertByKey {α : Type} (key : α → Nat) (a : α) : List α → List α
  | [] => [a]
  | b :: bs => if key a ≤ key b then a :: b :: bs else b :: insertByKey key a bs

/-- Insertion sort by a `Nat` key: the model of `sort_unstable_by_key`. -/
def sortByKey {α : Type} (key : α → Nat) : List α → List α
  | [] => []
  | a :: as => insertByKey key a (sortByKey key as)

/-- `TxEntry::reset_statistic_state`. In this embedding the accumulators
are derived from the graph (invariant 4 of §3), so nothing is stored to
reset: re-adding derives the fresh values. -/
def TxEntry.resetStatisticState (e : TxEntry) : TxEntry := e

/-- `ancestors_count`: one plus the number of strict in-pool ancestors
(derived, per invariant 4 of §3). -/
def entryAncCount (entries : List PoolEntry) (e : TxEntry) : Nat :=
  (calcAncestorsOfTx entries e.tx).length + 1

/-- The loop body of `remove_by_detached_proposal` for a single id:
entries in status Pending are untouched; otherwise the entry is removed
with its descendants, the removed entries are sorted by ancestors count
ascending, their statistic state reset, and each is re-added as Pending. -/
def detachOne (p : TxPool) (id : Nat) : TxPool :=
  match getById p.entries id with
  | none => p
  | some e =>
    if e.status = Status.pending then p
    else
      let orig := p.entries
      let pr := poolMapRemoveEntryAndDescendants p id
      let sorted := sortByKey (fun en => entryAncCount orig en.inner) pr.2
      sorted.foldl (fun acc en => (addPending acc en.inner.resetStatisticState).1) pr.1

/-- `remove_by_detached_proposal`. -/
def removeByDetachedProposal (p : TxPool) (ids : List Nat) : TxPool :=
  ids.foldl detachOne p

/-- `clear`. -/
def clear (p : TxPool) (snapshot : List Nat) : TxPool :=
  { config := p.config
    entries := []
    committedTxsHashCache := []
    totalTxSize := 0
    totalTxCycles := 0
    snapshot := snapshot }

/-- The public pool operations of the claim on aggregate statistics. -/
inductive PoolOp where
  | opAddPending (e : TxEntry)
  | opAddGap (e : TxEntry)
  | opAddProposed (e : TxEntry)
  | opRemoveCommittedTxs (txs : List Tx) (detachedHeaders : List Nat)
  | opRemoveExpired (nowMs : Nat)
  | opLimitSize
  | opRemoveByDetachedProposal (ids : List Nat)
  | opRemoveTx (id : Nat)
  | opClear (snapshot : List Nat)

/-- Modelled from the spec (§4.1, §6): the admission flow (outside
`src/`) pairs a successful `add_*` with `update_statics_for_add_tx`. -/
def applyAdd (p : TxPool) (e : TxEntry) (st : Status) : TxPool :=
  let r := poolMapAddEntry p e st
  match r.2 with
  | Except.ok true => updateStaticsForAddTx r.1 e.size e.cycles
  | _ => r.1

/-- Apply one public operation to the pool. -/
def applyOp (p : TxPool) (op : PoolOp) : TxPool :=
  match op with
  | PoolOp.opAddPending e => applyAdd p e Status.pending
  | PoolOp.opAddGap e => applyAdd p e Status.gap
  | PoolOp.opAddProposed e => applyAdd p e Status.proposed
  | PoolOp.opRemoveCommittedTxs txs detached =>
    (removeCommittedTxs p txs detached).1
  | PoolOp.opRemoveExpired nowMs => (removeExpired p nowMs).1
  | PoolOp.opLimitSize => (limitSize p).1
  | PoolOp.opRemoveByDetachedProposal ids => removeByDetachedProposal p ids
  | PoolOp.opRemoveTx id => (removeTx p id).1
  | PoolOp.opClear snapshot => clear p snapshot

/-- Invariant 6 of §3: every entry's ancestor count is within the bound. -/
def AncBound (p : TxPool) : Prop :=
  ∀ e ∈ p.entries,
    (calcAncestorsOfTx p.entries e.inner.tx).length ≤
      p.config.maxAncestorsCount

/-- The dependency graph has no cycles: no entry is its own ancestor. -/
def Acyclic (entries : List PoolEntry) : Prop :=
  ∀ e ∈ entries, e.entryId ∉ calcAncestorsOfTx entries e.inner.tx

/-- Well-formedness of a pool state: duplicate-free ids, aggregates in
step with the entry set (invariant 1 of §3), the ancestor bound
(invariant 6) and acyclicity of the dependency graph. -/
def WF (p : TxPool) : Prop :=
  (poolIds p.entries).Nodup ∧
  p.totalTxSize = sizeSum p.entries ∧
  p.totalTxCycles = cycleSum p.entries ∧
  AncBound p ∧ Acyclic p.entries

/-- A pool simulates into another: every entry has a counterpart with the
same id and transaction (statuses and order may differ). -/
def PoolLe (sub sup : List PoolEntry) : Prop :=
  ∀ e ∈ sub, ∃ e2 ∈ sup, e2.entryId = e.entryId ∧ e2.inner.tx = e.inner.tx

/-- Re-adding a removed entry as Pending (the inner entry is preserved). -/
def pendingize (e : PoolEntry) : PoolEntry := ⟨Status.pending, e.inner⟩

/-- The entries kept by `detachOne` (outside the removed closure). -/
def detachKept (p : TxPool) (id : Nat) : List PoolEntry :=
  p.entries.filter (fun x =>
    !(inList x.entryId (id :: calcDescendants p.entries id)))

/-- The entries removed by `detachOne` (the id with its descendants). -/
def detachRemoved (p : TxPool) (id : Nat) : List PoolEntry :=
  p.entries.filter (fun x =>
    inList x.entryId (id :: calcDescendants p.entries id))

/-- The removed entries sorted by ancestors count ascending. -/
def detachSorted (p : TxPool) (id : Nat) : List PoolEntry :=
  sortByKey (fun en => entryAncCount p.entries en.inner) (detachRemoved p id)

/-- Pool over its size limit: two independent pending entries of 100 bytes
each against a 150-byte limit. -/
def c7Pool : TxPool :=
  { config := { minFeeRate := 1000, minRbfRate := 2000, maxTxPoolSize := 150, maxAncestorsCount := 25, expiryMs := 3600000 }
    entries := [⟨Status.pending, ⟨⟨1, 1, [exOut 0], 1, [], []⟩, 100, 10, 100, 0⟩⟩, ⟨Status.pending, ⟨⟨2, 2, [exOut 1], 1, [], []⟩, 100, 10, 500, 0⟩⟩]
    committedTxsHashCache := []
    totalTxSize := 200
    totalTxCycles := 20
    snapshot := [500] }

/-- Pool with a Gap entry (id 1) whose output is spent by a Pending child
(id 2), plus an unrelated Pending entry (id 3). -/
def c9Pool : TxPool :=
  { config := exCfg
    entries := [⟨Status.gap, ⟨⟨1, 1, [exOut 0], 1, [], []⟩, 100, 10, 100, 0⟩⟩, ⟨Status.pending, ⟨⟨2, 2, [⟨1, 0⟩], 1, [], []⟩, 100, 10, 100, 0⟩⟩, ⟨Status.pending, ⟨⟨3, 3, [exOut 2], 1, [], []⟩, 100, 10, 100, 0⟩⟩]
    committedTxsHashCache := []
    totalTxSize := 300
    totalTxCycles := 30
    snapshot := [500] }

/-- The committed-hash cache holds the binding `(sid, hv)` behind at most
`cnt` fresher bindings, none of which shares the key. -/
def CacheHolds (cache : List (Nat × Nat)) (sid hv cnt : Nat) : Prop :=
  ∃ l1 l2, cache = l1 ++ (sid, hv) :: l2 ∧
    (∀ q ∈ l1, q.1 ≠ sid) ∧ l1.length ≤ cnt

/-- A committed transaction (hash 555, short id 50) spending `exOut 0`. -/
def c8Tx : Tx := ⟨555, 50, [exOut 0], 1, [], []⟩

/-- Pool holding the committed transaction itself (id 50), a conflicting
spender of the same outpoint (id 60) with a descendant (id 61), and an
entry depending on header 7 (id 70). -/
def c8Pool : TxPool :=
  { config := exCfg
    entries := [⟨Status.proposed, ⟨c8Tx, 100, 10, 100, 0⟩⟩, ⟨Status.pending, ⟨⟨60, 60, [exOut 0], 1, [], []⟩, 100, 10, 100, 0⟩⟩, ⟨Status.pending, ⟨⟨61, 61, [⟨60, 0⟩], 1, [], []⟩, 100, 10, 100, 0⟩⟩, ⟨Status.pending, ⟨⟨70, 70, [exOut 3], 1, [], [7]⟩, 100, 10, 100, 0⟩⟩]
    committedTxsHashCache := []
    totalTxSize := 400
    totalTxCycles := 40
    snapshot := [500] }

/-- Removal closedness relative to the original entry set: once an entry
other than a banned (committed) one is gone from the current pool, every
child it had in the original dependency graph is gone too. -/
def EdgeClosed (base : List PoolEntry) (banned : List Nat) (cur : TxPool) : Prop :=
  ∀ aid cid, parentEdgeB base aid cid = true → ¬ aid ∈ banned →
    ¬ aid ∈ poolIds cur.entries → ¬ cid ∈ poolIds cur.entries

/-- Invariant carried through `remove_committed_txs`: duplicate-free ids,
entries drawn from the original pool, and removal closedness. -/
def ResolveInv (base : List PoolEntry) (banned : List Nat) (cur : TxPool) : Prop :=
  (poolIds cur.entries).Nodup ∧ (∀ e ∈ cur.entries, e ∈ base) ∧
    EdgeClosed base banned cur

theorem inList_iff {α : Type} [DecidableEq α] (a : α) (l : List α) :
    inList a l = true ↔ a ∈ l := by
  simp [inList]

theorem length_filter_lt_of_imp (l : List Nat) (p q : Nat → Bool)
    (himp : ∀ a, q a = true → p a = true) (i : Nat) (hil : i ∈ l)
    (hpi : p i = true) (hqi : q i = false) :
    (l.filter q).length < (l.filter p).length := by
  have h1 : l.filter q = (l.filter p).filter q := by
    rw [List.filter_filter]
    congr 1
    funext a
    by_cases hq : q a = true
    · simp [hq, himp a hq]
    · simp only [Bool.not_eq_true] at hq
      simp [hq]
  have hsub : List.Sublist ((l.filter p).filter q) (l.filter p) :=
    List.filter_sublist _
  have hle : ((l.filter p).filter q).length ≤ (l.filter p).length :=
    hsub.length_le
  rcases Nat.lt_or_ge ((l.filter q).length) ((l.filter p).length) with h | h
  · exact h
  · exfalso
    have heq : (l.filter q).length = (l.filter p).length := by
      rw [h1] at h ⊢
      omega
    have := hsub.eq_of_length (by rw [← h1]; exact heq)
    rw [← h1] at this
    have hi : i ∈ l.filter p := List.mem_filter.mpr ⟨hil, hpi⟩
    rw [← this] at hi
    have := (List.mem_filter.mp hi).2
    rw [hqi] at this
    exact Bool.noConfusion this

theorem mem_relNew (allIds : List Nat) (adj : Nat → Nat → Bool)
    (s : List Nat) (x : Nat) :
    x ∈ relNew allIds adj s ↔
      x ∈ allIds ∧ x ∉ s ∧ ∃ a ∈ s, adj a x = true := by
  simp only [relNew, List.mem_dedup, List.mem_filter, Bool.and_eq_true,
    Bool.not_eq_true', List.any_eq_true]
  constructor
  · rintro ⟨hx, hns, a, ha, hadj⟩
    refine ⟨hx, ?_, a, ha, hadj⟩
    intro hmem
    rw [(inList_iff x s).mpr hmem] at hns
    exact Bool.noConfusion hns
  · rintro ⟨hx, hns, a, ha, hadj⟩
    refine ⟨hx, ?_, a, ha, hadj⟩
    by_cases h : inList x s = true
    · exact absurd ((inList_iff x s).mp h) hns
    · simpa using h

theorem availCount_lt (allIds : List Nat) (adj : Nat → Nat → Bool)
    (s : List Nat) (hne : relNew allIds adj s ≠ []) :
    availCount allIds (s ++ relNew allIds adj s) < availCount allIds s := by
  rcases List.exists_mem_of_ne_nil _ hne with ⟨i, hi⟩
  rcases (mem_relNew allIds adj s i).mp hi with ⟨hiall, hins, -⟩
  apply length_filter_lt_of_imp
  · intro a ha
    simp only [Bool.not_eq_true'] at ha ⊢
    by_cases h : inList a s = true
    · exfalso
      have : a ∈ s ++ relNew allIds adj s :=
        List.mem_append.mpr (Or.inl ((inList_iff a s).mp h))
      rw [(inList_iff _ _).mpr this] at ha
      exact Bool.noConfusion ha
    · simpa using h
  · exact List.mem_dedup.mpr hiall
  · simp only [Bool.not_eq_true']
    by_cases h : inList i s = true
    · exact absurd ((inList_iff i s).mp h) hins
    · simpa using h
  · show (!(inList i (s ++ relNew allIds adj s))) = false
    rw [(inList_iff _ _).mpr (List.mem_append.mpr (Or.inr hi))]
    rfl

theorem relClosureAux_extensive (allIds : List Nat) (adj : Nat → Nat → Bool)
    (fuel : Nat) : ∀ s : List Nat, ∀ x ∈ s, x ∈ relClosureAux allIds adj fuel s := by
  induction fuel with
  | zero => intro s x hx; simpa [relClosureAux] using hx
  | succ n ih =>
    intro s x hx
    simp only [relClosureAux]
    by_cases h : (relNew allIds adj s).isEmpty
    · simpa [h] using hx
    · simp only [h, if_false]
      exact ih _ x (List.mem_append.mpr (Or.inl hx))

theorem relClosureAux_stable (allIds : List Nat) (adj : Nat → Nat → Bool) :
    ∀ fuel s, availCount allIds s ≤ fuel →
      relNew allIds adj (relClosureAux allIds adj fuel s) = [] := by
  intro fuel
  induction fuel with
  | zero =>
    intro s hs
    simp only [relClosureAux]
    by_contra hne
    have := availCount_lt allIds adj s hne
    omega
  | succ n ih =>
    intro s hs
    simp only [relClosureAux]
    by_cases h : (relNew allIds adj s).isEmpty
    · simp only [h, if_true]
      exact List.isEmpty_iff.mp h
    · simp only [h, if_false]
      apply ih
      have hne : relNew allIds adj s ≠ [] := by
        intro he; rw [he] at h; simp at h
      have := availCount_lt allIds adj s hne
      omega

theorem relClosureAux_sound (allIds : List Nat) (adj : Nat → Nat → Bool)
    (seeds : List Nat) :
    ∀ fuel s, (∀ y ∈ s, ReachG allIds adj seeds y) →
      ∀ x ∈ relClosureAux allIds adj fuel s, ReachG allIds adj seeds x := by
  intro fuel
  induction fuel with
  | zero => intro s hr x hx; exact hr x (by simpa [relClosureAux] using hx)
  | succ n ih =>
    intro s hr x hx
    simp only [relClosureAux] at hx
    by_cases h : (relNew allIds adj s).isEmpty
    · simp only [h, if_true] at hx
      exact hr x hx
    · simp only [h, if_false] at hx
      refine ih _ ?_ x hx
      intro y hy
      rcases List.mem_append.mp hy with hy | hy
      · exact hr y hy
      · rcases (mem_relNew allIds adj s y).mp hy with ⟨hall, -, a, ha, hadj⟩
        exact ReachG.step a y (hr a ha) hadj hall

theorem availCount_le (allIds s : List Nat) :
    availCount allIds s ≤ allIds.length := by
  calc availCount allIds s ≤ allIds.dedup.length := (List.filter_sublist _).length_le
    _ ≤ allIds.length := (List.dedup_sublist _).length_le

theorem mem_relClosure_iff (entries : List PoolEntry)
    (adj : Nat → Nat → Bool) (seeds : List Nat) (x : Nat) :
    x ∈ relClosure entries adj seeds ↔
      ReachG (poolIds entries) adj seeds x := by
  constructor
  · intro hx
    exact relClosureAux_sound _ adj seeds _ seeds
      (fun y hy => ReachG.seed y hy) x hx
  · intro hx
    have hstable : relNew (poolIds entries) adj
        (relClosureAux (poolIds entries) adj entries.length seeds) = [] := by
      apply relClosureAux_stable
      calc availCount (poolIds entries) seeds
          ≤ (poolIds entries).length := availCount_le _ _
        _ = entries.length := List.length_map _ _
    induction hx with
    | seed y hy =>
      exact relClosureAux_extensive _ adj _ seeds y hy
    | step a y ha hadj hall ih =>
      by_cases hy : y ∈ relClosure entries adj seeds
      · exact hy
      · exfalso
        have : y ∈ relNew (poolIds entries) adj
            (relClosureAux (poolIds entries) adj entries.length seeds) := by
          apply (mem_relNew _ adj _ y).mpr
          exact ⟨hall, fun hmem => hy hmem, a, ih, hadj⟩
        rw [hstable] at this
        exact absurd this (List.not_mem_nil y)

theorem relClosure_closed (entries : List PoolEntry)
    (adj : Nat → Nat → Bool) (seeds : List Nat) (a x : Nat)
    (ha : a ∈ relClosure entries adj seeds) (hadj : adj a x = true)
    (hx : x ∈ poolIds entries) : x ∈ relClosure entries adj seeds := by
  rw [mem_relClosure_iff] at ha ⊢
  exact ReachG.step a x ha hadj hx

theorem relClosure_seeds_subset (entries : List PoolEntry)
    (adj : Nat → Nat → Bool) (seeds : List Nat) (x : Nat) (hx : x ∈ seeds) :
    x ∈ relClosure entries adj seeds :=
  (mem_relClosure_iff entries adj seeds x).mpr (ReachG.seed x hx)

theorem relClosureAux_nodup (allIds : List Nat) (adj : Nat → Nat → Bool) :
    ∀ fuel s, s.Nodup → (relClosureAux allIds adj fuel s).Nodup := by
  intro fuel
  induction fuel with
  | zero => intro s hs; simpa [relClosureAux] using hs
  | succ n ih =>
    intro s hs
    simp only [relClosureAux]
    by_cases h : (relNew allIds adj s).isEmpty
    · simpa [h] using hs
    · simp only [h, if_false]
      apply ih
      apply List.Nodup.append hs (List.nodup_dedup _)
      intro a has hanw
      rcases (mem_relNew allIds adj s a).mp hanw with ⟨-, hns, -⟩
      exact hns has

theorem relClosure_nodup (entries : List PoolEntry)
    (adj : Nat → Nat → Bool) (seeds : List Nat) (hs : seeds.Nodup) :
    (relClosure entries adj seeds).Nodup :=
  relClosureAux_nodup _ adj _ seeds hs

theorem rbfLoop_ok_iff (pool : TxPool) (rtx : Tx) (ancestors : List Nat) :
    ∀ (conflicts : List PoolEntry) (k : Nat),
    rbfLoop pool rtx ancestors conflicts k = Except.ok () ↔
      ((conflicts = [] ∨
        k + (conflicts.map
            (fun c => (calcDescendants pool.entries c.entryId).length + 1)).sum
          ≤ MAX_REPLACEMENT_CANDIDATES) ∧
       ∀ c ∈ conflicts, perConflictOk pool rtx ancestors c) := by
  intro conflicts
  induction conflicts with
  | nil =>
    intro k
    simp [rbfLoop]
  | cons c rest ih =>
    intro k
    simp only [rbfLoop]
    set descendants := calcDescendants pool.entries c.entryId with hdesc
    by_cases h1 : MAX_REPLACEMENT_CANDIDATES < k + descendants.length + 1
    · simp only [h1, if_true]
      constructor
      · intro h; exact absurd h (by simp)
      · rintro ⟨hbound, -⟩
        exfalso
        rcases hbound with h | h
        · exact absurd h (by simp)
        · simp only [List.map_cons, List.sum_cons] at h
          rw [← hdesc] at h
          omega
    · simp only [h1, if_false]
      by_cases h2 : (descendants.all (fun d => !(inList d ancestors))) = true
      · have h2' : (!(descendants.all (fun d => !(inList d ancestors)))) = false := by
          simp [h2]
        simp only [h2', Bool.false_eq_true, if_false]
        by_cases h3 : ((descendants.filterMap
            (fun id => getById pool.entries id)).any (fun e =>
              rtx.inputs.any
                (fun pt => decide (pt.txHash = e.inner.tx.txHash)))) = true
        · simp only [h3, if_true]
          constructor
          · intro h; exact absurd h (by simp)
          · rintro ⟨-, hall⟩
            exfalso
            rcases List.any_eq_true.mp h3 with ⟨e, he, hany⟩
            rcases List.any_eq_true.mp hany with ⟨pt, hpt, heq⟩
            rcases List.mem_filterMap.mp he with ⟨d, hd, hget⟩
            have := (hall c (List.mem_cons_self c rest)).2.1 d hd e hget pt hpt
            exact this (of_decide_eq_true heq)
        · have h3' : ((descendants.filterMap
              (fun id => getById pool.entries id)).any (fun e =>
                rtx.inputs.any
                  (fun pt => decide (pt.txHash = e.inner.tx.txHash)))) = false :=
            Bool.eq_false_iff.mpr h3
          simp only [h3', Bool.false_eq_true, if_false]
          by_cases h4 : (((descendants.filterMap
              (fun id => getById pool.entries id)).map (fun e => e.status) ++
                [c.status]).any
                  (fun s => !(inList s [Status.pending, Status.gap]))) = true
          · simp only [h4, if_true]
            constructor
            · intro h; exact absurd h (by simp)
            · rintro ⟨-, hall⟩
              exfalso
              rcases List.any_eq_true.mp h4 with ⟨s, hs, hbad⟩
              have hsgood : s = Status.pending ∨ s = Status.gap := by
                rcases List.mem_append.mp hs with hs | hs
                · rcases List.mem_map.mp hs with ⟨e, he, rfl⟩
                  rcases List.mem_filterMap.mp he with ⟨d, hd, hget⟩
                  exact (hall c (List.mem_cons_self c rest)).2.2.2 d hd e hget
                · have : s = c.status := by simpa using hs
                  subst this
                  exact (hall c (List.mem_cons_self c rest)).2.2.1
              have : inList s [Status.pending, Status.gap] = true := by
                apply (inList_iff _ _).mpr
                rcases hsgood with rfl | rfl <;> simp
              rw [this] at hbad
              exact Bool.noConfusion hbad
          · have h4' : (((descendants.filterMap
                (fun id => getById pool.entries id)).map (fun e => e.status) ++
                  [c.status]).any
                    (fun s => !(inList s [Status.pending, Status.gap]))) = false :=
              Bool.eq_false_iff.mpr h4
            simp only [h4', Bool.false_eq_true, if_false]
            rw [ih (k + descendants.length + 1)]
            have hperc : perConflictOk pool rtx ancestors c := by
              refine ⟨?_, ?_, ?_, ?_⟩
              · intro d hd hmem
                have := List.all_eq_true.mp h2 d hd
                rw [(inList_iff d ancestors).mpr hmem] at this
                exact Bool.noConfusion this
              · intro d hd e hget pt hpt heq
                have : ((descendants.filterMap
                    (fun id => getById pool.entries id)).any (fun e =>
                      rtx.inputs.any
                        (fun pt => decide (pt.txHash = e.inner.tx.txHash)))) = true := by
                  apply List.any_eq_true.mpr
                  exact ⟨e, List.mem_filterMap.mpr ⟨d, hd, hget⟩,
                    List.any_eq_true.mpr ⟨pt, hpt, decide_eq_true heq⟩⟩
                rw [h3'] at this
                exact Bool.noConfusion this
              · by_contra hc
                push_neg at hc
                have : ((((descendants.filterMap
                    (fun id => getById pool.entries id)).map (fun e => e.status)) ++
                      [c.status]).any
                        (fun s => !(inList s [Status.pending, Status.gap]))) = true := by
                  apply List.any_eq_true.mpr
                  refine ⟨c.status, List.mem_append.mpr (Or.inr (by simp)), ?_⟩
                  have : inList c.status [Status.pending, Status.gap] = false := by
                    by_cases h : inList c.status [Status.pending, Status.gap] = true
                    · exfalso
                      have := (inList_iff _ _).mp h
                      simp only [List.mem_cons, List.mem_singleton,
                        List.not_mem_nil, or_false] at this
                      exact absurd this (by tauto)
                    · simpa using h
                  simp [this]
                rw [h4'] at this
                exact Bool.noConfusion this
              · intro d hd e hget
                by_contra hc
                push_neg at hc
                have : ((((descendants.filterMap
                    (fun id => getById pool.entries id)).map (fun e => e.status)) ++
                      [c.status]).any
                        (fun s => !(inList s [Status.pending, Status.gap]))) = true := by
                  apply List.any_eq_true.mpr
                  refine ⟨e.status, List.mem_append.mpr (Or.inl
                    (List.mem_map.mpr ⟨e, List.mem_filterMap.mpr ⟨d, hd, hget⟩, rfl⟩)), ?_⟩
                  have : inList e.status [Status.pending, Status.gap] = false := by
                    by_cases h : inList e.status [Status.pending, Status.gap] = true
                    · exfalso
                      have := (inList_iff _ _).mp h
                      simp only [List.mem_cons, List.mem_singleton,
                        List.not_mem_nil, or_false] at this
                      exact absurd this (by tauto)
                    · simpa using h
                  simp [this]
                rw [h4'] at this
                exact Bool.noConfusion this
            constructor
            · rintro ⟨hbound, hall⟩
              constructor
              · right
                simp only [List.map_cons, List.sum_cons]
                rw [← hdesc]
                rcases hbound with hrest | hbound
                · subst hrest
                  simp only [List.map_nil, List.sum_nil, Nat.add_zero]
                  omega
                · omega
              · intro x hx
                rcases List.mem_cons.mp hx with rfl | hx
                · exact hperc
                · exact hall x hx
            · rintro ⟨hbound, hall⟩
              constructor
              · rcases hbound with hne | hbound
                · exact absurd hne (by simp)
                · cases rest with
                  | nil => exact Or.inl rfl
                  | cons r rs =>
                    right
                    simp only [List.map_cons, List.sum_cons] at hbound ⊢
                    rw [← hdesc] at hbound
                    omega
              · intro x hx
                exact hall x (List.mem_cons.mpr (Or.inr hx))
      · have h2' : (!(descendants.all (fun d => !(inList d ancestors)))) = true := by
          simp only [Bool.not_eq_true'] at h2 ⊢
          simpa using h2
        simp only [h2', if_true]
        constructor
        · intro h; exact absurd h (by simp)
        · rintro ⟨-, hall⟩
          exfalso
          apply h2
          apply List.all_eq_true.mpr
          intro d hd
          have := (hall c (List.mem_cons_self c rest)).1 d hd
          by_cases h : inList d ancestors = true
          · exact absurd ((inList_iff _ _).mp h) this
          · simp only [Bool.not_eq_true'] at h ⊢; simp [h]

theorem foldl_safeAdd_none (fees : List Nat) :
    fees.foldl (fun acc f => acc.bind (fun x => safeAdd x f)) none = none := by
  induction fees with
  | nil => rfl
  | cons g gs ih => simpa using ih

theorem foldl_safeAdd_eq (fees : List Nat) :
    ∀ a : Nat, a ≤ CAP_MAX →
      fees.foldl (fun acc f => acc.bind (fun x => safeAdd x f)) (some a) =
        if a + fees.sum ≤ CAP_MAX then some (a + fees.sum) else none := by
  induction fees with
  | nil => intro a ha; simp [ha]
  | cons f rest ih =>
    intro a ha
    simp only [List.foldl_cons, List.sum_cons]
    have hred : ((some a).bind fun x => safeAdd x f) = safeAdd a f := rfl
    rw [hred]
    by_cases h : a + f ≤ CAP_MAX
    · rw [show safeAdd a f = some (a + f) from by simp [safeAdd, h]]
      rw [ih (a + f) h]
      by_cases h2 : a + f + rest.sum ≤ CAP_MAX
      · rw [if_pos h2, if_pos (by omega)]
        congr 1
        omega
      · rw [if_neg h2, if_neg (by omega)]
    · rw [show safeAdd a f = none from by simp [safeAdd]; omega]
      rw [foldl_safeAdd_none, if_neg (by omega)]

theorem calculateMinReplaceFee_eq (cfg : TxPoolConfig)
    (conflicts : List PoolEntry) (size : Nat) :
    calculateMinReplaceFee cfg conflicts size =
      if conflictsFees conflicts + feeRateFee cfg.minRbfRate size ≤ CAP_MAX
      then some (conflictsFees conflicts + feeRateFee cfg.minRbfRate size)
      else none := by
  unfold calculateMinReplaceFee
  have hfold : conflicts.foldl
      (fun acc c => acc.bind (fun a => safeAdd a c.inner.fee)) (some 0) =
      (conflicts.map (fun c => c.inner.fee)).foldl
        (fun acc f => acc.bind (fun x => safeAdd x f)) (some 0) := by
    rw [List.foldl_map]
  rw [hfold, foldl_safeAdd_eq _ 0 (by simp [CAP_MAX])]
  simp only [Nat.zero_add, conflictsFees]
  by_cases h : (conflicts.map (fun c => c.inner.fee)).sum ≤ CAP_MAX
  · rw [if_pos h]
    simp only [Option.bind_some, safeAdd]
    rfl
  · rw [if_neg h, if_neg (by omega)]
    rfl

theorem checkRbfInner_ok_iff (pool : TxPool) (snapshot : List Nat)
    (rtx : Tx) (conflicts : List PoolEntry) (fee txSize : Nat) :
    checkRbfInner pool snapshot rtx conflicts fee txSize = Except.ok () ↔
      SpecRbfRules pool snapshot rtx conflicts fee txSize := by
  unfold checkRbfInner SpecRbfRules
  rw [calculateMinReplaceFee_eq]
  by_cases hov : conflictsFees conflicts + feeRateFee pool.config.minRbfRate
      txSize ≤ CAP_MAX
  · rw [if_pos hov]
    by_cases hfee : fee < conflictsFees conflicts +
        feeRateFee pool.config.minRbfRate txSize
    · simp only [hfee, if_true]
      constructor
      · intro h; exact absurd h (by simp)
      · rintro ⟨⟨-, hle⟩, -⟩; omega
    · simp only [hfee, if_false]
      by_cases h2 : (rtx.inputs.any (fun pt =>
          !(inList pt ((conflicts.map (fun c => c.inner.tx.inputs)).flatten)) &&
          !(inList pt.txHash snapshot))) = true
      · simp only [h2, if_true]
        constructor
        · intro h; exact absurd h (by simp)
        · rintro ⟨-, hr2, -⟩
          rcases List.any_eq_true.mp h2 with ⟨pt, hpt, hb⟩
          rw [Bool.and_eq_true] at hb
          rcases hb with ⟨hb1, hb2⟩
          rcases hr2 pt hpt with hmem | hmem
          · rw [(inList_iff _ _).mpr hmem] at hb1
            exact Bool.noConfusion hb1
          · rw [(inList_iff _ _).mpr hmem] at hb2
            exact Bool.noConfusion hb2
      · have h2' := Bool.eq_false_iff.mpr h2
        simp only [h2', Bool.false_eq_true, if_false]
        by_cases h3 : (rtx.cellDeps.any (fun dep =>
            inList dep ((conflicts.map
              (fun c => Tx.outPts c.inner.tx)).flatten))) = true
        · simp only [h3, if_true]
          constructor
          · intro h; exact absurd h (by simp)
          · rintro ⟨-, -, hdep, -⟩
            rcases List.any_eq_true.mp h3 with ⟨dep, hd, hb⟩
            exact absurd ((inList_iff _ _).mp hb) (hdep dep hd)
        · have h3' := Bool.eq_false_iff.mpr h3
          simp only [h3', Bool.false_eq_true, if_false]
          rw [rbfLoop_ok_iff]
          constructor
          · rintro ⟨hbound, hall⟩
            refine ⟨⟨hov, by omega⟩, ?_, ?_, ?_, ?_, ?_, ?_⟩
            · intro pt hpt
              by_cases hin : pt ∈ (conflicts.map
                  (fun c => c.inner.tx.inputs)).flatten
              · exact Or.inl hin
              · right
                by_cases hsnap : pt.txHash ∈ snapshot
                · exact hsnap
                · exfalso
                  apply h2
                  apply List.any_eq_true.mpr
                  refine ⟨pt, hpt, ?_⟩
                  rw [Bool.and_eq_true]
                  refine ⟨?_, ?_⟩
                  · simp [inList, hin]
                  · simp [inList, hsnap]
            · intro dep hdep hmem
              apply h3
              apply List.any_eq_true.mpr
              exact ⟨dep, hdep, (inList_iff _ _).mpr hmem⟩
            · rcases hbound with rfl | hbound
              · simp [SpecReplacementBound, MAX_REPLACEMENT_CANDIDATES]
              · unfold SpecReplacementBound
                omega
            · intro c hc d hd
              exact ((hall c hc).1 d hd)
            · intro c hc d hd e hget pt hpt
              exact ((hall c hc).2.1 d hd e hget pt hpt)
            · intro c hc
              exact ⟨((hall c hc).2.2.1), ((hall c hc).2.2.2)⟩
          · rintro ⟨-, -, -, hbound, hdisj, hinp, hstat⟩
            constructor
            · right
              unfold SpecReplacementBound at hbound
              omega
            · intro c hc
              exact ⟨hdisj c hc, hinp c hc, (hstat c hc).1, (hstat c hc).2⟩
  · rw [if_neg hov]
    constructor
    · intro h; exact absurd h (by simp)
    · rintro ⟨⟨hle, -⟩, -⟩; exact absurd hle hov

theorem filterMap_length_eq_iff {α β : Type} (f : α → Option β) :
    ∀ l : List α, (l.filterMap f).length = l.length ↔
      ∀ a ∈ l, (f a).isSome := by
  intro l
  induction l with
  | nil => simp
  | cons x xs ih =>
    cases hx : f x with
    | none =>
      simp only [List.filterMap_cons, hx, List.length_cons]
      constructor
      · intro h
        exfalso
        have := List.length_filterMap_le f xs
        omega
      · intro h
        have := h x (List.mem_cons_self x xs)
        rw [hx] at this
        exact absurd this (by simp)
    | some y =>
      simp only [List.filterMap_cons, hx, List.length_cons, Nat.add_right_cancel_iff]
      rw [ih]
      constructor
      · intro h a ha
        rcases List.mem_cons.mp ha with rfl | ha
        · rw [hx]; rfl
        · exact h a ha
      · intro h a ha
        exact h a (List.mem_cons.mpr (Or.inr ha))

theorem checkRbf_eq_inner (pool : TxPool) (snapshot : List Nat) (rtx : Tx)
    (conflictIds : List Nat) (fee txSize : Nat)
    (h1 : enableRbf pool = true) (h2 : conflictIds ≠ [])
    (h3 : ∀ id ∈ conflictIds, (pool.getPoolEntry id).isSome) :
    checkRbf pool snapshot rtx conflictIds fee txSize =
      some (checkRbfInner pool snapshot rtx
        (conflictIds.filterMap (fun id => pool.getPoolEntry id)) fee txSize) := by
  have hne : conflictIds.isEmpty = false := by
    apply Bool.eq_false_iff.mpr
    intro h
    exact h2 (List.isEmpty_iff.mp h)
  have hlen : (conflictIds.filterMap (fun id => pool.getPoolEntry id)).length
      = conflictIds.length :=
    (filterMap_length_eq_iff _ _).mpr h3
  unfold checkRbf
  rw [h1]
  simp only [Bool.not_true, Bool.false_eq_true, if_false, hne,
    Bool.false_eq_true, if_false]
  rw [if_neg (by rw [hlen]; exact fun h => h rfl)]

theorem checkRbf_some_inv (pool : TxPool) (snapshot : List Nat) (rtx : Tx)
    (conflictIds : List Nat) (fee txSize : Nat) (res : Except Reject Unit)
    (h : checkRbf pool snapshot rtx conflictIds fee txSize = some res) :
    enableRbf pool = true ∧ conflictIds ≠ [] ∧
    (∀ id ∈ conflictIds, (pool.getPoolEntry id).isSome) ∧
    res = checkRbfInner pool snapshot rtx
      (conflictIds.filterMap (fun id => pool.getPoolEntry id)) fee txSize := by
  unfold checkRbf at h
  by_cases h1 : enableRbf pool = true
  · rw [h1] at h
    simp only [Bool.not_true, Bool.false_eq_true, if_false] at h
    by_cases h2 : conflictIds.isEmpty = true
    · rw [h2] at h
      exact absurd h (by simp)
    · have h2' := Bool.eq_false_iff.mpr h2
      rw [h2'] at h
      simp only [Bool.false_eq_true, if_false] at h
      by_cases h3 : (conflictIds.filterMap
          (fun id => pool.getPoolEntry id)).length = conflictIds.length
      · rw [if_neg (by rw [h3]; exact fun hc => hc rfl)] at h
        refine ⟨h1, ?_, (filterMap_length_eq_iff _ _).mp h3, ?_⟩
        · intro he
          rw [he] at h2'
          exact absurd h2' (by simp)
        · exact (Option.some.inj h).symm
      · rw [if_pos h3] at h
        exact absurd h (by simp)
  · have h1' := Bool.eq_false_iff.mpr h1
    rw [h1'] at h
    simp only [Bool.not_false, if_true] at h
    exact absurd h (by simp)

/-- C10: `check_rbf` aborts (its `assert!`s fail, modelled by `none`)
exactly when one of its undocumented preconditions is violated: RBF must
be enabled, the conflict id set must be non-empty, and every conflict id
must have an entry in the pool; in particular an absent conflict id makes
`check_rbf` abort instead of returning an error. -/
theorem checkRbf_aborts_iff (pool : TxPool) (snapshot : List Nat) (rtx : Tx)
    (conflictIds : List Nat) (fee txSize : Nat) :
    checkRbf pool snapshot rtx conflictIds fee txSize = none ↔
      ¬(enableRbf pool = true ∧ conflictIds ≠ [] ∧
        ∀ id ∈ conflictIds, (pool.getPoolEntry id).isSome) := by
  constructor
  · intro hnone hall
    rw [checkRbf_eq_inner pool snapshot rtx conflictIds fee txSize
      hall.1 hall.2.1 hall.2.2] at hnone
    exact Option.noConfusion hnone
  · intro hnall
    unfold checkRbf
    by_cases h1 : enableRbf pool = true
    · rw [h1]
      simp only [Bool.not_true, Bool.false_eq_true, if_false]
      by_cases h2 : conflictIds = []
      · subst h2
        simp
      · have h2' : conflictIds.isEmpty = false := by
          apply Bool.eq_false_iff.mpr
          intro hc
          exact h2 (List.isEmpty_iff.mp hc)
        rw [h2']
        simp only [Bool.false_eq_true, if_false]
        have h3 : ¬ ∀ id ∈ conflictIds, (pool.getPoolEntry id).isSome := by
          intro hc
          exact hnall ⟨h1, h2, hc⟩
        rw [if_pos ?_]
        intro heq
        exact h3 ((filterMap_length_eq_iff _ _).mp heq)
    · have h1' := Bool.eq_false_iff.mpr h1
      rw [h1']
      simp

/-- C1: under the `assert!` preconditions, `check_rbf` accepts exactly
when every RBF rule of spec §4.5 holds for the new transaction against
the conflict set; and whenever `check_rbf` returns an `RBFRejected`
error, the caller (`submitRbf`) leaves the pool byte-identical. -/
theorem checkRbf_accepts_iff_rules (pool : TxPool) (snapshot : List Nat)
    (newEntry : TxEntry) (conflictIds : List Nat)
    (hpre : enableRbf pool = true ∧ conflictIds ≠ [] ∧
      ∀ id ∈ conflictIds, (pool.getPoolEntry id).isSome) :
    (checkRbf pool snapshot newEntry.tx conflictIds newEntry.fee newEntry.size
        = some (Except.ok ()) ↔
      SpecRbfRules pool snapshot newEntry.tx
        (conflictIds.filterMap (fun id => pool.getPoolEntry id))
        newEntry.fee newEntry.size) ∧
    (∀ msg, checkRbf pool snapshot newEntry.tx conflictIds newEntry.fee
        newEntry.size = some (Except.error (Reject.rbfRejected msg)) →
      submitRbf pool snapshot newEntry conflictIds = some (pool, [])) := by
  obtain ⟨h1, h2, h3⟩ := hpre
  have heq := checkRbf_eq_inner pool snapshot newEntry.tx conflictIds
    newEntry.fee newEntry.size h1 h2 h3
  constructor
  · rw [heq]
    constructor
    · intro h
      exact (checkRbfInner_ok_iff pool snapshot newEntry.tx _ newEntry.fee
        newEntry.size).mp (Option.some.inj h)
    · intro h
      exact congrArg some ((checkRbfInner_ok_iff pool snapshot newEntry.tx _
        newEntry.fee newEntry.size).mpr h)
  · intro msg hmsg
    unfold submitRbf
    rw [hmsg]

/-- Witness for C1 at a concrete replacement scenario. -/
theorem checkRbf_accepts_iff_rules_witness :
    (enableRbf rbfPoolSmall = true ∧ ([10] : List Nat) ≠ [] ∧
      ∀ id ∈ ([10] : List Nat), (rbfPoolSmall.getPoolEntry id).isSome) ∧
    ((checkRbf rbfPoolSmall [500] rbfNewEntry.tx [10] rbfNewEntry.fee
        rbfNewEntry.size = some (Except.ok ()) ↔
      SpecRbfRules rbfPoolSmall [500] rbfNewEntry.tx
        (([10] : List Nat).filterMap (fun id => rbfPoolSmall.getPoolEntry id))
        rbfNewEntry.fee rbfNewEntry.size) ∧
    (∀ msg, checkRbf rbfPoolSmall [500] rbfNewEntry.tx [10] rbfNewEntry.fee
        rbfNewEntry.size = some (Except.error (Reject.rbfRejected msg)) →
      submitRbf rbfPoolSmall [500] rbfNewEntry [10] = some (rbfPoolSmall, []))) :=
  ⟨by decide, checkRbf_accepts_iff_rules rbfPoolSmall [500] rbfNewEntry [10]
    (by decide)⟩

/-- C3: when `check_rbf` runs (asserts pass, non-empty conflict set), it
accepts only if the new fee is at least the sum of all conflicting fees
plus `min_rbf_rate.fee(tx_size)`; and if that sum overflows the capacity
type, it returns an `RBFRejected` error instead of accepting. -/
theorem checkRbf_fee_floor (pool : TxPool) (snapshot : List Nat) (rtx : Tx)
    (conflictIds : List Nat) (fee txSize : Nat) (res : Except Reject Unit)
    (hsome : checkRbf pool snapshot rtx conflictIds fee txSize = some res) :
    (res = Except.ok () →
      conflictsFees (conflictIds.filterMap (fun id => pool.getPoolEntry id)) +
          feeRateFee pool.config.minRbfRate txSize ≤ CAP_MAX ∧
      conflictsFees (conflictIds.filterMap (fun id => pool.getPoolEntry id)) +
          feeRateFee pool.config.minRbfRate txSize ≤ fee) ∧
    (CAP_MAX < conflictsFees (conflictIds.filterMap
          (fun id => pool.getPoolEntry id)) +
        feeRateFee pool.config.minRbfRate txSize →
      res = Except.error (Reject.rbfRejected minFeeFailedMsg)) := by
  obtain ⟨h1, h2, h3, hres⟩ := checkRbf_some_inv pool snapshot rtx conflictIds
    fee txSize res hsome
  constructor
  · intro hok
    rw [hok] at hres
    have hrules := (checkRbfInner_ok_iff pool snapshot rtx _ fee txSize).mp
      hres.symm
    exact ⟨hrules.1.1, hrules.1.2⟩
  · intro hov
    rw [hres]
    unfold checkRbfInner
    rw [calculateMinReplaceFee_eq, if_neg (by omega)]

/-- Witness for C3 at a concrete replacement scenario. -/
theorem checkRbf_fee_floor_witness :
    checkRbf rbfPoolSmall [500] rbfNewEntry.tx [10] rbfNewEntry.fee
        rbfNewEntry.size = some (Except.ok ()) ∧
    (((Except.ok () : Except Reject Unit) = Except.ok () →
      conflictsFees (([10] : List Nat).filterMap
          (fun id => rbfPoolSmall.getPoolEntry id)) +
          feeRateFee rbfPoolSmall.config.minRbfRate rbfNewEntry.size ≤ CAP_MAX ∧
      conflictsFees (([10] : List Nat).filterMap
          (fun id => rbfPoolSmall.getPoolEntry id)) +
          feeRateFee rbfPoolSmall.config.minRbfRate rbfNewEntry.size ≤
        rbfNewEntry.fee) ∧
    (CAP_MAX < conflictsFees (([10] : List Nat).filterMap
          (fun id => rbfPoolSmall.getPoolEntry id)) +
        feeRateFee rbfPoolSmall.config.minRbfRate rbfNewEntry.size →
      (Except.ok () : Except Reject Unit) =
        Except.error (Reject.rbfRejected minFeeFailedMsg))) :=
  ⟨by decide, checkRbf_fee_floor rbfPoolSmall [500] rbfNewEntry.tx [10]
    rbfNewEntry.fee rbfNewEntry.size (Except.ok ()) (by decide)⟩

theorem perConflict_checks (pool : TxPool) (rtx : Tx) (ancestors : List Nat)
    (c : PoolEntry) (h : perConflictOk pool rtx ancestors c) :
    ((calcDescendants pool.entries c.entryId).all
        (fun d => !(inList d ancestors))) = true ∧
    (((calcDescendants pool.entries c.entryId).filterMap
        (fun id => getById pool.entries id)).any (fun e =>
          rtx.inputs.any
            (fun pt => decide (pt.txHash = e.inner.tx.txHash)))) = false ∧
    ((((calcDescendants pool.entries c.entryId).filterMap
        (fun id => getById pool.entries id)).map (fun e => e.status) ++
          [c.status]).any
            (fun s => !(inList s [Status.pending, Status.gap]))) = false := by
  obtain ⟨hdisj, hinp, hstat, hstatdesc⟩ := h
  refine ⟨?_, ?_, ?_⟩
  · apply List.all_eq_true.mpr
    intro d hd
    have := hdisj d hd
    simp [inList, this]
  · apply Bool.eq_false_iff.mpr
    intro hx
    rcases List.any_eq_true.mp hx with ⟨e, he, hany⟩
    rcases List.any_eq_true.mp hany with ⟨pt, hpt, heq⟩
    rcases List.mem_filterMap.mp he with ⟨d, hd, hget⟩
    exact hinp d hd e hget pt hpt (of_decide_eq_true heq)
  · apply Bool.eq_false_iff.mpr
    intro hx
    rcases List.any_eq_true.mp hx with ⟨s, hs, hbad⟩
    have hsgood : s = Status.pending ∨ s = Status.gap := by
      rcases List.mem_append.mp hs with hs | hs
      · rcases List.mem_map.mp hs with ⟨e, he, rfl⟩
        rcases List.mem_filterMap.mp he with ⟨d, hd, hget⟩
        exact hstatdesc d hd e hget
      · have : s = c.status := by simpa using hs
        subst this
        exact hstat
    have : inList s [Status.pending, Status.gap] = true := by
      apply (inList_iff _ _).mpr
      rcases hsgood with rfl | rfl <;> simp
    rw [this] at hbad
    exact Bool.noConfusion hbad

theorem rbfLoop_eq_noLimit (pool : TxPool) (rtx : Tx) (ancestors : List Nat) :
    ∀ (conflicts : List PoolEntry) (k : Nat),
      (conflicts = [] ∨
        k + (conflicts.map
          (fun c => (calcDescendants pool.entries c.entryId).length + 1)).sum
          ≤ MAX_REPLACEMENT_CANDIDATES) →
      rbfLoop pool rtx ancestors conflicts k =
        rbfLoopNoLimit pool rtx ancestors conflicts := by
  intro conflicts
  induction conflicts with
  | nil => intro k _; rfl
  | cons c rest ih =>
    intro k h
    rcases h with h | h
    · exact absurd h (by simp)
    · simp only [List.map_cons, List.sum_cons] at h
      simp only [rbfLoop, rbfLoopNoLimit]
      set descendants := calcDescendants pool.entries c.entryId with hdesc
      rw [if_neg (by omega)]
      by_cases hA : (!(descendants.all (fun d => !(inList d ancestors)))) = true
      · rw [if_pos hA, if_pos hA]
      · have hA' := Bool.eq_false_iff.mpr hA
        simp only [hA', Bool.false_eq_true, if_false]
        by_cases hB : ((descendants.filterMap
            (fun id => getById pool.entries id)).any (fun e =>
              rtx.inputs.any
                (fun pt => decide (pt.txHash = e.inner.tx.txHash)))) = true
        · rw [if_pos hB, if_pos hB]
        · have hB' := Bool.eq_false_iff.mpr hB
          simp only [hB', Bool.false_eq_true, if_false]
          by_cases hC : (((descendants.filterMap
              (fun id => getById pool.entries id)).map (fun e => e.status) ++
                [c.status]).any
                  (fun s => !(inList s [Status.pending, Status.gap]))) = true
          · rw [if_pos hC, if_pos hC]
          · have hC' := Bool.eq_false_iff.mpr hC
            simp only [hC', Bool.false_eq_true, if_false]
            apply ih
            cases rest with
            | nil => exact Or.inl rfl
            | cons r rs =>
              right
              omega

theorem rbfLoop_tooMany (pool : TxPool) (rtx : Tx) (ancestors : List Nat) :
    ∀ (conflicts : List PoolEntry) (k : Nat), conflicts ≠ [] →
      (∀ c ∈ conflicts, perConflictOk pool rtx ancestors c) →
      MAX_REPLACEMENT_CANDIDATES < k + (conflicts.map
        (fun c => (calcDescendants pool.entries c.entryId).length + 1)).sum →
      ∃ n, MAX_REPLACEMENT_CANDIDATES < n ∧
        rbfLoop pool rtx ancestors conflicts k =
          Except.error (Reject.rbfRejected (tooManyMsg n)) := by
  intro conflicts
  induction conflicts with
  | nil => intro k h; exact absurd rfl h
  | cons c rest ih =>
    intro k _ hall hgt
    simp only [List.map_cons, List.sum_cons] at hgt
    simp only [rbfLoop]
    set descendants := calcDescendants pool.entries c.entryId with hdesc
    by_cases h1 : MAX_REPLACEMENT_CANDIDATES < k + descendants.length + 1
    · rw [if_pos h1]
      exact ⟨k + descendants.length + 1, h1, rfl⟩
    · rw [if_neg h1]
      obtain ⟨hA, hB, hC⟩ := perConflict_checks pool rtx ancestors c
        (hall c (List.mem_cons_self c rest))
      rw [← hdesc] at hA hB hC
      have hA' : (!(descendants.all (fun d => !(inList d ancestors)))) = false := by
        simp [hA]
      simp only [hA', Bool.false_eq_true, if_false]
      simp only [hB, Bool.false_eq_true, if_false]
      simp only [hC, Bool.false_eq_true, if_false]
      cases rest with
      | nil =>
        exfalso
        simp only [List.map_nil, List.sum_nil, Nat.add_zero] at hgt
        omega
      | cons r rs =>
        apply ih (k + descendants.length + 1) (by simp)
        · intro x hx
          exact hall x (List.mem_cons.mpr (Or.inr hx))
        · simp only [List.map_cons, List.sum_cons] at hgt ⊢
          omega

theorem checkRbfInner_eq_noLimit (pool : TxPool) (snapshot : List Nat)
    (rtx : Tx) (conflicts : List PoolEntry) (fee txSize : Nat)
    (hbound : SpecReplacementBound pool.entries conflicts) :
    checkRbfInner pool snapshot rtx conflicts fee txSize =
      checkRbfInnerNoLimit pool snapshot rtx conflicts fee txSize := by
  unfold checkRbfInner checkRbfInnerNoLimit
  cases hm : calculateMinReplaceFee pool.config conflicts txSize with
  | none => rfl
  | some m =>
    by_cases hf : fee < m
    · simp only [hf, if_true]
    · simp only [hf, if_false]
      by_cases h2 : (rtx.inputs.any (fun pt =>
          !(inList pt ((conflicts.map (fun c => c.inner.tx.inputs)).flatten)) &&
          !(inList pt.txHash snapshot))) = true
      · simp only [h2, if_true]
      · have h2' := Bool.eq_false_iff.mpr h2
        simp only [h2', Bool.false_eq_true, if_false]
        by_cases h3 : (rtx.cellDeps.any (fun dep =>
            inList dep ((conflicts.map
              (fun c => Tx.outPts c.inner.tx)).flatten))) = true
        · simp only [h3, if_true]
        · have h3' := Bool.eq_false_iff.mpr h3
          simp only [h3', Bool.false_eq_true, if_false]
          apply rbfLoop_eq_noLimit
          right
          unfold SpecReplacementBound at hbound
          omega

/-- C4 (amended): under the `assert!` preconditions, rule R5 is exactly
the bound `Σ (1 + |descendants(conflict)|) ≤ 100`: when the bound holds,
`check_rbf` behaves exactly as if the bound check were removed (the rule
never causes rejection); when the bound is exceeded *and the other RBF
rules hold*, `check_rbf` rejects with an `RBFRejected` error whose message
is the "conflict too many txs" message. (As stated, the original claim
fails: when another rule is also violated, the other rule's error message
is returned even though the sum exceeds 100.) -/
theorem rbf_rule5_characterization (pool : TxPool) (snapshot : List Nat)
    (rtx : Tx) (conflictIds : List Nat) (fee txSize : Nat)
    (hpre : enableRbf pool = true ∧ conflictIds ≠ [] ∧
      ∀ id ∈ conflictIds, (pool.getPoolEntry id).isSome) :
    (SpecReplacementBound pool.entries
        (conflictIds.filterMap (fun id => pool.getPoolEntry id)) →
      checkRbf pool snapshot rtx conflictIds fee txSize =
        some (checkRbfInnerNoLimit pool snapshot rtx
          (conflictIds.filterMap (fun id => pool.getPoolEntry id))
          fee txSize)) ∧
    (¬ SpecReplacementBound pool.entries
        (conflictIds.filterMap (fun id => pool.getPoolEntry id)) →
      SpecRbfRulesExceptBound pool snapshot rtx
        (conflictIds.filterMap (fun id => pool.getPoolEntry id)) fee txSize →
      ∃ n, MAX_REPLACEMENT_CANDIDATES < n ∧
        checkRbf pool snapshot rtx conflictIds fee txSize =
          some (Except.error (Reject.rbfRejected (tooManyMsg n)))) := by
  obtain ⟨h1, h2, h3⟩ := hpre
  have heq := checkRbf_eq_inner pool snapshot rtx conflictIds fee txSize
    h1 h2 h3
  set conflicts := conflictIds.filterMap (fun id => pool.getPoolEntry id)
    with hconf
  constructor
  · intro hbound
    rw [heq]
    exact congrArg some (checkRbfInner_eq_noLimit pool snapshot rtx conflicts
      fee txSize hbound)
  · intro hnbound hrules
    obtain ⟨hff, hr2, hdep, hdisj, hinp, hstat⟩ := hrules
    have hcne : conflicts ≠ [] := by
      intro hc
      have hlen := (filterMap_length_eq_iff (fun id => pool.getPoolEntry id)
        conflictIds).mpr h3
      rw [← hconf, hc] at hlen
      simp only [List.length_nil] at hlen
      exact h2 (List.length_eq_zero.mp hlen.symm)
    have h2' : (rtx.inputs.any (fun pt =>
        !(inList pt ((conflicts.map (fun c => c.inner.tx.inputs)).flatten)) &&
        !(inList pt.txHash snapshot))) = false := by
      apply Bool.eq_false_iff.mpr
      intro hx
      rcases List.any_eq_true.mp hx with ⟨pt, hpt, hb⟩
      rw [Bool.and_eq_true] at hb
      rcases hr2 pt hpt with hmem | hmem
      · have hb1 := hb.1
        rw [(inList_iff _ _).mpr hmem] at hb1
        exact Bool.noConfusion hb1
      · have hb2 := hb.2
        rw [(inList_iff _ _).mpr hmem] at hb2
        exact Bool.noConfusion hb2
    have h3' : (rtx.cellDeps.any (fun dep =>
        inList dep ((conflicts.map
          (fun c => Tx.outPts c.inner.tx)).flatten))) = false := by
      apply Bool.eq_false_iff.mpr
      intro hx
      rcases List.any_eq_true.mp hx with ⟨dep, hd, hb⟩
      exact hdep dep hd ((inList_iff _ _).mp hb)
    have hperc : ∀ c ∈ conflicts,
        perConflictOk pool rtx (calcAncestorsOfTx pool.entries rtx) c := by
      intro c hc
      exact ⟨hdisj c hc, hinp c hc, (hstat c hc).1, (hstat c hc).2⟩
    have hgt : MAX_REPLACEMENT_CANDIDATES < 0 + (conflicts.map
        (fun c => (calcDescendants pool.entries c.entryId).length + 1)).sum := by
      unfold SpecReplacementBound at hnbound
      omega
    obtain ⟨n, hn, hloop⟩ := rbfLoop_tooMany pool rtx
      (calcAncestorsOfTx pool.entries rtx) conflicts 0 hcne hperc hgt
    refine ⟨n, hn, ?_⟩
    rw [heq]
    apply congrArg some
    unfold checkRbfInner
    cases hm : calculateMinReplaceFee pool.config conflicts txSize with
    | none =>
      rw [calculateMinReplaceFee_eq, if_pos hff.1] at hm
      exact absurd hm (by simp)
    | some m =>
      rw [calculateMinReplaceFee_eq, if_pos hff.1] at hm
      have hmv : m = conflictsFees conflicts +
          feeRateFee pool.config.minRbfRate txSize := (Option.some.inj hm).symm
      subst hmv
      have hnlt := Nat.not_lt.mpr hff.2
      simp only [hnlt, if_false, h2', h3', Bool.false_eq_true]
      exact hloop

/-- C4 counterexample: a pool in which the replacement count is
`110 > 100` yet `check_rbf` rejects with the fee-floor message (the fee
rule fails first), whose message does not mention "conflict too many
txs"; the original claim's "whenever" therefore fails. -/
theorem rbf_rule5_claim_counterexample :
    MAX_REPLACEMENT_CANDIDATES <
      ((c4Ids.filterMap (fun id => c4Pool.getPoolEntry id)).map
        (fun c => (calcDescendants c4Pool.entries c.entryId).length + 1)).sum ∧
    checkRbf c4Pool [500] c4NewTx c4Ids 0 100 =
      some (Except.error (Reject.rbfRejected (feeMsg 0 1200))) ∧
    strMentions "conflict too many txs" (feeMsg 0 1200) = false := by
  refine ⟨by decide, by decide, by decide⟩

/-- Witness for the amended C4 at the concrete 110-replacement pool. -/
theorem rbf_rule5_characterization_witness :
    (enableRbf c4Pool = true ∧ c4Ids ≠ [] ∧
      ∀ id ∈ c4Ids, (c4Pool.getPoolEntry id).isSome) ∧
    ((SpecReplacementBound c4Pool.entries
        (c4Ids.filterMap (fun id => c4Pool.getPoolEntry id)) →
      checkRbf c4Pool [500] c4NewTx c4Ids 0 100 =
        some (checkRbfInnerNoLimit c4Pool [500] c4NewTx
          (c4Ids.filterMap (fun id => c4Pool.getPoolEntry id)) 0 100)) ∧
    (¬ SpecReplacementBound c4Pool.entries
        (c4Ids.filterMap (fun id => c4Pool.getPoolEntry id)) →
      SpecRbfRulesExceptBound c4Pool [500] c4NewTx
        (c4Ids.filterMap (fun id => c4Pool.getPoolEntry id)) 0 100 →
      ∃ n, MAX_REPLACEMENT_CANDIDATES < n ∧
        checkRbf c4Pool [500] c4NewTx c4Ids 0 100 =
          some (Except.error (Reject.rbfRejected (tooManyMsg n))))) :=
  ⟨by decide, rbf_rule5_characterization c4Pool [500] c4NewTx c4Ids 0 100
    (by decide)⟩

theorem getById_setEntry (entries : List PoolEntry) (id : Nat) (st : Status) :
    getById (entries.map (fun e => if e.entryId = id then { e with status := st } else e)) id
      = (getById entries id).map (fun e => { e with status := st }) := by
  induction entries with
  | nil => rfl
  | cons e rest ih =>
    by_cases h : e.entryId = id
    · have hid : ({ e with status := st } : PoolEntry).entryId = e.entryId := rfl
      simp only [List.map_cons, if_pos h, getById, List.find?_cons]
      rw [show (decide (({ e with status := st } : PoolEntry).entryId = id)) = true
        from by rw [hid]; simp [h]]
      rw [show (decide (e.entryId = id)) = true from by simp [h]]
      rfl
    · simp only [List.map_cons, if_neg h, getById, List.find?_cons]
      rw [show (decide (e.entryId = id)) = false from by simp [h]]
      exact ih

/-- C5 counterexample: an entry in status Proposed is moved to Gap by
`gap_rtx`, which returns `Ok`; the transition is not restricted to
Pending entries. -/
theorem gapRtx_claim_counterexample :
    (getById c5Pool.entries 7).map (fun e => e.status) = some Status.proposed ∧
    (gapRtx c5Pool 7).2 = Except.ok () ∧
    ((gapRtx c5Pool 7).1.getPoolEntry 7).map (fun e => e.status) =
      some Status.gap := by
  refine ⟨by decide, by decide, by decide⟩

/-- C5 (amended): `gap_rtx` permits the transition to Gap whenever the
entry's current status is not Gap (from Pending or Proposed alike); it
returns `Duplicated(hash)` when the entry is already Gap, and `Malformed`
when the short id is not in the pool. -/
theorem gapRtx_spec (p : TxPool) (id : Nat) :
    (getById p.entries id = none →
      gapRtx p id = (p, Except.error (Reject.malformed "invalid short_id"))) ∧
    (∀ e, getById p.entries id = some e → e.status = Status.gap →
      gapRtx p id = (p, Except.error (Reject.duplicated e.inner.tx.txHash))) ∧
    (∀ e, getById p.entries id = some e → e.status ≠ Status.gap →
      (gapRtx p id).2 = Except.ok () ∧
      (gapRtx p id).1 = setEntry p id Status.gap ∧
      ((gapRtx p id).1.getPoolEntry id).map (fun e2 => e2.status) =
        some Status.gap) := by
  refine ⟨?_, ?_, ?_⟩
  · intro hn
    unfold gapRtx
    rw [hn]
  · intro e he hst
    unfold gapRtx
    rw [he]
    simp only [hst, if_pos]
  · intro e he hst
    have hred : gapRtx p id = (setEntryGap p id, Except.ok ()) := by
      unfold gapRtx
      rw [he]
      simp only [if_neg hst]
    rw [hred]
    refine ⟨rfl, rfl, ?_⟩
    show ((setEntryGap p id).getPoolEntry id).map (fun e2 => e2.status) =
      some Status.gap
    unfold setEntryGap setEntry TxPool.getPoolEntry
    simp only
    rw [getById_setEntry]
    rw [he]
    rfl

/-- Witness for the amended C5: at the Proposed entry of `c5Pool`,
`gap_rtx` succeeds and the entry ends in status Gap. -/
theorem gapRtx_spec_witness :
    getById c5Pool.entries 7 =
      some ⟨Status.proposed, ⟨⟨7, 7, [exOut 0], 1, [], []⟩, 100, 10, 200, 0⟩⟩ ∧
    ((gapRtx c5Pool 7).2 = Except.ok () ∧
      (gapRtx c5Pool 7).1 = setEntry c5Pool 7 Status.gap ∧
      ((gapRtx c5Pool 7).1.getPoolEntry 7).map (fun e2 => e2.status) =
        some Status.gap) :=
  ⟨by decide, (gapRtx_spec c5Pool 7).2.2
    ⟨Status.proposed, ⟨⟨7, 7, [exOut 0], 1, [], []⟩, 100, 10, 200, 0⟩⟩
    (by decide) (by decide)⟩

theorem removeEntry_entries (p : TxPool) (id : Nat) :
    (poolMapRemoveEntry p id).1.entries =
      p.entries.filter (fun x => decide (x.entryId ≠ id)) := by
  unfold poolMapRemoveEntry
  cases hg : getById p.entries id with
  | none =>
    simp only
    have hall : ∀ x ∈ p.entries, (decide (x.entryId ≠ id)) = true := by
      intro x hx
      have hne : x.entryId ≠ id := by
        intro he
        unfold getById at hg
        have := List.find?_eq_none.mp hg x hx
        simp [he] at this
      simpa using hne
    exact (List.filter_eq_self.mpr hall).symm
  | some e => rfl

theorem removeEntry_config (p : TxPool) (id : Nat) :
    (poolMapRemoveEntry p id).1.config = p.config := by
  unfold poolMapRemoveEntry
  cases getById p.entries id with
  | none => rfl
  | some e => rfl

theorem expireStep_eq (q : TxPool) (evts : List (TxEntry × Reject))
    (e : TxEntry) :
    expireStep (q, evts) e =
      ((callReject (poolMapRemoveEntry q e.tx.shortId).1 e
          (Reject.expiry e.timestamp)).1,
        evts ++ [(e, Reject.expiry e.timestamp)]) := rfl

theorem removeExpired_fold (todo : List TxEntry) :
    ∀ (p : TxPool) (acc : List (TxEntry × Reject)),
      ((todo.foldl expireStep (p, acc)).1.entries =
        p.entries.filter
          (fun x => !(inList x.entryId (todo.map (fun e => e.tx.shortId))))) ∧
      ((todo.foldl expireStep (p, acc)).2 =
        acc ++ todo.map (fun e => (e, Reject.expiry e.timestamp))) := by
  induction todo with
  | nil =>
    intro p acc
    constructor
    · simp only [List.foldl_nil, List.map_nil]
      have hall : ∀ x ∈ p.entries, (!(inList x.entryId ([] : List Nat))) = true := by
        intro x hx
        simp [inList]
      exact (List.filter_eq_self.mpr hall).symm
    · simp
  | cons e rest ih =>
    intro p acc
    simp only [List.foldl_cons, expireStep_eq]
    have hstepent : (callReject (poolMapRemoveEntry p e.tx.shortId).1 e
        (Reject.expiry e.timestamp)).1.entries =
        p.entries.filter (fun x => decide (x.entryId ≠ e.tx.shortId)) := by
      unfold callReject updateStaticsForRemoveTx
      simp only
      exact removeEntry_entries p e.tx.shortId
    obtain ⟨ih1, ih2⟩ := ih (callReject (poolMapRemoveEntry p e.tx.shortId).1 e
        (Reject.expiry e.timestamp)).1 (acc ++ [(e, Reject.expiry e.timestamp)])
    constructor
    · rw [ih1, hstepent, List.filter_filter]
      apply List.filter_congr
      intro x hx
      by_cases h1 : x.entryId = e.tx.shortId
      · simp [h1, inList]
      · by_cases h2 : x.entryId ∈ rest.map (fun e2 => e2.tx.shortId)
        · simp [h1, h2, inList]
        · simp [h1, h2, inList]
    · rw [ih2]
      simp

theorem nodup_same_id_eq (entries : List PoolEntry)
    (hnodup : (poolIds entries).Nodup) (x y : PoolEntry)
    (hx : x ∈ entries) (hy : y ∈ entries) (hid : x.entryId = y.entryId) :
    x = y := by
  exact List.inj_on_of_nodup_map hnodup hx hy hid

/-- C6 counterexample: an entry with `timestamp + expiry = now` (`0 + 10`
at `now = 10`) satisfies the claim's `≤` condition yet survives
`remove_expired` and is not reported; the source removes only entries with
`expiry + timestamp` strictly below `now_ms`. -/
theorem removeExpired_claim_counterexample :
    (∀ e ∈ c6Pool.entries,
      e.inner.timestamp + c6Pool.config.expiryMs ≤ 10) ∧
    (removeExpired c6Pool 10).1.entries = c6Pool.entries ∧
    (removeExpired c6Pool 10).2 = [] := by
  refine ⟨by decide, by decide, by decide⟩

/-- C6 (amended): `remove_expired` removes exactly those entries with
`expiry + timestamp` strictly less than the current time (not `≤`); each
removed entry is reported via `call_reject` with `Reject::Expiry
(timestamp)`; only the entry itself is removed — every entry that is not
itself expired stays, so descendants of an expired entry survive unless
they are themselves expired. -/
theorem removeExpired_spec (p : TxPool) (nowMs : Nat)
    (hnodup : (poolIds p.entries).Nodup) :
    (removeExpired p nowMs).1.entries =
      p.entries.filter
        (fun e => !(decide (p.config.expiryMs + e.inner.timestamp < nowMs))) ∧
    (removeExpired p nowMs).2 =
      (p.entries.filter
        (fun e => decide (p.config.expiryMs + e.inner.timestamp < nowMs))).map
          (fun e => (e.inner, Reject.expiry e.inner.timestamp)) := by
  unfold removeExpired
  obtain ⟨h1, h2⟩ := removeExpired_fold
    ((p.entries.filter
      (fun e => decide (p.config.expiryMs + e.inner.timestamp < nowMs))).map
        (fun e => e.inner)) p []
  constructor
  · rw [h1]
    apply List.filter_congr
    intro x hx
    simp only [List.map_map]
    have hkey : inList x.entryId
        ((p.entries.filter (fun e =>
          decide (p.config.expiryMs + e.inner.timestamp < nowMs))).map
            (fun e => e.inner.tx.shortId)) =
        decide (p.config.expiryMs + x.inner.timestamp < nowMs) := by
      by_cases hpred : p.config.expiryMs + x.inner.timestamp < nowMs
      · have hmem : x.entryId ∈ (p.entries.filter (fun e =>
            decide (p.config.expiryMs + e.inner.timestamp < nowMs))).map
              (fun e => e.inner.tx.shortId) :=
          List.mem_map.mpr ⟨x,
            List.mem_filter.mpr ⟨hx, by simpa using hpred⟩, rfl⟩
        rw [(inList_iff _ _).mpr hmem]
        simp [hpred]
      · have hnmem : x.entryId ∉ (p.entries.filter (fun e =>
            decide (p.config.expiryMs + e.inner.timestamp < nowMs))).map
              (fun e => e.inner.tx.shortId) := by
          intro hmem
          rcases List.mem_map.mp hmem with ⟨y, hy, hyid⟩
          rcases List.mem_filter.mp hy with ⟨hymem, hypred⟩
          have : y = x := nodup_same_id_eq p.entries hnodup y x hymem hx hyid
          subst this
          exact hpred (by simpa using hypred)
        have : inList x.entryId ((p.entries.filter (fun e =>
            decide (p.config.expiryMs + e.inner.timestamp < nowMs))).map
              (fun e => e.inner.tx.shortId)) = false := by
          apply Bool.eq_false_iff.mpr
          intro hc
          exact hnmem ((inList_iff _ _).mp hc)
        rw [this]
        simp [hpred]
    have hcomp : ((fun e : TxEntry => e.tx.shortId) ∘ (fun e : PoolEntry => e.inner))
        = fun e : PoolEntry => e.inner.tx.shortId := rfl
    rw [hcomp, hkey]
  · rw [h2]
    simp only [List.nil_append, List.map_map]
    rfl

/-- Witness for the amended C6 at `now = 20`, where the single entry of
`c6Pool` (expiry 10, timestamp 0) is expired and removed. -/
theorem removeExpired_spec_witness :
    (poolIds c6Pool.entries).Nodup ∧
    ((removeExpired c6Pool 20).1.entries =
      c6Pool.entries.filter
        (fun e => !(decide (c6Pool.config.expiryMs + e.inner.timestamp < 20))) ∧
    (removeExpired c6Pool 20).2 =
      (c6Pool.entries.filter
        (fun e => decide (c6Pool.config.expiryMs + e.inner.timestamp < 20))).map
          (fun e => (e.inner, Reject.expiry e.inner.timestamp))) :=
  ⟨by decide, removeExpired_spec c6Pool 20 (by decide)⟩

theorem getById_some (entries : List PoolEntry) (id : Nat) (e : PoolEntry)
    (h : getById entries id = some e) : e ∈ entries ∧ e.entryId = id := by
  unfold getById at h
  have h1 := List.mem_of_find?_eq_some h
  have h2 := List.find?_some h
  exact ⟨h1, of_decide_eq_true h2⟩

theorem getById_none_iff (entries : List PoolEntry) (id : Nat) :
    getById entries id = none ↔ ∀ x ∈ entries, x.entryId ≠ id := by
  unfold getById
  rw [List.find?_eq_none]
  constructor
  · intro h x hx
    have := h x hx
    simpa using this
  · intro h x hx
    simpa using h x hx

theorem getById_of_mem_nodup (entries : List PoolEntry)
    (hnodup : (poolIds entries).Nodup) (e : PoolEntry) (he : e ∈ entries) :
    getById entries e.entryId = some e := by
  induction entries with
  | nil => exact absurd he (List.not_mem_nil e)
  | cons x rest ih =>
    rcases List.mem_cons.mp he with rfl | hmem
    · unfold getById
      rw [List.find?_cons]
      simp
    · have hx : x.entryId ≠ e.entryId := by
        intro hid
        have : e.entryId ∈ poolIds rest :=
          List.mem_map.mpr ⟨e, hmem, rfl⟩
        rw [← hid] at this
        exact (List.nodup_cons.mp hnodup).1 this
      unfold getById
      rw [List.find?_cons]
      rw [show (decide (x.entryId = e.entryId)) = false from by simp [hx]]
      exact ih (List.nodup_cons.mp hnodup).2 hmem

theorem nodup_subset_length {l1 l2 : List Nat} (h1 : l1.Nodup)
    (hsub : ∀ x ∈ l1, x ∈ l2) : l1.length ≤ l2.length := by
  calc l1.length = l1.toFinset.card := (List.toFinset_card_of_nodup h1).symm
    _ ≤ l2.toFinset.card := Finset.card_le_card (fun x hx => by
        rw [List.mem_toFinset] at hx ⊢
        exact hsub x hx)
    _ ≤ l2.length := l2.toFinset_card_le

theorem calcAncestorsOfTx_nodup (entries : List PoolEntry) (tx : Tx) :
    (calcAncestorsOfTx entries tx).Nodup :=
  relClosure_nodup _ _ _ (List.nodup_dedup _)

theorem insertByKey_perm {α : Type} (key : α → Nat) (a : α) (l : List α) :
    List.Perm (insertByKey key a l) (a :: l) := by
  induction l with
  | nil => exact List.Perm.refl _
  | cons b bs ih =>
    unfold insertByKey
    by_cases h : key a ≤ key b
    · rw [if_pos h]
    · rw [if_neg h]
      exact (List.Perm.cons b ih).trans (List.Perm.swap a b bs)

theorem sortByKey_perm {α : Type} (key : α → Nat) (l : List α) :
    List.Perm (sortByKey key l) l := by
  induction l with
  | nil => exact List.Perm.refl _
  | cons a as ih =>
    unfold sortByKey
    exact (insertByKey_perm key a (sortByKey key as)).trans
      (List.Perm.cons a ih)

theorem insertByKey_pairwise {α : Type} (key : α → Nat) (a : α) (l : List α)
    (h : l.Pairwise (fun x y => key x ≤ key y)) :
    (insertByKey key a l).Pairwise (fun x y => key x ≤ key y) := by
  induction l with
  | nil => simp [insertByKey]
  | cons b bs ih =>
    unfold insertByKey
    rcases List.pairwise_cons.mp h with ⟨hb, hbs⟩
    by_cases hab : key a ≤ key b
    · rw [if_pos hab]
      apply List.pairwise_cons.mpr
      refine ⟨?_, h⟩
      intro x hx
      rcases List.mem_cons.mp hx with rfl | hx
      · exact hab
      · exact Nat.le_trans hab (hb x hx)
    · rw [if_neg hab]
      apply List.pairwise_cons.mpr
      constructor
      · intro x hx
        have := (insertByKey_perm key a bs).mem_iff.mp hx
        rcases List.mem_cons.mp this with rfl | hx2
        · omega
        · exact hb x hx2
      · exact ih hbs

theorem sortByKey_pairwise {α : Type} (key : α → Nat) (l : List α) :
    (sortByKey key l).Pairwise (fun x y => key x ≤ key y) := by
  induction l with
  | nil => simp [sortByKey]
  | cons a as ih =>
    unfold sortByKey
    exact insertByKey_pairwise key a (sortByKey key as) ih

theorem PoolLe_filter (entries : List PoolEntry) (pred : PoolEntry → Bool) :
    PoolLe (entries.filter pred) entries := by
  intro e he
  exact ⟨e, (List.mem_filter.mp he).1, rfl, rfl⟩

theorem calcAnc_mono (sub sup : List PoolEntry) (hle : PoolLe sub sup)
    (hnodup : (poolIds sup).Nodup) (tx : Tx) :
    ∀ x ∈ calcAncestorsOfTx sub tx, x ∈ calcAncestorsOfTx sup tx := by
  intro x hx
  unfold calcAncestorsOfTx at hx ⊢
  rw [mem_relClosure_iff] at hx ⊢
  induction hx with
  | seed y hy =>
    apply ReachG.seed
    unfold parentIdsOfTx at hy ⊢
    rw [List.mem_dedup] at hy ⊢
    rcases List.mem_map.mp hy with ⟨pe, hpe, rfl⟩
    rcases List.mem_filter.mp hpe with ⟨hpemem, hpepar⟩
    rcases hle pe hpemem with ⟨pe2, hpe2mem, hpe2id, hpe2tx⟩
    rw [← hpe2id]
    apply List.mem_map.mpr
    refine ⟨pe2, List.mem_filter.mpr ⟨hpe2mem, ?_⟩, rfl⟩
    rw [hpe2tx]
    exact hpepar
  | step a y ha hadj hmem ih =>
    unfold parentEdgeB at hadj
    cases hgy : getById sub y with
    | none => rw [hgy] at hadj; exact absurd hadj (by simp)
    | some py =>
      cases hga : getById sub a with
      | none => rw [hgy, hga] at hadj; exact absurd hadj (by simp)
      | some pa =>
        rw [hgy, hga] at hadj
        obtain ⟨hpymem, hpyid⟩ := getById_some sub y py hgy
        obtain ⟨hpamem, hpaid⟩ := getById_some sub a pa hga
        rcases hle py hpymem with ⟨py2, hpy2mem, hpy2id, hpy2tx⟩
        rcases hle pa hpamem with ⟨pa2, hpa2mem, hpa2id, hpa2tx⟩
        apply ReachG.step a y ih
        · unfold parentEdgeB
          rw [show getById sup y = some py2 from by
              rw [← hpyid, ← hpy2id]
              exact getById_of_mem_nodup sup hnodup py2 hpy2mem]
          rw [show getById sup a = some pa2 from by
              rw [← hpaid, ← hpa2id]
              exact getById_of_mem_nodup sup hnodup pa2 hpa2mem]
          show txParentOf py2.inner.tx pa2.inner.tx = true
          rw [hpy2tx, hpa2tx]
          exact hadj
        · have hid2 : py2.entryId = y := by rw [hpy2id, hpyid]
          rw [← hid2]
          exact List.mem_map.mpr ⟨py2, hpy2mem, rfl⟩

theorem rejectStep_fold (mkr : TxEntry → Reject) (removed : List PoolEntry) :
    ∀ (q : TxPool) (acc : List (TxEntry × Reject)),
      removed.foldl (rejectStep mkr) (q, acc) =
        ({ q with totalTxSize := q.totalTxSize - sizeSum removed
                  totalTxCycles := q.totalTxCycles - cycleSum removed },
          acc ++ removed.map (fun e => (e.inner, mkr e.inner))) := by
  induction removed with
  | nil =>
    intro q acc
    cases q
    simp [sizeSum, cycleSum]
  | cons e rest ih =>
    intro q acc
    simp only [List.foldl_cons]
    rw [show rejectStep mkr (q, acc) e =
      (updateStaticsForRemoveTx q e.inner.size e.inner.cycles,
        acc ++ [(e.inner, mkr e.inner)]) from rfl]
    rw [ih]
    cases q
    unfold updateStaticsForRemoveTx
    simp only [sizeSum, cycleSum, List.map_cons, List.sum_cons]
    rw [Prod.mk.injEq]
    constructor
    · rw [TxPool.mk.injEq]
      refine ⟨rfl, rfl, rfl, by omega, by omega, rfl⟩
    · simp

theorem removeWithDesc_eq (p : TxPool) (id : Nat) (mkr : TxEntry → Reject) :
    removeWithDescAndReject p id mkr =
      ({ p with
          entries := p.entries.filter (fun x =>
            !(inList x.entryId (id :: calcDescendants p.entries id)))
          totalTxSize := p.totalTxSize - sizeSum (p.entries.filter (fun x =>
            inList x.entryId (id :: calcDescendants p.entries id)))
          totalTxCycles := p.totalTxCycles - cycleSum (p.entries.filter (fun x =>
            inList x.entryId (id :: calcDescendants p.entries id))) },
        (p.entries.filter (fun x =>
          inList x.entryId (id :: calcDescendants p.entries id))).map
            (fun e => (e.inner, mkr e.inner))) := by
  unfold removeWithDescAndReject poolMapRemoveEntryAndDescendants
  rw [rejectStep_fold]
  simp

theorem getById_append_not (l : List PoolEntry) (n : PoolEntry) (id : Nat)
    (hne : id ≠ n.entryId) : getById (l ++ [n]) id = getById l id := by
  induction l with
  | nil =>
    unfold getById
    simp only [List.nil_append, List.find?_cons, List.find?_nil]
    rw [show (decide (n.entryId = id)) = false from
      decide_eq_false (fun hh => hne hh.symm)]
  | cons x rest ih =>
    unfold getById at ih ⊢
    simp only [List.cons_append, List.find?_cons]
    cases hd : decide (x.entryId = id) with
    | true => rfl
    | false => exact ih

theorem getById_append_self (l : List PoolEntry) (n : PoolEntry)
    (hfresh : ∀ x ∈ l, x.entryId ≠ n.entryId) :
    getById (l ++ [n]) n.entryId = some n := by
  induction l with
  | nil =>
    unfold getById
    simp [List.find?_cons]
  | cons x rest ih =>
    unfold getById at ih ⊢
    simp only [List.cons_append, List.find?_cons]
    rw [show (decide (x.entryId = n.entryId)) = false from by
      simp [hfresh x (List.mem_cons_self x rest)]]
    exact ih (fun y hy => hfresh y (List.mem_cons.mpr (Or.inr hy)))

theorem calcAnc_insert_subset (l : List PoolEntry) (n : PoolEntry)
    (hfresh : ∀ x ∈ l, x.entryId ≠ n.entryId)
    (hnochild : ∀ c ∈ l, txParentOf n.inner.tx c.inner.tx = false)
    (tx : Tx) (htx : txParentOf n.inner.tx tx = false) :
    ∀ x ∈ calcAncestorsOfTx (l ++ [n]) tx,
      x ∈ calcAncestorsOfTx l tx ∧ x ≠ n.entryId := by
  intro x hx
  unfold calcAncestorsOfTx at hx
  rw [mem_relClosure_iff] at hx
  induction hx with
  | seed y hy =>
    have hpar : parentIdsOfTx (l ++ [n]) tx = parentIdsOfTx l tx := by
      unfold parentIdsOfTx
      rw [List.filter_append]
      rw [show ([n].filter (fun p => txParentOf p.inner.tx tx)) = [] from by
        simp [htx]]
      rw [List.append_nil]
    rw [hpar] at hy
    constructor
    · exact relClosure_seeds_subset _ _ _ y hy
    · unfold parentIdsOfTx at hy
      rw [List.mem_dedup] at hy
      rcases List.mem_map.mp hy with ⟨pe, hpe, rfl⟩
      exact hfresh pe (List.mem_filter.mp hpe).1
  | step a y ha hadj hmem ih =>
    obtain ⟨iha, ihane⟩ := ih
    unfold parentEdgeB at hadj
    cases hgy : getById (l ++ [n]) y with
    | none => rw [hgy] at hadj; exact absurd hadj (by simp)
    | some py =>
      cases hga : getById (l ++ [n]) a with
      | none => rw [hgy, hga] at hadj; exact absurd hadj (by simp)
      | some pa =>
        rw [hgy, hga] at hadj
        have hadj' : txParentOf py.inner.tx pa.inner.tx = true := hadj
        have hga2 : getById l a = some pa := by
          rw [← getById_append_not l n a ihane]
          exact hga
        have hpamem := (getById_some l a pa hga2).1
        by_cases hyn : y = n.entryId
        · exfalso
          have hn : getById (l ++ [n]) y = some n := by
            rw [hyn]
            exact getById_append_self l n hfresh
          rw [hgy] at hn
          have hpyn : py = n := Option.some.inj hn
          rw [hpyn] at hadj'
          rw [hnochild pa hpamem] at hadj'
          exact Bool.noConfusion hadj'
        · have hgy2 : getById l y = some py := by
            rw [← getById_append_not l n y hyn]
            exact hgy
          refine ⟨?_, hyn⟩
          unfold calcAncestorsOfTx at iha ⊢
          rw [mem_relClosure_iff] at iha ⊢
          apply ReachG.step a y iha
          · unfold parentEdgeB
            rw [hgy2, hga2]
            exact hadj'
          · obtain ⟨hpymem, hpyid⟩ := getById_some l y py hgy2
            rw [← hpyid]
            exact List.mem_map.mpr ⟨py, hpymem, rfl⟩

theorem applyAdd_eq (p : TxPool) (e : TxEntry) (st : Status) :
    applyAdd p e st = p ∨
    (applyAdd p e st =
        { p with entries := p.entries ++ [⟨st, e⟩]
                 totalTxSize := p.totalTxSize + e.size
                 totalTxCycles := p.totalTxCycles + e.cycles } ∧
      getById p.entries e.tx.shortId = none ∧
      txParentOf e.tx e.tx = false ∧
      (∀ c ∈ p.entries, txParentOf e.tx c.inner.tx = false) ∧
      (calcAncestorsOfTx p.entries e.tx).length ≤
        p.config.maxAncestorsCount) := by
  unfold applyAdd poolMapAddEntry
  by_cases h1 : (getById p.entries e.tx.shortId).isSome
  · rw [if_pos h1]
    left
    rfl
  · rw [if_neg h1]
    by_cases h2 : (txParentOf e.tx e.tx ||
        p.entries.any (fun c => txParentOf e.tx c.inner.tx)) = true
    · simp only [h2, if_true]
      left
      trivial
    · have h2' := Bool.eq_false_iff.mpr h2
      simp only [h2', Bool.false_eq_true, if_false]
      by_cases h3 : p.config.maxAncestorsCount <
          (calcAncestorsOfTx p.entries e.tx).length
      · rw [if_pos h3]
        left
        rfl
      · rw [if_neg h3]
        right
        refine ⟨?_, ?_, ?_, ?_, ?_⟩
        · cases p
          rfl
        · exact Option.not_isSome_iff_eq_none.mp h1
        · exact (Bool.or_eq_false_iff.mp h2').1
        · intro c hc
          have := (Bool.or_eq_false_iff.mp h2').2
          by_cases hcc : txParentOf e.tx c.inner.tx = true
          · exfalso
            rw [List.any_eq_true.mpr ⟨c, hc, hcc⟩] at this
            exact Bool.noConfusion this
          · exact Bool.eq_false_iff.mpr hcc
        · omega

theorem nodup_poolIds_filter (entries : List PoolEntry)
    (pred : PoolEntry → Bool) (h : (poolIds entries).Nodup) :
    (poolIds (entries.filter pred)).Nodup := by
  have hsub : List.Sublist (poolIds (entries.filter pred)) (poolIds entries) :=
    (List.filter_sublist entries).map PoolEntry.entryId
  exact List.Nodup.sublist hsub h

theorem ancBound_of_poolLe (sub sup : List PoolEntry) (m : Nat)
    (hle : PoolLe sub sup) (hnodup : (poolIds sup).Nodup)
    (hb : ∀ e ∈ sup, (calcAncestorsOfTx sup e.inner.tx).length ≤ m) :
    ∀ e ∈ sub, (calcAncestorsOfTx sub e.inner.tx).length ≤ m := by
  intro e he
  rcases hle e he with ⟨e2, he2, hid, htx⟩
  have hsubset := calcAnc_mono sub sup hle hnodup e.inner.tx
  have hlen := nodup_subset_length
    (calcAncestorsOfTx_nodup sub e.inner.tx) hsubset
  have h2 := hb e2 he2
  rw [htx] at h2
  omega

theorem acyclic_of_poolLe (sub sup : List PoolEntry) (hle : PoolLe sub sup)
    (hnodup : (poolIds sup).Nodup) (hac : Acyclic sup) : Acyclic sub := by
  intro e he hmem
  rcases hle e he with ⟨e2, he2, hid, htx⟩
  have hup := calcAnc_mono sub sup hle hnodup e.inner.tx e.entryId hmem
  rw [← htx] at hup
  rw [← hid] at hup
  exact hac e2 he2 hup

theorem applyAdd_WF (p : TxPool) (e : TxEntry) (st : Status) (h : WF p) :
    WF (applyAdd p e st) := by
  rcases applyAdd_eq p e st with heq | ⟨heq, hnone, hself, hnochild, hanc⟩
  · rw [heq]
    exact h
  · rw [heq]
    obtain ⟨hnodup, hsize, hcycle, hbound, hacyc⟩ := h
    have hfresh : ∀ x ∈ p.entries, x.entryId ≠ (⟨st, e⟩ : PoolEntry).entryId :=
      (getById_none_iff p.entries e.tx.shortId).mp hnone
    refine ⟨?_, ?_, ?_, ?_, ?_⟩
    · show (poolIds (p.entries ++ [⟨st, e⟩])).Nodup
      unfold poolIds
      rw [List.map_append]
      apply List.Nodup.append hnodup (by simp)
      intro a hal har
      rcases List.mem_map.mp hal with ⟨x, hx, rfl⟩
      have hxe : x.entryId = (⟨st, e⟩ : PoolEntry).entryId := by
        simpa using har
      exact hfresh x hx hxe
    · show p.totalTxSize + e.size = sizeSum (p.entries ++ [⟨st, e⟩])
      unfold sizeSum at hsize ⊢
      rw [List.map_append, List.sum_append, ← hsize]
      simp
    · show p.totalTxCycles + e.cycles = cycleSum (p.entries ++ [⟨st, e⟩])
      unfold cycleSum at hcycle ⊢
      rw [List.map_append, List.sum_append, ← hcycle]
      simp
    · intro x hx
      rcases List.mem_append.mp hx with hx2 | hx2
      · have hsubset : ∀ z ∈ calcAncestorsOfTx (p.entries ++ [⟨st, e⟩])
            x.inner.tx, z ∈ calcAncestorsOfTx p.entries x.inner.tx :=
          fun z hz => (calcAnc_insert_subset p.entries ⟨st, e⟩ hfresh
            hnochild x.inner.tx (hnochild x hx2) z hz).1
        exact le_trans (nodup_subset_length
          (calcAncestorsOfTx_nodup _ x.inner.tx) hsubset) (hbound x hx2)
      · have hxe : x = ⟨st, e⟩ := by simpa using hx2
        subst hxe
        have hsubset : ∀ z ∈ calcAncestorsOfTx (p.entries ++ [⟨st, e⟩])
            e.tx, z ∈ calcAncestorsOfTx p.entries e.tx :=
          fun z hz => (calcAnc_insert_subset p.entries ⟨st, e⟩ hfresh
            hnochild e.tx hself z hz).1
        exact le_trans (nodup_subset_length
          (calcAncestorsOfTx_nodup _ e.tx) hsubset) hanc
    · intro x hx hmem
      rcases List.mem_append.mp hx with hx2 | hx2
      · exact hacyc x hx2 (calcAnc_insert_subset p.entries ⟨st, e⟩ hfresh
          hnochild x.inner.tx (hnochild x hx2) x.entryId hmem).1
      · have hxe : x = ⟨st, e⟩ := by simpa using hx2
        subst hxe
        exact (calcAnc_insert_subset p.entries ⟨st, e⟩ hfresh hnochild
          e.tx hself _ hmem).2 rfl

theorem sizeSum_append (l1 l2 : List PoolEntry) :
    sizeSum (l1 ++ l2) = sizeSum l1 + sizeSum l2 := by
  unfold sizeSum
  rw [List.map_append, List.sum_append]

theorem cycleSum_append (l1 l2 : List PoolEntry) :
    cycleSum (l1 ++ l2) = cycleSum l1 + cycleSum l2 := by
  unfold cycleSum
  rw [List.map_append, List.sum_append]

theorem sizeSum_perm (l1 l2 : List PoolEntry) (h : List.Perm l1 l2) :
    sizeSum l1 = sizeSum l2 := (h.map _).sum_eq

theorem cycleSum_perm (l1 l2 : List PoolEntry) (h : List.Perm l1 l2) :
    cycleSum l1 = cycleSum l2 := (h.map _).sum_eq

theorem sizeSum_split (entries : List PoolEntry) (pred : PoolEntry → Bool) :
    sizeSum entries =
      sizeSum (entries.filter pred) +
      sizeSum (entries.filter (fun x => !(pred x))) := by
  rw [← sizeSum_append]
  exact (sizeSum_perm _ _ (List.filter_append_perm pred entries)).symm

theorem cycleSum_split (entries : List PoolEntry) (pred : PoolEntry → Bool) :
    cycleSum entries =
      cycleSum (entries.filter pred) +
      cycleSum (entries.filter (fun x => !(pred x))) := by
  rw [← cycleSum_append]
  exact (cycleSum_perm _ _ (List.filter_append_perm pred entries)).symm

theorem WF_remove_filter (p : TxPool) (h : WF p) (pred : PoolEntry → Bool) :
    WF { p with
      entries := p.entries.filter (fun x => !(pred x))
      totalTxSize := p.totalTxSize - sizeSum (p.entries.filter pred)
      totalTxCycles := p.totalTxCycles - cycleSum (p.entries.filter pred) } := by
  obtain ⟨hnodup, hsize, hcycle, hbound, hacyc⟩ := h
  refine ⟨nodup_poolIds_filter _ _ hnodup, ?_, ?_, ?_, ?_⟩
  · show p.totalTxSize - sizeSum (p.entries.filter pred) =
      sizeSum (p.entries.filter (fun x => !(pred x)))
    have := sizeSum_split p.entries pred
    omega
  · show p.totalTxCycles - cycleSum (p.entries.filter pred) =
      cycleSum (p.entries.filter (fun x => !(pred x)))
    have := cycleSum_split p.entries pred
    omega
  · exact ancBound_of_poolLe _ _ _ (PoolLe_filter _ _) hnodup hbound
  · exact acyclic_of_poolLe _ _ (PoolLe_filter _ _) hnodup hacyc

theorem WF_removeWithDesc (p : TxPool) (h : WF p) (id : Nat)
    (mkr : TxEntry → Reject) : WF (removeWithDescAndReject p id mkr).1 := by
  rw [removeWithDesc_eq]
  exact WF_remove_filter p h _

theorem removeWithDesc_config (p : TxPool) (id : Nat) (mkr : TxEntry → Reject) :
    (removeWithDescAndReject p id mkr).1.config = p.config := by
  rw [removeWithDesc_eq]

theorem removeWithDesc_cache (p : TxPool) (id : Nat) (mkr : TxEntry → Reject) :
    (removeWithDescAndReject p id mkr).1.committedTxsHashCache =
      p.committedTxsHashCache := by
  rw [removeWithDesc_eq]

theorem removeWithDesc_entries_subset (p : TxPool) (id : Nat)
    (mkr : TxEntry → Reject) :
    ∀ x ∈ (removeWithDescAndReject p id mkr).1.entries, x ∈ p.entries := by
  rw [removeWithDesc_eq]
  intro x hx
  exact (List.mem_filter.mp hx).1

theorem WF_clear (p : TxPool) (snapshot : List Nat) : WF (clear p snapshot) := by
  refine ⟨by simp [clear, poolIds], by simp [clear, sizeSum],
    by simp [clear, cycleSum], ?_, ?_⟩
  · intro e he
    exact absurd he (by simp [clear])
  · intro e he
    exact absurd he (by simp [clear])

theorem WF_new (cfg : TxPoolConfig) (snapshot : List Nat) :
    WF (TxPool.new cfg snapshot) := by
  refine ⟨by simp [TxPool.new, poolIds], by simp [TxPool.new, sizeSum],
    by simp [TxPool.new, cycleSum], ?_, ?_⟩
  · intro e he
    exact absurd he (by simp [TxPool.new])
  · intro e he
    exact absurd he (by simp [TxPool.new])

theorem removeEntry_totalSize (p : TxPool) (id : Nat) :
    (poolMapRemoveEntry p id).1.totalTxSize = p.totalTxSize := by
  unfold poolMapRemoveEntry
  cases getById p.entries id <;> rfl

theorem removeEntry_totalCycles (p : TxPool) (id : Nat) :
    (poolMapRemoveEntry p id).1.totalTxCycles = p.totalTxCycles := by
  unfold poolMapRemoveEntry
  cases getById p.entries id <;> rfl

theorem removeEntry_config2 (p : TxPool) (id : Nat) :
    (poolMapRemoveEntry p id).1.config = p.config := by
  unfold poolMapRemoveEntry
  cases getById p.entries id <;> rfl

theorem removeEntry_cache (p : TxPool) (id : Nat) :
    (poolMapRemoveEntry p id).1.committedTxsHashCache =
      p.committedTxsHashCache := by
  unfold poolMapRemoveEntry
  cases getById p.entries id <;> rfl

theorem expireStep_fold_totals (todo : List TxEntry) :
    ∀ (p : TxPool) (acc : List (TxEntry × Reject)),
      ((todo.foldl expireStep (p, acc)).1.totalTxSize =
        p.totalTxSize - (todo.map (fun e => e.size)).sum) ∧
      ((todo.foldl expireStep (p, acc)).1.totalTxCycles =
        p.totalTxCycles - (todo.map (fun e => e.cycles)).sum) ∧
      ((todo.foldl expireStep (p, acc)).1.config = p.config) ∧
      ((todo.foldl expireStep (p, acc)).1.committedTxsHashCache =
        p.committedTxsHashCache) := by
  induction todo with
  | nil => intro p acc; simp
  | cons e rest ih =>
    intro p acc
    simp only [List.foldl_cons, expireStep_eq, List.map_cons, List.sum_cons]
    obtain ⟨i1, i2, i3, i4⟩ := ih (callReject
      (poolMapRemoveEntry p e.tx.shortId).1 e (Reject.expiry e.timestamp)).1
      (acc ++ [(e, Reject.expiry e.timestamp)])
    have hs : (callReject (poolMapRemoveEntry p e.tx.shortId).1 e
        (Reject.expiry e.timestamp)).1.totalTxSize =
        p.totalTxSize - e.size := by
      unfold callReject updateStaticsForRemoveTx
      simp only
      rw [removeEntry_totalSize]
    have hc : (callReject (poolMapRemoveEntry p e.tx.shortId).1 e
        (Reject.expiry e.timestamp)).1.totalTxCycles =
        p.totalTxCycles - e.cycles := by
      unfold callReject updateStaticsForRemoveTx
      simp only
      rw [removeEntry_totalCycles]
    have hcf : (callReject (poolMapRemoveEntry p e.tx.shortId).1 e
        (Reject.expiry e.timestamp)).1.config = p.config := by
      unfold callReject updateStaticsForRemoveTx
      simp only
      rw [removeEntry_config2]
    have hca : (callReject (poolMapRemoveEntry p e.tx.shortId).1 e
        (Reject.expiry e.timestamp)).1.committedTxsHashCache =
        p.committedTxsHashCache := by
      unfold callReject updateStaticsForRemoveTx
      simp only
      rw [removeEntry_cache]
    refine ⟨?_, ?_, ?_, ?_⟩
    · rw [i1, hs]
      omega
    · rw [i2, hc]
      omega
    · rw [i3, hcf]
    · rw [i4, hca]

theorem WF_removeExpired (p : TxPool) (nowMs : Nat) (h : WF p) :
    WF (removeExpired p nowMs).1 := by
  obtain ⟨hnodup, hsize, hcycle, hbound, hacyc⟩ := h
  obtain ⟨hent, -⟩ := removeExpired_spec p nowMs hnodup
  obtain ⟨ht1, ht2, ht3, -⟩ := expireStep_fold_totals
    ((p.entries.filter (fun e =>
      decide (p.config.expiryMs + e.inner.timestamp < nowMs))).map
        (fun e => e.inner)) p []
  have ht1' : (removeExpired p nowMs).1.totalTxSize =
      p.totalTxSize - sizeSum (p.entries.filter (fun e =>
        decide (p.config.expiryMs + e.inner.timestamp < nowMs))) := by
    have : sizeSum (p.entries.filter (fun e =>
        decide (p.config.expiryMs + e.inner.timestamp < nowMs))) =
        (((p.entries.filter (fun e =>
          decide (p.config.expiryMs + e.inner.timestamp < nowMs))).map
            (fun e => e.inner)).map (fun e => e.size)).sum := by
      unfold sizeSum
      rw [List.map_map]
      rfl
    rw [this]
    exact ht1
  have ht2' : (removeExpired p nowMs).1.totalTxCycles =
      p.totalTxCycles - cycleSum (p.entries.filter (fun e =>
        decide (p.config.expiryMs + e.inner.timestamp < nowMs))) := by
    have : cycleSum (p.entries.filter (fun e =>
        decide (p.config.expiryMs + e.inner.timestamp < nowMs))) =
        (((p.entries.filter (fun e =>
          decide (p.config.expiryMs + e.inner.timestamp < nowMs))).map
            (fun e => e.inner)).map (fun e => e.cycles)).sum := by
      unfold cycleSum
      rw [List.map_map]
      rfl
    rw [this]
    exact ht2
  refine ⟨?_, ?_, ?_, ?_, ?_⟩
  · rw [hent]
    exact nodup_poolIds_filter _ _ hnodup
  · rw [ht1', hent]
    have := sizeSum_split p.entries (fun e =>
      decide (p.config.expiryMs + e.inner.timestamp < nowMs))
    omega
  · rw [ht2', hent]
    have := cycleSum_split p.entries (fun e =>
      decide (p.config.expiryMs + e.inner.timestamp < nowMs))
    omega
  · have ht3' : (removeExpired p nowMs).1.config = p.config := ht3
    intro e he
    rw [hent] at he ⊢
    rw [ht3']
    exact ancBound_of_poolLe _ _ _ (PoolLe_filter _ _) hnodup hbound e he
  · rw [hent]
    exact acyclic_of_poolLe _ _ (PoolLe_filter _ _) hnodup hacyc

theorem updateStatics_fold (l : List PoolEntry) :
    ∀ q : TxPool,
      l.foldl (fun acc e =>
        updateStaticsForRemoveTx acc e.inner.size e.inner.cycles) q =
      { q with totalTxSize := q.totalTxSize - sizeSum l
               totalTxCycles := q.totalTxCycles - cycleSum l } := by
  induction l with
  | nil =>
    intro q
    cases q
    simp [sizeSum, cycleSum]
  | cons e rest ih =>
    intro q
    simp only [List.foldl_cons]
    rw [ih]
    cases q
    unfold updateStaticsForRemoveTx
    simp only [sizeSum, cycleSum, List.map_cons, List.sum_cons]
    rw [TxPool.mk.injEq]
    refine ⟨rfl, rfl, rfl, by omega, by omega, rfl⟩

theorem WF_removeTx (p : TxPool) (id : Nat) (h : WF p) :
    WF (removeTx p id).1 := by
  unfold removeTx
  by_cases hne : (poolMapRemoveEntryAndDescendants p id).2.isEmpty
  · have hne' : (!(poolMapRemoveEntryAndDescendants p id).2.isEmpty) = false := by
      simp [hne]
    simp only [hne', Bool.false_eq_true, if_false]
    have hemp : (poolMapRemoveEntryAndDescendants p id).2 = [] :=
      List.isEmpty_iff.mp hne
    unfold poolMapRemoveEntryAndDescendants at hemp ⊢
    simp only at hemp ⊢
    have hnone : getById (p.entries.filter (fun x =>
        !(inList x.entryId (id :: calcDescendants p.entries id)))) id = none := by
      apply (getById_none_iff _ _).mpr
      intro x hx he
      have hxin : x ∈ p.entries.filter (fun x =>
          inList x.entryId (id :: calcDescendants p.entries id)) := by
        apply List.mem_filter.mpr
        refine ⟨(List.mem_filter.mp hx).1, ?_⟩
        apply (inList_iff _ _).mpr
        rw [he]
        exact List.mem_cons_self _ _
      rw [hemp] at hxin
      exact absurd hxin (List.not_mem_nil x)
    rw [show poolMapRemoveEntry
        { p with entries := p.entries.filter (fun x =>
          !(inList x.entryId (id :: calcDescendants p.entries id))) } id =
        ({ p with entries := p.entries.filter (fun x =>
          !(inList x.entryId (id :: calcDescendants p.entries id))) }, none)
      from by unfold poolMapRemoveEntry; rw [hnone]]
    show WF { p with entries := p.entries.filter (fun x =>
      !(inList x.entryId (id :: calcDescendants p.entries id))) }
    have hfe : p.entries.filter (fun x =>
        inList x.entryId (id :: calcDescendants p.entries id)) = [] := hemp
    obtain ⟨hnodup, hsize, hcycle, hbound, hacyc⟩ := h
    refine ⟨nodup_poolIds_filter _ _ hnodup, ?_, ?_, ?_, ?_⟩
    · show p.totalTxSize = sizeSum (p.entries.filter (fun x =>
        !(inList x.entryId (id :: calcDescendants p.entries id))))
      have hperm : List.Perm (p.entries.filter (fun x =>
          !(inList x.entryId (id :: calcDescendants p.entries id)))) p.entries := by
        have h2 := List.filter_append_perm (fun x =>
          inList x.entryId (id :: calcDescendants p.entries id)) p.entries
        rw [hfe] at h2
        simpa using h2
      rw [hsize]
      exact (sizeSum_perm _ _ hperm).symm
    · show p.totalTxCycles = cycleSum (p.entries.filter (fun x =>
        !(inList x.entryId (id :: calcDescendants p.entries id))))
      have hperm : List.Perm (p.entries.filter (fun x =>
          !(inList x.entryId (id :: calcDescendants p.entries id)))) p.entries := by
        have h2 := List.filter_append_perm (fun x =>
          inList x.entryId (id :: calcDescendants p.entries id)) p.entries
        rw [hfe] at h2
        simpa using h2
      rw [hcycle]
      exact (cycleSum_perm _ _ hperm).symm
    · exact ancBound_of_poolLe _ _ _ (PoolLe_filter _ _) hnodup hbound
    · exact acyclic_of_poolLe _ _ (PoolLe_filter _ _) hnodup hacyc
  · have hne' : (!(poolMapRemoveEntryAndDescendants p id).2.isEmpty) = true := by
      simp only [Bool.not_eq_true']
      exact Bool.eq_false_iff.mpr hne
    simp only [hne', if_true]
    show WF ((poolMapRemoveEntryAndDescendants p id).2.foldl (fun acc e =>
      updateStaticsForRemoveTx acc e.inner.size e.inner.cycles)
        (poolMapRemoveEntryAndDescendants p id).1)
    rw [updateStatics_fold]
    unfold poolMapRemoveEntryAndDescendants
    simp only
    exact WF_remove_filter p h _

theorem foldl_argmin {α : Type} (f : α → Nat) :
    ∀ (bs : List α) (b : α),
      (bs.foldl (fun best c => if f c < f best then c else best) b) ∈ b :: bs ∧
      ∀ x ∈ b :: bs,
        f (bs.foldl (fun best c => if f c < f best then c else best) b) ≤ f x := by
  intro bs
  induction bs with
  | nil =>
    intro b
    constructor
    · exact List.mem_cons_self b []
    · intro x hx
      have : x = b := by simpa using hx
      subst this
      exact Nat.le_refl _
  | cons c cs ih =>
    intro b
    simp only [List.foldl_cons]
    by_cases hcb : f c < f b
    · rw [if_pos hcb]
      obtain ⟨ihm, ihmin⟩ := ih c
      constructor
      · rcases List.mem_cons.mp ihm with hm | hm
        · rw [hm]
          exact List.mem_cons.mpr (Or.inr (List.mem_cons_self c cs))
        · exact List.mem_cons.mpr (Or.inr (List.mem_cons.mpr (Or.inr hm)))
      · intro x hx
        rcases List.mem_cons.mp hx with rfl | hx2
        · have := ihmin c (List.mem_cons_self c cs)
          omega
        · exact ihmin x hx2
    · rw [if_neg hcb]
      obtain ⟨ihm, ihmin⟩ := ih b
      constructor
      · rcases List.mem_cons.mp ihm with hm | hm
        · rw [hm]
          exact List.mem_cons_self b (c :: cs)
        · exact List.mem_cons.mpr (Or.inr (List.mem_cons.mpr (Or.inr hm)))
      · intro x hx
        rcases List.mem_cons.mp hx with rfl | hx2
        · exact ihmin x (List.mem_cons_self x cs)
        · rcases List.mem_cons.mp hx2 with rfl | hx3
          · have := ihmin b (List.mem_cons_self b cs)
            omega
          · exact ihmin x (List.mem_cons.mpr (Or.inr hx3))

theorem nextEvictEntry_some (p : TxPool) (st : Status) (id : Nat)
    (h : nextEvictEntry p st = some id) :
    ∃ e ∈ p.entries, e.entryId = id ∧ e.status = st ∧
      ∀ e2 ∈ p.entries, e2.status = st →
        effRate p.entries e ≤ effRate p.entries e2 := by
  unfold nextEvictEntry at h
  cases hb : p.entries.filter (fun e => decide (e.status = st)) with
  | nil =>
    rw [hb] at h
    exact absurd h (by simp)
  | cons b bs =>
    rw [hb] at h
    obtain ⟨hm, hmin⟩ := foldl_argmin (fun x => effRate p.entries x) bs b
    set victim := bs.foldl (fun best c =>
      if effRate p.entries c < effRate p.entries best then c else best) b
      with hv
    have hvf : victim ∈ p.entries.filter (fun e => decide (e.status = st)) := by
      rw [hb]
      exact hm
    have hvm := List.mem_filter.mp hvf
    refine ⟨victim, hvm.1, ?_, of_decide_eq_true hvm.2, ?_⟩
    · exact Option.some.inj h
    · intro e2 he2 hst2
      apply hmin
      rw [← hb]
      exact List.mem_filter.mpr ⟨he2, by simp [hst2]⟩

theorem nextEvictEntry_none_iff (p : TxPool) (st : Status) :
    nextEvictEntry p st = none ↔
      p.entries.filter (fun e => decide (e.status = st)) = [] := by
  unfold nextEvictEntry
  cases hb : p.entries.filter (fun e => decide (e.status = st)) with
  | nil => simp
  | cons b bs => simp

theorem nextEvict_none_entries (p : TxPool) (h : nextEvict p = none) :
    p.entries = [] := by
  unfold nextEvict at h
  cases hp : nextEvictEntry p Status.pending with
  | some id => rw [hp] at h; exact absurd h (by simp)
  | none =>
    rw [hp] at h
    cases hg : nextEvictEntry p Status.gap with
    | some id => rw [hg] at h; exact absurd h (by simp)
    | none =>
      rw [hg] at h
      have hpr := h
      have h1 := (nextEvictEntry_none_iff p Status.pending).mp hp
      have h2 := (nextEvictEntry_none_iff p Status.gap).mp hg
      have h3 := (nextEvictEntry_none_iff p Status.proposed).mp hpr
      cases hent : p.entries with
      | nil => rfl
      | cons e rest =>
        exfalso
        have hin : e ∈ p.entries := by rw [hent]; exact List.mem_cons_self e rest
        cases hst : e.status with
        | pending =>
          have : e ∈ p.entries.filter (fun x => decide (x.status = Status.pending)) :=
            List.mem_filter.mpr ⟨hin, by simp [hst]⟩
          rw [h1] at this
          exact absurd this (List.not_mem_nil e)
        | gap =>
          have : e ∈ p.entries.filter (fun x => decide (x.status = Status.gap)) :=
            List.mem_filter.mpr ⟨hin, by simp [hst]⟩
          rw [h2] at this
          exact absurd this (List.not_mem_nil e)
        | proposed =>
          have : e ∈ p.entries.filter (fun x => decide (x.status = Status.proposed)) :=
            List.mem_filter.mpr ⟨hin, by simp [hst]⟩
          rw [h3] at this
          exact absurd this (List.not_mem_nil e)

theorem nextEvict_some_entries (p : TxPool) (id : Nat)
    (h : nextEvict p = some id) :
    ∃ e ∈ p.entries, e.entryId = id := by
  unfold nextEvict at h
  cases hp : nextEvictEntry p Status.pending with
  | some i =>
    rw [hp] at h
    rcases nextEvictEntry_some p Status.pending i hp with ⟨e, he, hid, -, -⟩
    exact ⟨e, he, by rw [hid]; exact (Option.some.inj h)⟩
  | none =>
    rw [hp] at h
    cases hg : nextEvictEntry p Status.gap with
    | some i =>
      rw [hg] at h
      rcases nextEvictEntry_some p Status.gap i hg with ⟨e, he, hid, -, -⟩
      exact ⟨e, he, by rw [hid]; exact (Option.some.inj h)⟩
    | none =>
      rw [hg] at h
      rcases nextEvictEntry_some p Status.proposed id h with ⟨e, he, hid, -, -⟩
      exact ⟨e, he, hid⟩

theorem removeWithDesc_shrinks (p : TxPool) (id : Nat) (mkr : TxEntry → Reject)
    (e : PoolEntry) (he : e ∈ p.entries) (hid : e.entryId = id) :
    (removeWithDescAndReject p id mkr).1.entries.length < p.entries.length := by
  rw [removeWithDesc_eq]
  simp only
  have : e ∈ p.entries ∧
      ¬ ((fun x => !(inList x.entryId (id :: calcDescendants p.entries id))) e
        = true) := by
    refine ⟨he, ?_⟩
    simp only [Bool.not_eq_true', Bool.not_eq_false]
    apply (inList_iff _ _).mpr
    rw [hid]
    exact List.mem_cons_self _ _
  exact List.length_filter_lt_length_iff_exists.mpr ⟨e, this.1, this.2⟩

theorem limitSizeAux_post :
    ∀ (fuel : Nat) (q : TxPool) (evts : List (TxEntry × Reject)), WF q →
      q.entries.length ≤ fuel →
      WF (limitSizeAux fuel q evts).1 ∧
      (limitSizeAux fuel q evts).1.totalTxSize ≤ q.config.maxTxPoolSize ∧
      (limitSizeAux fuel q evts).1.config = q.config ∧
      (∀ ev ∈ (limitSizeAux fuel q evts).2,
        ev ∈ evts ∨ ∃ s, ev.2 = Reject.full s) := by
  intro fuel
  induction fuel with
  | zero =>
    intro q evts hWF hlen
    have hent : q.entries = [] := List.length_eq_zero.mp (Nat.le_zero.mp hlen)
    have htot : q.totalTxSize = 0 := by
      rw [hWF.2.1, hent]
      rfl
    simp only [limitSizeAux]
    exact ⟨hWF, by omega, by trivial, fun ev hev => Or.inl hev⟩
  | succ n ih =>
    intro q evts hWF hlen
    simp only [limitSizeAux]
    by_cases hle : q.totalTxSize ≤ q.config.maxTxPoolSize
    · rw [if_pos hle]
      exact ⟨hWF, hle, rfl, fun ev hev => Or.inl hev⟩
    · rw [if_neg hle]
      cases hne : nextEvict q with
      | none =>
        exfalso
        have hent := nextEvict_none_entries q hne
        have : q.totalTxSize = 0 := by
          rw [hWF.2.1, hent]
          rfl
        omega
      | some id =>
        rcases nextEvict_some_entries q id hne with ⟨e, he, hid⟩
        have hWF' := WF_removeWithDesc q hWF id (fun e => Reject.full (fullMsg e))
        have hlen' : (removeWithDescAndReject q id
            (fun e => Reject.full (fullMsg e))).1.entries.length ≤ n := by
          have := removeWithDesc_shrinks q id (fun e => Reject.full (fullMsg e))
            e he hid
          omega
        obtain ⟨w1, w2, w3, w4⟩ := ih (removeWithDescAndReject q id
          (fun e => Reject.full (fullMsg e))).1
          (evts ++ (removeWithDescAndReject q id
            (fun e => Reject.full (fullMsg e))).2) hWF' hlen'
        refine ⟨w1, ?_, ?_, ?_⟩
        · rw [removeWithDesc_config] at w2
          exact w2
        · rw [w3, removeWithDesc_config]
        · intro ev hev
          rcases w4 ev hev with hev2 | hev2
          · rcases List.mem_append.mp hev2 with hev3 | hev3
            · exact Or.inl hev3
            · right
              rw [removeWithDesc_eq] at hev3
              simp only at hev3
              rcases List.mem_map.mp hev3 with ⟨x, -, rfl⟩
              exact ⟨fullMsg x.inner, rfl⟩
          · exact Or.inr hev2

theorem WF_limitSize (p : TxPool) (h : WF p) : WF (limitSize p).1 :=
  (limitSizeAux_post p.entries.length p [] h (Nat.le_refl _)).1

theorem filter_id_single :
    ∀ (entries : List PoolEntry), (poolIds entries).Nodup →
      ∀ e ∈ entries,
        entries.filter (fun x => decide (x.entryId = e.entryId)) = [e] := by
  intro entries
  induction entries with
  | nil =>
    intro _ e he
    exact absurd he (List.not_mem_nil e)
  | cons a as ih =>
    intro hnodup e he
    have hnd := List.nodup_cons.mp hnodup
    rcases List.mem_cons.mp he with rfl | he2
    · rw [List.filter_cons_of_pos (by simp)]
      congr 1
      apply List.filter_eq_nil_iff.mpr
      intro x hx hpx
      have hxe : x.entryId = e.entryId := of_decide_eq_true hpx
      exact hnd.1 (hxe ▸ List.mem_map_of_mem PoolEntry.entryId hx)
    · have hne : a.entryId ≠ e.entryId := by
        intro heq
        exact hnd.1 (heq ▸ List.mem_map_of_mem PoolEntry.entryId he2)
      rw [List.filter_cons_of_neg (by simpa using hne)]
      exact ih hnd.2 e he2

theorem WF_removeEntry_callCommitted (p : TxPool) (h : WF p) (id : Nat)
    (e : PoolEntry) (hsome : getById p.entries id = some e) :
    WF (updateStaticsForRemoveTx (poolMapRemoveEntry p id).1
      e.inner.size e.inner.cycles) := by
  obtain ⟨hmem, hid⟩ := getById_some p.entries id e hsome
  have hrm : poolMapRemoveEntry p id =
      ({ p with entries := p.entries.filter (fun x => decide (x.entryId ≠ id)) },
        some e) := by
    unfold poolMapRemoveEntry
    rw [hsome]
  have hfe : p.entries.filter (fun x => decide (x.entryId = id)) = [e] := by
    rw [← hid]
    exact filter_id_single p.entries h.1 e hmem
  have hsz : sizeSum (p.entries.filter (fun x => decide (x.entryId = id))) =
      e.inner.size := by
    rw [hfe]
    simp [sizeSum]
  have hcy : cycleSum (p.entries.filter (fun x => decide (x.entryId = id))) =
      e.inner.cycles := by
    rw [hfe]
    simp [cycleSum]
  have hfc : p.entries.filter (fun x => decide (x.entryId ≠ id)) =
      p.entries.filter (fun x => !(decide (x.entryId = id))) := by
    apply List.filter_congr
    intro x _
    simp [decide_not]
  have hgoal := WF_remove_filter p h (fun x => decide (x.entryId = id))
  rw [hsz, hcy] at hgoal
  rw [hrm]
  show WF { p with
    entries := p.entries.filter (fun x => decide (x.entryId ≠ id))
    totalTxSize := p.totalTxSize - e.inner.size
    totalTxCycles := p.totalTxCycles - e.inner.cycles }
  rw [hfc]
  exact hgoal

theorem foldl_WF_events {β : Type}
    (step : TxPool × List (TxEntry × Reject) → β →
      TxPool × List (TxEntry × Reject))
    (hstep : ∀ acc b, WF acc.1 → WF (step acc b).1) :
    ∀ (l : List β) (acc : TxPool × List (TxEntry × Reject)),
      WF acc.1 → WF ((l.foldl step acc).1) := by
  intro l
  induction l with
  | nil => intro acc h; exact h
  | cons b bs ih =>
    intro acc h
    exact ih (step acc b) (hstep acc b h)

theorem WF_resolveConflict (p : TxPool) (tx : Tx) (h : WF p) :
    WF (resolveConflict p tx).1 := by
  unfold resolveConflict
  apply foldl_WF_events
  · intro acc i hacc
    apply foldl_WF_events
    · intro acc2 sid hacc2
      exact WF_removeWithDesc acc2.1 hacc2 sid _
    · exact hacc
  · exact h

theorem WF_resolveConflictHeaderDep (p : TxPool) (detached : List Nat)
    (h : WF p) : WF (resolveConflictHeaderDep p detached).1 := by
  unfold resolveConflictHeaderDep
  apply foldl_WF_events
  · intro acc aid hacc
    exact WF_removeWithDesc acc.1 hacc aid _
  · exact h

theorem WF_setCache (p : TxPool) (c : List (Nat × Nat)) (h : WF p) :
    WF { p with committedTxsHashCache := c } := h

theorem WF_removeCommittedTx (p : TxPool) (tx : Tx) (h : WF p) :
    WF (removeCommittedTx p tx).1 := by
  simp only [removeCommittedTx]
  cases hsome : (poolMapRemoveEntry p tx.shortId).2 with
  | some entry =>
    simp only
    apply WF_resolveConflict
    have : getById p.entries tx.shortId = some entry := by
      unfold poolMapRemoveEntry at hsome
      cases hg : getById p.entries tx.shortId with
      | none => rw [hg] at hsome; exact absurd hsome (by simp)
      | some x =>
        rw [hg] at hsome
        simpa using hsome
    exact WF_removeEntry_callCommitted p h tx.shortId entry this
  | none =>
    simp only
    apply WF_resolveConflict
    have : (poolMapRemoveEntry p tx.shortId).1 = p := by
      unfold poolMapRemoveEntry at hsome ⊢
      cases hg : getById p.entries tx.shortId with
      | none => rfl
      | some x => rw [hg] at hsome; exact absurd hsome (by simp)
    rw [this]
    exact h

theorem WF_committedStep (acc : TxPool × List TxEntry × List (TxEntry × Reject))
    (tx : Tx) (h : WF acc.1) : WF (committedStep acc tx).1 := by
  unfold committedStep
  exact WF_setCache _ _ (WF_removeCommittedTx acc.1 tx h)

theorem foldl_WF_committed (txs : List Tx) :
    ∀ (acc : TxPool × List TxEntry × List (TxEntry × Reject)),
      WF acc.1 → WF ((txs.foldl committedStep acc).1) := by
  induction txs with
  | nil => intro acc h; exact h
  | cons t ts ih =>
    intro acc h
    exact ih (committedStep acc t) (WF_committedStep acc t h)

theorem WF_removeCommittedTxs (p : TxPool) (txs : List Tx)
    (detachedHeaders : List Nat) (h : WF p) :
    WF (removeCommittedTxs p txs detachedHeaders).1 := by
  unfold removeCommittedTxs
  by_cases hd : detachedHeaders.isEmpty
  · rw [if_pos hd]
    exact foldl_WF_committed txs (p, [], []) h
  · rw [if_neg hd]
    exact WF_resolveConflictHeaderDep _ _
      (foldl_WF_committed txs (p, [], []) h)

theorem self_parent_false (entries : List PoolEntry) (hacyc : Acyclic entries)
    (e : PoolEntry) (he : e ∈ entries) :
    txParentOf e.inner.tx e.inner.tx = false := by
  by_contra hb
  rw [Bool.not_eq_false] at hb
  have hseed : e.entryId ∈ parentIdsOfTx entries e.inner.tx := by
    unfold parentIdsOfTx
    rw [List.mem_dedup]
    exact List.mem_map.mpr ⟨e, List.mem_filter.mpr ⟨he, hb⟩, rfl⟩
  exact hacyc e he (relClosure_seeds_subset _ _ _ _ hseed)

theorem mem_desc_cons_iff (entries : List PoolEntry) (id x : Nat) :
    x ∈ id :: calcDescendants entries id ↔
      x ∈ relClosure entries (fun a b => parentEdgeB entries a b) [id] := by
  unfold calcDescendants
  constructor
  · intro hx
    rcases List.mem_cons.mp hx with rfl | hx2
    · exact relClosure_seeds_subset _ _ _ _ (List.mem_cons_self _ _)
    · exact (List.mem_filter.mp hx2).1
  · intro hx
    by_cases hxi : x = id
    · exact hxi ▸ List.mem_cons_self _ _
    · exact List.mem_cons.mpr (Or.inr
        (List.mem_filter.mpr ⟨hx, by simpa using hxi⟩))

theorem desc_closed (entries : List PoolEntry) (id : Nat)
    (hnodup : (poolIds entries).Nodup) (a c : PoolEntry)
    (ha : a ∈ entries) (hc : c ∈ entries)
    (haS : a.entryId ∈ id :: calcDescendants entries id)
    (hedge : txParentOf a.inner.tx c.inner.tx = true) :
    c.entryId ∈ id :: calcDescendants entries id := by
  rw [mem_desc_cons_iff] at haS ⊢
  apply relClosure_closed entries _ [id] a.entryId c.entryId haS
  · show parentEdgeB entries a.entryId c.entryId = true
    unfold parentEdgeB
    rw [getById_of_mem_nodup entries hnodup a ha,
        getById_of_mem_nodup entries hnodup c hc]
    exact hedge
  · exact List.mem_map.mpr ⟨c, hc, rfl⟩

theorem anc_subset_of_parent (entries : List PoolEntry)
    (hnodup : (poolIds entries).Nodup) (a b : PoolEntry)
    (ha : a ∈ entries) ( _hb : b ∈ entries)
    (hedge : txParentOf a.inner.tx b.inner.tx = true) :
    a.entryId ∈ calcAncestorsOfTx entries b.inner.tx ∧
    ∀ x ∈ calcAncestorsOfTx entries a.inner.tx,
      x ∈ calcAncestorsOfTx entries b.inner.tx := by
  have hfirst : a.entryId ∈ calcAncestorsOfTx entries b.inner.tx := by
    unfold calcAncestorsOfTx
    apply relClosure_seeds_subset
    unfold parentIdsOfTx
    rw [List.mem_dedup]
    exact List.mem_map.mpr ⟨a, List.mem_filter.mpr ⟨ha, hedge⟩, rfl⟩
  refine ⟨hfirst, ?_⟩
  intro x hx
  unfold calcAncestorsOfTx at hx ⊢
  rw [mem_relClosure_iff] at hx
  induction hx with
  | seed y hy =>
    unfold parentIdsOfTx at hy
    rw [List.mem_dedup] at hy
    rcases List.mem_map.mp hy with ⟨py, hpy, rfl⟩
    rcases List.mem_filter.mp hpy with ⟨hpymem, hpypar⟩
    apply relClosure_closed entries _ _ a.entryId py.entryId
    · exact hfirst
    · show parentEdgeB entries py.entryId a.entryId = true
      unfold parentEdgeB
      rw [getById_of_mem_nodup entries hnodup py hpymem,
          getById_of_mem_nodup entries hnodup a ha]
      exact hpypar
    · exact List.mem_map.mpr ⟨py, hpymem, rfl⟩
  | step u y hu hadj hmem ih =>
    exact relClosure_closed entries _ _ u y ih hadj hmem

theorem entryAncCount_lt_of_parent (entries : List PoolEntry)
    (hnodup : (poolIds entries).Nodup) (hacyc : Acyclic entries)
    (a b : PoolEntry) (ha : a ∈ entries) (hb : b ∈ entries)
    (hedge : txParentOf a.inner.tx b.inner.tx = true) :
    entryAncCount entries a.inner < entryAncCount entries b.inner := by
  obtain ⟨hmem, hsub⟩ := anc_subset_of_parent entries hnodup a b ha hb hedge
  have hnotin : a.entryId ∉ calcAncestorsOfTx entries a.inner.tx := hacyc a ha
  have hlen : (a.entryId :: calcAncestorsOfTx entries a.inner.tx).length ≤
      (calcAncestorsOfTx entries b.inner.tx).length := by
    apply nodup_subset_length
    · exact List.nodup_cons.mpr ⟨hnotin, calcAncestorsOfTx_nodup _ _⟩
    · intro x hx
      rcases List.mem_cons.mp hx with rfl | hx2
      · exact hmem
      · exact hsub x hx2
  unfold entryAncCount
  simp only [List.length_cons] at hlen
  omega

theorem detach_fold (orig : List PoolEntry) (m : Nat)
    (horig_nodup : (poolIds orig).Nodup) (horig_acyc : Acyclic orig)
    (horig_bound : ∀ e2 ∈ orig,
      (calcAncestorsOfTx orig e2.inner.tx).length ≤ m) :
    ∀ (todo : List PoolEntry) (q : TxPool),
      q.config.maxAncestorsCount = m →
      PoolLe q.entries orig →
      (∀ en ∈ todo, en ∈ orig) →
      (poolIds q.entries ++ todo.map PoolEntry.entryId).Nodup →
      (∀ en ∈ todo, ∀ c ∈ q.entries,
        txParentOf en.inner.tx c.inner.tx = false) →
      todo.Pairwise (fun x y =>
        entryAncCount orig x.inner ≤ entryAncCount orig y.inner) →
      todo.foldl (fun acc en =>
        (addPending acc en.inner.resetStatisticState).1) q =
        { q with entries := q.entries ++ todo.map pendingize } := by
  intro todo
  induction todo with
  | nil =>
    intro q _ _ _ _ _ _
    simp only [List.foldl_nil, List.map_nil, List.append_nil]
  | cons en rest ih =>
    intro q hm hle hsub hnodup hnopar hsorted
    simp only [List.foldl_cons]
    have hstep : (addPending q en.inner.resetStatisticState).1 =
        { q with entries := q.entries ++ [pendingize en] } := by
      show (poolMapAddEntry q en.inner Status.pending).1 = _
      unfold poolMapAddEntry
      have hgid : getById q.entries en.inner.tx.shortId = none := by
        apply (getById_none_iff _ _).mpr
        intro x hx hxe
        rcases List.nodup_append.mp hnodup with ⟨-, -, hdisj⟩
        have hxl : x.entryId ∈ poolIds q.entries :=
          List.mem_map.mpr ⟨x, hx, rfl⟩
        have hxr : x.entryId ∈ (en :: rest).map PoolEntry.entryId :=
          List.mem_map.mpr ⟨en, List.mem_cons_self en rest, hxe.symm⟩
        exact hdisj hxl hxr
      rw [if_neg (by rw [hgid]; simp)]
      have hself : txParentOf en.inner.tx en.inner.tx = false :=
        self_parent_false orig horig_acyc en (hsub en (List.mem_cons_self en rest))
      have hany : q.entries.any (fun c =>
          txParentOf en.inner.tx c.inner.tx) = false := by
        rw [List.any_eq_false]
        intro c hc
        rw [hnopar en (List.mem_cons_self en rest) c hc]
        simp
      rw [if_neg (by rw [hself, hany]; simp)]
      have hbnd : (calcAncestorsOfTx q.entries en.inner.tx).length ≤
          q.config.maxAncestorsCount := by
        rw [hm]
        have hsubA := calcAnc_mono q.entries orig hle horig_nodup en.inner.tx
        have h1 := nodup_subset_length
          (calcAncestorsOfTx_nodup q.entries en.inner.tx) hsubA
        have h2 := horig_bound en (hsub en (List.mem_cons_self en rest))
        omega
      rw [if_neg (Nat.not_lt.mpr hbnd)]
      rfl
    rw [hstep]
    have hrec := ih { q with entries := q.entries ++ [pendingize en] }
      hm
      (by
        intro x hx
        rcases List.mem_append.mp hx with hx2 | hx2
        · exact hle x hx2
        · have hxe : x = pendingize en := by simpa using hx2
          subst hxe
          exact ⟨en, hsub en (List.mem_cons_self en rest), rfl, rfl⟩)
      (fun x hx => hsub x (List.mem_cons.mpr (Or.inr hx)))
      (by
        show (poolIds (q.entries ++ [pendingize en]) ++
          rest.map PoolEntry.entryId).Nodup
        have heq : poolIds (q.entries ++ [pendingize en]) ++
            rest.map PoolEntry.entryId =
            poolIds q.entries ++ (en :: rest).map PoolEntry.entryId := by
          unfold poolIds
          simp [pendingize, PoolEntry.entryId, List.append_assoc]
        rw [heq]
        exact hnodup)
      (by
        intro en2 hen2 c hc
        rcases List.mem_append.mp hc with hc2 | hc2
        · exact hnopar en2 (List.mem_cons.mpr (Or.inr hen2)) c hc2
        · have hce : c = pendingize en := by simpa using hc2
          subst hce
          show txParentOf en2.inner.tx en.inner.tx = false
          by_contra hb
          rw [Bool.not_eq_false] at hb
          have hlt := entryAncCount_lt_of_parent orig horig_nodup horig_acyc
            en2 en (hsub en2 (List.mem_cons.mpr (Or.inr hen2)))
            (hsub en (List.mem_cons_self en rest)) hb
          have hles := (List.pairwise_cons.mp hsorted).1 en2 hen2
          omega)
      ((List.pairwise_cons.mp hsorted).2)
    rw [hrec]
    cases q
    simp [List.append_assoc]

theorem pendingize_ids (l : List PoolEntry) :
    (l.map pendingize).map PoolEntry.entryId = l.map PoolEntry.entryId := by
  rw [List.map_map]
  apply List.map_congr_left
  intro a _
  rfl

theorem sizeSum_pendingize (l : List PoolEntry) :
    sizeSum (l.map pendingize) = sizeSum l := by
  unfold sizeSum
  rw [List.map_map]
  apply congrArg
  apply List.map_congr_left
  intro a _
  rfl

theorem cycleSum_pendingize (l : List PoolEntry) :
    cycleSum (l.map pendingize) = cycleSum l := by
  unfold cycleSum
  rw [List.map_map]
  apply congrArg
  apply List.map_congr_left
  intro a _
  rfl

theorem kept_removed_perm (entries : List PoolEntry) (S : List Nat) :
    List.Perm
      (entries.filter (fun x => !(inList x.entryId S)) ++
        entries.filter (fun x => inList x.entryId S))
      entries := by
  have h := List.filter_append_perm (fun x => !(inList x.entryId S)) entries
  have hdn : entries.filter (fun x => !(!(inList x.entryId S))) =
      entries.filter (fun x => inList x.entryId S) := by
    apply List.filter_congr
    intro x _
    simp
  rw [hdn] at h
  exact h

theorem detachOne_eq (p : TxPool) (id : Nat) (h : WF p) (e : PoolEntry)
    (hsome : getById p.entries id = some e)
    (hst : ¬ e.status = Status.pending) :
    detachOne p id =
      { p with entries := detachKept p id ++ (detachSorted p id).map pendingize } := by
  unfold detachKept detachSorted detachRemoved
  obtain ⟨hnodup, hsz, hcy, hbound, hacyc⟩ := h
  unfold detachOne
  rw [hsome]
  simp only
  rw [if_neg hst]
  unfold poolMapRemoveEntryAndDescendants
  simp only
  have hsorted_mem : ∀ en ∈ sortByKey (fun en => entryAncCount p.entries en.inner)
      (p.entries.filter (fun x =>
        inList x.entryId (id :: calcDescendants p.entries id))),
      en ∈ p.entries.filter (fun x =>
        inList x.entryId (id :: calcDescendants p.entries id)) := by
    intro en hen
    exact (sortByKey_perm _ _).mem_iff.mp hen
  have hfold := detach_fold p.entries p.config.maxAncestorsCount hnodup hacyc
    (fun e2 he2 => hbound e2 he2)
    (sortByKey (fun en => entryAncCount p.entries en.inner)
      (p.entries.filter (fun x =>
        inList x.entryId (id :: calcDescendants p.entries id))))
    { p with entries := p.entries.filter (fun x =>
        !(inList x.entryId (id :: calcDescendants p.entries id))) }
    rfl
    (PoolLe_filter _ _)
    (fun en hen => (List.mem_filter.mp (hsorted_mem en hen)).1)
    (by
      show (poolIds (p.entries.filter (fun x =>
          !(inList x.entryId (id :: calcDescendants p.entries id)))) ++
        (sortByKey (fun en => entryAncCount p.entries en.inner)
          (p.entries.filter (fun x =>
            inList x.entryId (id :: calcDescendants p.entries id)))).map
          PoolEntry.entryId).Nodup
      have hp1 : List.Perm
          ((sortByKey (fun en => entryAncCount p.entries en.inner)
            (p.entries.filter (fun x =>
              inList x.entryId (id :: calcDescendants p.entries id)))).map
            PoolEntry.entryId)
          ((p.entries.filter (fun x =>
            inList x.entryId (id :: calcDescendants p.entries id))).map
            PoolEntry.entryId) := (sortByKey_perm _ _).map _
      have hp2 := List.Perm.append_left
        (poolIds (p.entries.filter (fun x =>
          !(inList x.entryId (id :: calcDescendants p.entries id))))) hp1
      have hp3 : List.Perm
          (poolIds (p.entries.filter (fun x =>
            !(inList x.entryId (id :: calcDescendants p.entries id)))) ++
            (p.entries.filter (fun x =>
              inList x.entryId (id :: calcDescendants p.entries id))).map
              PoolEntry.entryId)
          (poolIds p.entries) := by
        unfold poolIds
        rw [← List.map_append]
        exact (kept_removed_perm p.entries _).map _
      exact List.Perm.nodup (hp2.trans hp3).symm hnodup)
    (by
      intro en hen c hc
      have henf := List.mem_filter.mp (hsorted_mem en hen)
      have hcf := List.mem_filter.mp hc
      by_contra hb
      rw [Bool.not_eq_false] at hb
      have hcS : c.entryId ∈ id :: calcDescendants p.entries id := by
        apply desc_closed p.entries id hnodup en c henf.1 hcf.1 _ hb
        exact (inList_iff _ _).mp henf.2
      have : inList c.entryId (id :: calcDescendants p.entries id) = true :=
        (inList_iff _ _).mpr hcS
      rw [this] at hcf
      exact absurd hcf.2 (by simp))
    (sortByKey_pairwise _ _)
  rw [hfold]

theorem WF_replace_entries (p : TxPool) (h : WF p) (F : List PoolEntry)
    (hperm : List.Perm (poolIds F) (poolIds p.entries))
    (hszF : sizeSum F = sizeSum p.entries)
    (hcyF : cycleSum F = cycleSum p.entries)
    (hleF : PoolLe F p.entries) :
    WF { p with entries := F } := by
  obtain ⟨hnodup, hsz, hcy, hbound, hacyc⟩ := h
  refine ⟨List.Perm.nodup hperm.symm hnodup, ?_, ?_, ?_, ?_⟩
  · show p.totalTxSize = sizeSum F
    rw [hsz, hszF]
  · show p.totalTxCycles = cycleSum F
    rw [hcy, hcyF]
  · intro x hx
    show (calcAncestorsOfTx F x.inner.tx).length ≤ p.config.maxAncestorsCount
    rcases hleF x hx with ⟨e2, he2, he2id, he2tx⟩
    have hsubA := calcAnc_mono F p.entries hleF hnodup x.inner.tx
    have h1 := nodup_subset_length (calcAncestorsOfTx_nodup F x.inner.tx) hsubA
    have h2 := hbound e2 he2
    rw [he2tx] at h2
    omega
  · intro x hx hmem
    rcases hleF x hx with ⟨e2, he2, he2id, he2tx⟩
    have hsubA := calcAnc_mono F p.entries hleF hnodup x.inner.tx
    have hx2 : x.entryId ∈ calcAncestorsOfTx p.entries x.inner.tx :=
      hsubA _ hmem
    rw [← he2id, ← he2tx] at hx2
    exact hacyc e2 he2 hx2

theorem WF_detachOne (p : TxPool) (id : Nat) (h : WF p) :
    WF (detachOne p id) := by
  cases hsome : getById p.entries id with
  | none =>
    unfold detachOne
    rw [hsome]
    exact h
  | some e =>
    by_cases hst : e.status = Status.pending
    · unfold detachOne
      rw [hsome]
      simp only
      rw [if_pos hst]
      exact h
    · rw [detachOne_eq p id h e hsome hst]
      apply WF_replace_entries p h
      · show (poolIds (detachKept p id ++
          (detachSorted p id).map pendingize)).Perm (poolIds p.entries)
        unfold poolIds detachKept detachSorted detachRemoved
        rw [List.map_append, pendingize_ids]
        have hp1 : List.Perm
            ((sortByKey (fun en => entryAncCount p.entries en.inner)
              (p.entries.filter (fun x =>
                inList x.entryId (id :: calcDescendants p.entries id)))).map
              PoolEntry.entryId)
            ((p.entries.filter (fun x =>
              inList x.entryId (id :: calcDescendants p.entries id))).map
              PoolEntry.entryId) := (sortByKey_perm _ _).map _
        have hp2 := List.Perm.append_left
          ((p.entries.filter (fun x =>
            !(inList x.entryId (id :: calcDescendants p.entries id)))).map
              PoolEntry.entryId) hp1
        have hp3 : List.Perm
            ((p.entries.filter (fun x =>
              !(inList x.entryId (id :: calcDescendants p.entries id)))).map
                PoolEntry.entryId ++
              (p.entries.filter (fun x =>
                inList x.entryId (id :: calcDescendants p.entries id))).map
                PoolEntry.entryId)
            (p.entries.map PoolEntry.entryId) := by
          rw [← List.map_append]
          exact (kept_removed_perm p.entries _).map _
        exact hp2.trans hp3
      · rw [sizeSum_append, sizeSum_pendingize]
        rw [sizeSum_perm (detachSorted p id) (detachRemoved p id)
          (by unfold detachSorted; exact sortByKey_perm _ _)]
        unfold detachKept detachRemoved
        rw [← sizeSum_append]
        exact (sizeSum_perm _ _ (kept_removed_perm p.entries _))
      · rw [cycleSum_append, cycleSum_pendingize]
        rw [cycleSum_perm (detachSorted p id) (detachRemoved p id)
          (by unfold detachSorted; exact sortByKey_perm _ _)]
        unfold detachKept detachRemoved
        rw [← cycleSum_append]
        exact (cycleSum_perm _ _ (kept_removed_perm p.entries _))
      · intro x hx
        rcases List.mem_append.mp hx with hx2 | hx2
        · exact ⟨x, (List.mem_filter.mp hx2).1, rfl, rfl⟩
        · rcases List.mem_map.mp hx2 with ⟨en, hen, rfl⟩
          have : en ∈ detachRemoved p id := (sortByKey_perm _ _).mem_iff.mp hen
          exact ⟨en, (List.mem_filter.mp this).1, rfl, rfl⟩

theorem WF_removeByDetachedProposal (p : TxPool) (ids : List Nat) (h : WF p) :
    WF (removeByDetachedProposal p ids) := by
  unfold removeByDetachedProposal
  induction ids generalizing p with
  | nil => exact h
  | cons i is ih => exact ih (detachOne p i) (WF_detachOne p i h)

theorem WF_applyOp (p : TxPool) (op : PoolOp) (h : WF p) :
    WF (applyOp p op) := by
  cases op with
  | opAddPending e => exact applyAdd_WF p e Status.pending h
  | opAddGap e => exact applyAdd_WF p e Status.gap h
  | opAddProposed e => exact applyAdd_WF p e Status.proposed h
  | opRemoveCommittedTxs txs detached => exact WF_removeCommittedTxs p txs detached h
  | opRemoveExpired nowMs => exact WF_removeExpired p nowMs h
  | opLimitSize => exact WF_limitSize p h
  | opRemoveByDetachedProposal ids => exact WF_removeByDetachedProposal p ids h
  | opRemoveTx id => exact WF_removeTx p id h
  | opClear snapshot => exact WF_clear p snapshot

theorem foldl_applyOp_WF (ops : List PoolOp) :
    ∀ (p : TxPool), WF p → WF (ops.foldl applyOp p) := by
  induction ops with
  | nil => intro p h; exact h
  | cons op rest ih => intro p h; exact ih (applyOp p op) (WF_applyOp p op h)

/-- C2: after every sequence of public pool operations (adds in the three
statuses, remove_committed_txs, remove_expired, limit_size,
remove_by_detached_proposal, remove_tx, clear) applied to a fresh pool,
`total_tx_size` equals the sum of the sizes of the entries currently in
the pool and `total_tx_cycles` equals the sum of their cycles. -/
theorem total_statics_invariant (cfg : TxPoolConfig) (snapshot : List Nat)
    (ops : List PoolOp) :
    (ops.foldl applyOp (TxPool.new cfg snapshot)).totalTxSize =
      sizeSum (ops.foldl applyOp (TxPool.new cfg snapshot)).entries ∧
    (ops.foldl applyOp (TxPool.new cfg snapshot)).totalTxCycles =
      cycleSum (ops.foldl applyOp (TxPool.new cfg snapshot)).entries := by
  have h := foldl_applyOp_WF ops (TxPool.new cfg snapshot) (WF_new cfg snapshot)
  exact ⟨h.2.1, h.2.2.1⟩

theorem nextEvictEntry_isSome (p : TxPool) (st : Status)
    (h2 : ∃ e2 ∈ p.entries, e2.status = st) :
    ∃ i, nextEvictEntry p st = some i := by
  unfold nextEvictEntry
  cases hb : p.entries.filter (fun e2 => decide (e2.status = st)) with
  | nil =>
    exfalso
    rcases h2 with ⟨e2, hm, hs⟩
    have : e2 ∈ p.entries.filter (fun x => decide (x.status = st)) :=
      List.mem_filter.mpr ⟨hm, by simp [hs]⟩
    rw [hb] at this
    exact absurd this (List.not_mem_nil e2)
  | cons b bs => exact ⟨_, rfl⟩

/-- C7: `limit_size` repeats victim selection while `total_tx_size`
exceeds `max_tx_pool_size`: when it returns the total is within the
limit; every reported rejection is `Reject::Full`; the victim bucket is
Pending if any pending entry exists, otherwise Gap, otherwise Proposed,
and within a bucket a victim with the lowest effective score is chosen;
each iteration removes the chosen victim together with all of its
descendants, reporting each removed entry. -/
theorem limit_size_spec (p : TxPool) (h : WF p) :
    (limitSize p).1.totalTxSize ≤ p.config.maxTxPoolSize ∧
    (∀ ev ∈ (limitSize p).2, ∃ s, ev.2 = Reject.full s) ∧
    (∀ st id, nextEvictEntry p st = some id →
      ∃ e2 ∈ p.entries, e2.entryId = id ∧ e2.status = st ∧
        ∀ e3 ∈ p.entries, e3.status = st →
          effRate p.entries e2 ≤ effRate p.entries e3) ∧
    ((∃ e2 ∈ p.entries, e2.status = Status.pending) →
      nextEvict p = nextEvictEntry p Status.pending) ∧
    ((∀ e2 ∈ p.entries, e2.status ≠ Status.pending) →
      (∃ e2 ∈ p.entries, e2.status = Status.gap) →
        nextEvict p = nextEvictEntry p Status.gap) ∧
    ((∀ e2 ∈ p.entries, e2.status ≠ Status.pending) →
      (∀ e2 ∈ p.entries, e2.status ≠ Status.gap) →
        nextEvict p = nextEvictEntry p Status.proposed) ∧
    (p.config.maxTxPoolSize < p.totalTxSize →
      ∀ id, nextEvict p = some id →
        ∃ n, p.entries.length = n + 1 ∧
          limitSize p = limitSizeAux n
            (removeWithDescAndReject p id (fun en => Reject.full (fullMsg en))).1
            (removeWithDescAndReject p id (fun en => Reject.full (fullMsg en))).2) := by
  obtain ⟨w1, w2, w3, w4⟩ :=
    limitSizeAux_post p.entries.length p [] h (Nat.le_refl _)
  refine ⟨w2, ?_, ?_, ?_, ?_, ?_, ?_⟩
  · intro ev hev
    rcases w4 ev hev with hev2 | hev2
    · exact absurd hev2 (List.not_mem_nil ev)
    · exact hev2
  · intro st id hsid
    exact nextEvictEntry_some p st id hsid
  · intro hex
    rcases nextEvictEntry_isSome p Status.pending hex with ⟨i, hi⟩
    unfold nextEvict
    rw [hi]
  · intro hnp hex
    have hpn : nextEvictEntry p Status.pending = none := by
      rw [nextEvictEntry_none_iff]
      apply List.filter_eq_nil_iff.mpr
      intro a ha
      simp [hnp a ha]
    rcases nextEvictEntry_isSome p Status.gap hex with ⟨i, hi⟩
    unfold nextEvict
    rw [hpn, hi]
  · intro hnp hng
    have hpn : nextEvictEntry p Status.pending = none := by
      rw [nextEvictEntry_none_iff]
      apply List.filter_eq_nil_iff.mpr
      intro a ha
      simp [hnp a ha]
    have hgn : nextEvictEntry p Status.gap = none := by
      rw [nextEvictEntry_none_iff]
      apply List.filter_eq_nil_iff.mpr
      intro a ha
      simp [hng a ha]
    unfold nextEvict
    rw [hpn, hgn]
  · intro hgt id hne
    rcases nextEvict_some_entries p id hne with ⟨e2, he2, -⟩
    cases hl : p.entries.length with
    | zero =>
      have hnil : p.entries = [] := List.length_eq_zero.mp hl
      rw [hnil] at he2
      exact absurd he2 (List.not_mem_nil e2)
    | succ n =>
      refine ⟨n, rfl, ?_⟩
      unfold limitSize
      rw [hl]
      simp only [limitSizeAux]
      rw [if_neg (Nat.not_le.mpr hgt), hne]
      simp

/-- C7 witness: the two-entry pool of 200 bytes against its 150-byte
limit is well-formed, and `limit_size` brings it within the limit. -/
theorem limit_size_spec_witness :
    WF c7Pool ∧
    (limitSize c7Pool).1.totalTxSize ≤ c7Pool.config.maxTxPoolSize :=
  ⟨by unfold WF AncBound Acyclic; decide,
    (limit_size_spec c7Pool (by unfold WF AncBound Acyclic; decide)).1⟩

/-- C9: for an id whose entry is Pending or absent the pool is untouched;
for an id whose entry is in Gap or Proposed,
`remove_by_detached_proposal` removes the entry together with all of its
descendants and re-adds exactly those entries as Pending, sorted by
ancestors count ascending, so that every parent is re-added before each
of its children (statistic state is derived from the graph in this
embedding, so resetting it is the identity). -/
theorem remove_by_detached_proposal_spec (p : TxPool) (id : Nat) (h : WF p) :
    (∀ e2, getById p.entries id = some e2 → e2.status = Status.pending →
      removeByDetachedProposal p [id] = p) ∧
    (getById p.entries id = none → removeByDetachedProposal p [id] = p) ∧
    (∀ e2, getById p.entries id = some e2 → ¬ e2.status = Status.pending →
      removeByDetachedProposal p [id] =
        { p with entries := detachKept p id ++ (detachSorted p id).map pendingize } ∧
      List.Perm (detachSorted p id) (detachRemoved p id) ∧
      (detachSorted p id).Pairwise (fun a b =>
        entryAncCount p.entries a.inner ≤ entryAncCount p.entries b.inner) ∧
      (detachSorted p id).Pairwise (fun a b =>
        txParentOf b.inner.tx a.inner.tx = false)) := by
  have hone : removeByDetachedProposal p [id] = detachOne p id := by
    unfold removeByDetachedProposal
    rfl
  refine ⟨?_, ?_, ?_⟩
  · intro e2 hsome hst
    rw [hone]
    unfold detachOne
    rw [hsome]
    simp only
    rw [if_pos hst]
  · intro hnone
    rw [hone]
    unfold detachOne
    rw [hnone]
  · intro e2 hsome hst
    refine ⟨?_, ?_, ?_, ?_⟩
    · rw [hone]
      exact detachOne_eq p id h e2 hsome hst
    · unfold detachSorted
      exact sortByKey_perm _ _
    · unfold detachSorted
      exact sortByKey_pairwise _ _
    · have hmem : ∀ x ∈ detachSorted p id, x ∈ p.entries := by
        intro x hx
        have : x ∈ detachRemoved p id := by
          unfold detachSorted at hx
          exact (sortByKey_perm _ _).mem_iff.mp hx
        unfold detachRemoved at this
        exact (List.mem_filter.mp this).1
      have hpw : (detachSorted p id).Pairwise (fun a b =>
          entryAncCount p.entries a.inner ≤ entryAncCount p.entries b.inner) := by
        unfold detachSorted
        exact sortByKey_pairwise _ _
      apply List.Pairwise.imp_of_mem _ hpw
      intro a b ha hb hle
      by_contra hbp
      rw [Bool.not_eq_false] at hbp
      have := entryAncCount_lt_of_parent p.entries h.1 h.2.2.2.2
        b a (hmem b hb) (hmem a ha) hbp
      omega

/-- C9 witness: detaching the Gap entry id 1 of `c9Pool` removes it with
its child and re-adds both as Pending. -/
theorem remove_by_detached_proposal_spec_witness :
    WF c9Pool ∧
    removeByDetachedProposal c9Pool [1] =
      { c9Pool with entries := detachKept c9Pool 1 ++ (detachSorted c9Pool 1).map pendingize } :=
  ⟨by unfold WF AncBound Acyclic; decide,
    ((remove_by_detached_proposal_spec c9Pool 1
        (by unfold WF AncBound Acyclic; decide)).2.2
      ⟨Status.gap, ⟨⟨1, 1, [exOut 0], 1, [], []⟩, 100, 10, 100, 0⟩⟩
      (by decide) (by decide)).1⟩

theorem foldl_proj_subset {β γ : Type} (proj : γ → TxPool) (step : γ → β → γ)
    (hstep : ∀ acc b, ∀ x ∈ (proj (step acc b)).entries, x ∈ (proj acc).entries) :
    ∀ (l : List β) (acc : γ), ∀ x ∈ (proj (l.foldl step acc)).entries,
      x ∈ (proj acc).entries := by
  intro l
  induction l with
  | nil => intro acc x hx; exact hx
  | cons b bs ih =>
    intro acc x hx
    exact hstep acc b x (ih (step acc b) x hx)

theorem resolveStep_subset (i : OutPoint)
    (acc : TxPool × List (TxEntry × Reject)) (sid : Nat) :
    ∀ x ∈ (resolveStep i acc sid).1.entries, x ∈ acc.1.entries := by
  intro x hx
  exact removeWithDesc_entries_subset acc.1 sid _ x hx

theorem resolveConflict_subset (p : TxPool) (tx : Tx) :
    ∀ x ∈ (resolveConflict p tx).1.entries, x ∈ p.entries := by
  unfold resolveConflict
  exact foldl_proj_subset (fun a => a.1)
    (fun acc i =>
      ((acc.1.entries.filter (fun e => decide (i ∈ e.inner.tx.inputs))).map
        PoolEntry.entryId).foldl (resolveStep i) acc)
    (fun acc i => foldl_proj_subset (fun a => a.1) (resolveStep i)
      (fun acc2 sid => resolveStep_subset i acc2 sid) _ acc)
    tx.inputs (p, [])

theorem removeEntry_subset (p : TxPool) (id : Nat) :
    ∀ x ∈ (poolMapRemoveEntry p id).1.entries, x ∈ p.entries := by
  unfold poolMapRemoveEntry
  cases hg : getById p.entries id with
  | none => intro x hx; exact hx
  | some e => intro x hx; exact (List.mem_filter.mp hx).1

theorem removeCommittedTx_subset (p : TxPool) (tx : Tx) :
    ∀ x ∈ (removeCommittedTx p tx).1.entries, x ∈ p.entries := by
  simp only [removeCommittedTx]
  cases hsome : (poolMapRemoveEntry p tx.shortId).2 with
  | some entry =>
    simp only
    intro x hx
    have h1 := resolveConflict_subset
      (callCommitted (poolMapRemoveEntry p tx.shortId).1 entry.inner).1 tx x hx
    exact removeEntry_subset p tx.shortId x h1
  | none =>
    simp only
    intro x hx
    exact removeEntry_subset p tx.shortId x
      (resolveConflict_subset _ tx x hx)

theorem committedStep_subset
    (acc : TxPool × List TxEntry × List (TxEntry × Reject)) (tx : Tx) :
    ∀ x ∈ (committedStep acc tx).1.entries, x ∈ acc.1.entries := by
  intro x hx
  exact removeCommittedTx_subset acc.1 tx x hx

theorem headerDep_subset (p : TxPool) (detached : List Nat) :
    ∀ x ∈ (resolveConflictHeaderDep p detached).1.entries, x ∈ p.entries := by
  unfold resolveConflictHeaderDep
  exact foldl_proj_subset (fun a => a.1)
    (fun acc aid =>
      let pr := removeWithDescAndReject acc.1 aid
        (fun x => Reject.resolve (ResolveErr.invalidHeader (detached.headD 0)))
      (pr.1, acc.2 ++ pr.2))
    (fun acc aid x hx => removeWithDesc_entries_subset acc.1 aid _ x hx)
    _ (p, [])

theorem removeCommittedTxs_subset (p : TxPool) (txs : List Tx) (dh : List Nat) :
    ∀ x ∈ (removeCommittedTxs p txs dh).1.entries, x ∈ p.entries := by
  unfold removeCommittedTxs
  by_cases hd : dh.isEmpty
  · rw [if_pos hd]
    exact foldl_proj_subset (fun a => a.1) committedStep committedStep_subset
      txs (p, [], [])
  · rw [if_neg hd]
    intro x hx
    apply foldl_proj_subset (fun a => a.1) committedStep committedStep_subset
      txs (p, [], [])
    exact headerDep_subset _ dh x hx

theorem foldl_cache_eq {β γ : Type} (proj : γ → TxPool) (step : γ → β → γ)
    (hstep : ∀ acc b, (proj (step acc b)).committedTxsHashCache =
      (proj acc).committedTxsHashCache) :
    ∀ (l : List β) (acc : γ),
      (proj (l.foldl step acc)).committedTxsHashCache =
        (proj acc).committedTxsHashCache := by
  intro l
  induction l with
  | nil => intro acc; rfl
  | cons b bs ih =>
    intro acc
    rw [List.foldl_cons, ih (step acc b), hstep acc b]

theorem resolveConflict_cache (p : TxPool) (tx : Tx) :
    (resolveConflict p tx).1.committedTxsHashCache =
      p.committedTxsHashCache := by
  unfold resolveConflict
  exact foldl_cache_eq (fun a => a.1)
    (fun acc i =>
      ((acc.1.entries.filter (fun e => decide (i ∈ e.inner.tx.inputs))).map
        PoolEntry.entryId).foldl (resolveStep i) acc)
    (fun acc i => foldl_cache_eq (fun a => a.1) (resolveStep i)
      (fun acc2 sid => removeWithDesc_cache acc2.1 sid _) _ acc)
    tx.inputs (p, [])

theorem removeCommittedTx_cache (p : TxPool) (tx : Tx) :
    (removeCommittedTx p tx).1.committedTxsHashCache =
      p.committedTxsHashCache := by
  simp only [removeCommittedTx]
  cases hsome : (poolMapRemoveEntry p tx.shortId).2 with
  | some entry =>
    simp only
    rw [resolveConflict_cache]
    exact removeEntry_cache p tx.shortId
  | none =>
    simp only
    rw [resolveConflict_cache]
    exact removeEntry_cache p tx.shortId

theorem committedStep_cache
    (acc : TxPool × List TxEntry × List (TxEntry × Reject)) (tx : Tx) :
    (committedStep acc tx).1.committedTxsHashCache =
      lruPut acc.1.committedTxsHashCache tx.shortId tx.txHash := by
  show lruPut (removeCommittedTx acc.1 tx).1.committedTxsHashCache
    tx.shortId tx.txHash = _
  rw [removeCommittedTx_cache]

theorem headerDep_cache (p : TxPool) (detached : List Nat) :
    (resolveConflictHeaderDep p detached).1.committedTxsHashCache =
      p.committedTxsHashCache := by
  unfold resolveConflictHeaderDep
  exact foldl_cache_eq (fun a => a.1)
    (fun acc aid =>
      let pr := removeWithDescAndReject acc.1 aid
        (fun x => Reject.resolve (ResolveErr.invalidHeader (detached.headD 0)))
      (pr.1, acc.2 ++ pr.2))
    (fun acc aid => removeWithDesc_cache acc.1 aid _)
    _ (p, [])

theorem foldl_ids_absent {γ : Type} (proj : γ → TxPool) (step : γ → Nat → γ)
    (hremove : ∀ acc s, ∀ x ∈ (proj (step acc s)).entries, x.entryId ≠ s)
    (hsub : ∀ acc s, ∀ x ∈ (proj (step acc s)).entries, x ∈ (proj acc).entries) :
    ∀ (L : List Nat) (acc : γ) (s : Nat), s ∈ L →
      ∀ x ∈ (proj (L.foldl step acc)).entries, x.entryId ≠ s := by
  intro L
  induction L with
  | nil => intro acc s hs; exact absurd hs (List.not_mem_nil s)
  | cons a as ih =>
    intro acc s hs x hx
    rcases List.mem_cons.mp hs with rfl | hs2
    · have hx2 : x ∈ (proj (step acc s)).entries :=
        foldl_proj_subset proj step hsub as (step acc s) x hx
      exact hremove acc s x hx2
    · exact ih (step acc a) s hs2 x hx

theorem removeWithDesc_id_absent (p : TxPool) (id : Nat) (mkr : TxEntry → Reject) :
    ∀ x ∈ (removeWithDescAndReject p id mkr).1.entries, x.entryId ≠ id := by
  rw [removeWithDesc_eq]
  intro x hx hcon
  rcases List.mem_filter.mp hx with ⟨-, hpred⟩
  have hmem : inList x.entryId (id :: calcDescendants p.entries id) = true :=
    (inList_iff _ _).mpr (by rw [hcon]; exact List.mem_cons_self _ _)
  rw [hmem] at hpred
  exact absurd hpred (by simp)

theorem resolveStep_id_absent (i : OutPoint)
    (acc : TxPool × List (TxEntry × Reject)) (sid : Nat) :
    ∀ x ∈ (resolveStep i acc sid).1.entries, x.entryId ≠ sid := by
  intro x hx
  exact removeWithDesc_id_absent acc.1 sid _ x hx

theorem inner_fold_no_spender (i : OutPoint)
    (q : TxPool × List (TxEntry × Reject)) :
    ∀ x ∈ (((q.1.entries.filter (fun e => decide (i ∈ e.inner.tx.inputs))).map
        PoolEntry.entryId).foldl (resolveStep i) q).1.entries,
      ¬ i ∈ x.inner.tx.inputs := by
  intro x hx hspend
  have hxq : x ∈ q.1.entries :=
    foldl_proj_subset (fun a => a.1) (resolveStep i)
      (fun acc2 sid => resolveStep_subset i acc2 sid) _ q x hx
  have hid : x.entryId ∈ (q.1.entries.filter (fun e =>
      decide (i ∈ e.inner.tx.inputs))).map PoolEntry.entryId :=
    List.mem_map.mpr ⟨x, List.mem_filter.mpr ⟨hxq, by simp [hspend]⟩, rfl⟩
  exact foldl_ids_absent (fun a => a.1) (resolveStep i)
    (fun acc2 sid => resolveStep_id_absent i acc2 sid)
    (fun acc2 sid => resolveStep_subset i acc2 sid)
    _ q x.entryId hid x hx rfl

theorem resolveConflict_no_spender (p : TxPool) (tx : Tx) :
    ∀ i ∈ tx.inputs, ∀ x ∈ (resolveConflict p tx).1.entries,
      ¬ i ∈ x.inner.tx.inputs := by
  unfold resolveConflict
  suffices hgen : ∀ (L : List OutPoint)
      (acc : TxPool × List (TxEntry × Reject)),
      ∀ i ∈ L, ∀ x ∈ (L.foldl (fun acc2 i2 =>
        ((acc2.1.entries.filter (fun e => decide (i2 ∈ e.inner.tx.inputs))).map
          PoolEntry.entryId).foldl (resolveStep i2) acc2) acc).1.entries,
        ¬ i ∈ x.inner.tx.inputs by
    intro i hi x hx
    exact hgen tx.inputs (p, []) i hi x hx
  intro L
  induction L with
  | nil => intro acc i hi; exact absurd hi (List.not_mem_nil i)
  | cons a as ih =>
    intro acc i hi x hx
    rcases List.mem_cons.mp hi with rfl | hi2
    · intro hspend
      simp only [List.foldl_cons] at hx
      have hx2 : x ∈ (((acc.1.entries.filter (fun e =>
          decide (i ∈ e.inner.tx.inputs))).map
          PoolEntry.entryId).foldl (resolveStep i) acc).1.entries :=
        foldl_proj_subset (fun a2 => a2.1)
          (fun acc2 i2 =>
            ((acc2.1.entries.filter (fun e =>
              decide (i2 ∈ e.inner.tx.inputs))).map
              PoolEntry.entryId).foldl (resolveStep i2) acc2)
          (fun acc2 i2 => foldl_proj_subset (fun a3 => a3.1) (resolveStep i2)
            (fun acc3 sid => resolveStep_subset i2 acc3 sid) _ acc2)
          as _ x hx
      exact inner_fold_no_spender i acc x hx2 hspend
    · simp only [List.foldl_cons] at hx
      exact ih _ i hi2 x hx

theorem removeEntry_id_absent (p : TxPool) (id : Nat) :
    ∀ x ∈ (poolMapRemoveEntry p id).1.entries, x.entryId ≠ id := by
  unfold poolMapRemoveEntry
  cases hg : getById p.entries id with
  | none =>
    intro x hx
    exact (getById_none_iff p.entries id).mp hg x hx
  | some e =>
    intro x hx
    exact of_decide_eq_true (List.mem_filter.mp hx).2

theorem removeCommittedTx_id_absent (p : TxPool) (tx : Tx) :
    ∀ x ∈ (removeCommittedTx p tx).1.entries, x.entryId ≠ tx.shortId := by
  simp only [removeCommittedTx]
  cases hsome : (poolMapRemoveEntry p tx.shortId).2 with
  | some entry =>
    simp only
    intro x hx
    exact removeEntry_id_absent p tx.shortId x
      (resolveConflict_subset
        (callCommitted (poolMapRemoveEntry p tx.shortId).1 entry.inner).1
        tx x hx)
  | none =>
    simp only
    intro x hx
    exact removeEntry_id_absent p tx.shortId x
      (resolveConflict_subset _ tx x hx)

theorem removeCommittedTx_no_spender (p : TxPool) (tx : Tx) :
    ∀ i ∈ tx.inputs, ∀ x ∈ (removeCommittedTx p tx).1.entries,
      ¬ i ∈ x.inner.tx.inputs := by
  simp only [removeCommittedTx]
  cases hsome : (poolMapRemoveEntry p tx.shortId).2 with
  | some entry =>
    simp only
    intro i hi x hx
    exact resolveConflict_no_spender _ tx i hi x hx
  | none =>
    simp only
    intro i hi x hx
    exact resolveConflict_no_spender _ tx i hi x hx

theorem committed_fold_absent (txs : List Tx) :
    ∀ (acc : TxPool × List TxEntry × List (TxEntry × Reject)) (t : Tx),
      t ∈ txs →
      (∀ x ∈ (txs.foldl committedStep acc).1.entries,
        x.entryId ≠ t.shortId) ∧
      (∀ i ∈ t.inputs, ∀ x ∈ (txs.foldl committedStep acc).1.entries,
        ¬ i ∈ x.inner.tx.inputs) := by
  induction txs with
  | nil => intro acc t ht; exact absurd ht (List.not_mem_nil t)
  | cons a as ih =>
    intro acc t ht
    rcases List.mem_cons.mp ht with rfl | ht2
    · constructor
      · intro x hx
        simp only [List.foldl_cons] at hx
        have hx2 : x ∈ (committedStep acc t).1.entries :=
          foldl_proj_subset (fun a2 => a2.1) committedStep
            committedStep_subset as _ x hx
        exact removeCommittedTx_id_absent acc.1 t x hx2
      · intro i hi x hx
        simp only [List.foldl_cons] at hx
        have hx2 : x ∈ (committedStep acc t).1.entries :=
          foldl_proj_subset (fun a2 => a2.1) committedStep
            committedStep_subset as _ x hx
        exact removeCommittedTx_no_spender acc.1 t i hi x hx2
    · exact ih (committedStep acc a) t ht2

theorem headerDep_absent (p : TxPool) (detached : List Nat) :
    ∀ x ∈ (resolveConflictHeaderDep p detached).1.entries,
      x.inner.tx.headerDeps.any (fun hh => inList hh detached) = false := by
  intro x hx
  by_contra hb
  rw [Bool.not_eq_false] at hb
  have hxq : x ∈ p.entries := headerDep_subset p detached x hx
  have hid : x.entryId ∈ (p.entries.filter (fun e =>
      e.inner.tx.headerDeps.any (fun hh => inList hh detached))).map
      PoolEntry.entryId :=
    List.mem_map.mpr ⟨x, List.mem_filter.mpr ⟨hxq, hb⟩, rfl⟩
  revert hx
  unfold resolveConflictHeaderDep
  intro hx
  exact foldl_ids_absent (fun a => a.1)
    (fun acc aid =>
      let pr := removeWithDescAndReject acc.1 aid
        (fun x2 => Reject.resolve (ResolveErr.invalidHeader (detached.headD 0)))
      (pr.1, acc.2 ++ pr.2))
    (fun acc aid x2 hx2 => removeWithDesc_id_absent acc.1 aid _ x2 hx2)
    (fun acc aid x2 hx2 => removeWithDesc_entries_subset acc.1 aid _ x2 hx2)
    _ (p, []) x.entryId hid x hx rfl

theorem foldl_list_mono {α β γ : Type} (projL : γ → List α) (step : γ → β → γ)
    (hmono : ∀ acc b, ∀ v ∈ projL acc, v ∈ projL (step acc b)) :
    ∀ (l : List β) (acc : γ), ∀ v ∈ projL acc, v ∈ projL (l.foldl step acc) := by
  intro l
  induction l with
  | nil => intro acc v hv; exact hv
  | cons b bs ih =>
    intro acc v hv
    exact ih (step acc b) v (hmono acc b v hv)

theorem foldl_events_resolve {β γ : Type}
    (projE : γ → List (TxEntry × Reject)) (step : γ → β → γ)
    (hstep : ∀ acc b, ∀ ev ∈ projE (step acc b),
      ev ∈ projE acc ∨ ∃ r, ev.2 = Reject.resolve r) :
    ∀ (l : List β) (acc : γ), ∀ ev ∈ projE (l.foldl step acc),
      ev ∈ projE acc ∨ ∃ r, ev.2 = Reject.resolve r := by
  intro l
  induction l with
  | nil => intro acc ev hev; exact Or.inl hev
  | cons b bs ih =>
    intro acc ev hev
    rcases ih (step acc b) ev hev with hev2 | hev2
    · exact hstep acc b ev hev2
    · exact Or.inr hev2

theorem removeWithDesc_events (p : TxPool) (id : Nat) (mkr : TxEntry → Reject) :
    ∀ ev ∈ (removeWithDescAndReject p id mkr).2,
      ∃ en : PoolEntry, ev = (en.inner, mkr en.inner) := by
  rw [removeWithDesc_eq]
  intro ev hev
  simp only at hev
  rcases List.mem_map.mp hev with ⟨en, -, rfl⟩
  exact ⟨en, rfl⟩

theorem resolveStep_events (i : OutPoint)
    (acc : TxPool × List (TxEntry × Reject)) (sid : Nat) :
    ∀ ev ∈ (resolveStep i acc sid).2,
      ev ∈ acc.2 ∨ ∃ r, ev.2 = Reject.resolve r := by
  intro ev hev
  have hev2 : ev ∈ acc.2 ++
      (removeWithDescAndReject acc.1 sid
        (fun _ => Reject.resolve (ResolveErr.dead i))).2 := hev
  rcases List.mem_append.mp hev2 with h2 | h2
  · exact Or.inl h2
  · rcases removeWithDesc_events acc.1 sid _ ev h2 with ⟨en, rfl⟩
    exact Or.inr ⟨ResolveErr.dead i, rfl⟩

theorem resolveConflict_events (p : TxPool) (tx : Tx) :
    ∀ ev ∈ (resolveConflict p tx).2, ∃ r, ev.2 = Reject.resolve r := by
  unfold resolveConflict
  intro ev hev
  have := foldl_events_resolve (fun a => a.2)
    (fun acc i =>
      ((acc.1.entries.filter (fun e => decide (i ∈ e.inner.tx.inputs))).map
        PoolEntry.entryId).foldl (resolveStep i) acc)
    (fun acc i => foldl_events_resolve (fun a => a.2) (resolveStep i)
      (fun acc2 sid => resolveStep_events i acc2 sid) _ acc)
    tx.inputs (p, []) ev hev
  rcases this with h2 | h2
  · exact absurd h2 (List.not_mem_nil ev)
  · exact h2

theorem removeCommittedTx_events (p : TxPool) (tx : Tx) :
    ∀ ev ∈ (removeCommittedTx p tx).2.2, ∃ r, ev.2 = Reject.resolve r := by
  simp only [removeCommittedTx]
  cases hsome : (poolMapRemoveEntry p tx.shortId).2 with
  | some entry =>
    simp only
    intro ev hev
    exact resolveConflict_events _ tx ev hev
  | none =>
    simp only
    intro ev hev
    exact resolveConflict_events _ tx ev hev

theorem headerDep_events (p : TxPool) (detached : List Nat) :
    ∀ ev ∈ (resolveConflictHeaderDep p detached).2,
      ∃ r, ev.2 = Reject.resolve r := by
  unfold resolveConflictHeaderDep
  intro ev hev
  have := foldl_events_resolve (fun a => a.2)
    (fun acc aid =>
      let pr := removeWithDescAndReject acc.1 aid
        (fun x2 => Reject.resolve (ResolveErr.invalidHeader (detached.headD 0)))
      (pr.1, acc.2 ++ pr.2))
    (by
      intro acc aid ev2 hev2
      have hev3 : ev2 ∈ acc.2 ++
          (removeWithDescAndReject acc.1 aid
            (fun x2 => Reject.resolve
              (ResolveErr.invalidHeader (detached.headD 0)))).2 := hev2
      rcases List.mem_append.mp hev3 with h2 | h2
      · exact Or.inl h2
      · rcases removeWithDesc_events acc.1 aid _ ev2 h2 with ⟨en, rfl⟩
        exact Or.inr ⟨ResolveErr.invalidHeader (detached.headD 0), rfl⟩)
    _ (p, []) ev hev
  rcases this with h2 | h2
  · exact absurd h2 (List.not_mem_nil ev)
  · exact h2

theorem committedStep_events
    (acc : TxPool × List TxEntry × List (TxEntry × Reject)) (tx : Tx) :
    ∀ ev ∈ (committedStep acc tx).2.2,
      ev ∈ acc.2.2 ∨ ∃ r, ev.2 = Reject.resolve r := by
  intro ev hev
  have hev2 : ev ∈ acc.2.2 ++ (removeCommittedTx acc.1 tx).2.2 := hev
  rcases List.mem_append.mp hev2 with h2 | h2
  · exact Or.inl h2
  · exact Or.inr (removeCommittedTx_events acc.1 tx ev h2)

theorem removeCommittedTxs_events (p : TxPool) (txs : List Tx) (dh : List Nat) :
    ∀ ev ∈ (removeCommittedTxs p txs dh).2.2, ∃ r, ev.2 = Reject.resolve r := by
  unfold removeCommittedTxs
  have hfold := foldl_events_resolve (fun a => a.2.2) committedStep
    committedStep_events txs (p, [], [])
  by_cases hd : dh.isEmpty
  · rw [if_pos hd]
    intro ev hev
    rcases hfold ev hev with h2 | h2
    · exact absurd h2 (List.not_mem_nil ev)
    · exact h2
  · rw [if_neg hd]
    intro ev hev
    have hev2 : ev ∈ (txs.foldl committedStep (p, [], [])).2.2 ++
        (resolveConflictHeaderDep (txs.foldl committedStep (p, [], [])).1 dh).2 :=
      hev
    rcases List.mem_append.mp hev2 with h2 | h2
    · rcases hfold ev h2 with h3 | h3
      · exact absurd h3 (List.not_mem_nil ev)
      · exact h3
    · exact headerDep_events _ dh ev h2

theorem removeWithDesc_conserve (p : TxPool) (id : Nat) (mkr : TxEntry → Reject) :
    ∀ x ∈ p.entries, x ∈ (removeWithDescAndReject p id mkr).1.entries ∨
      (x.inner, mkr x.inner) ∈ (removeWithDescAndReject p id mkr).2 := by
  rw [removeWithDesc_eq]
  intro x hx
  by_cases hp : (inList x.entryId (id :: calcDescendants p.entries id)) = true
  · right
    simp only
    exact List.mem_map.mpr ⟨x, List.mem_filter.mpr ⟨hx, hp⟩, rfl⟩
  · left
    simp only
    have hf : inList x.entryId (id :: calcDescendants p.entries id) = false := by
      cases hbv : inList x.entryId (id :: calcDescendants p.entries id) with
      | false => rfl
      | true => exact absurd hbv hp
    refine List.mem_filter.mpr ⟨hx, ?_⟩
    show (!(inList x.entryId (id :: calcDescendants p.entries id))) = true
    rw [hf]
    rfl

theorem foldl_events_mono {β γ : Type}
    (projE : γ → List (TxEntry × Reject)) (step : γ → β → γ)
    (hmono : ∀ acc b, ∀ ev ∈ projE acc, ev ∈ projE (step acc b)) :
    ∀ (l : List β) (acc : γ), ∀ ev ∈ projE acc,
      ev ∈ projE (l.foldl step acc) :=
  foldl_list_mono projE step hmono

theorem foldl_conserve {β γ : Type} (proj : γ → TxPool)
    (projE : γ → List (TxEntry × Reject)) (step : γ → β → γ)
    (hstep : ∀ acc b, ∀ x ∈ (proj acc).entries,
      x ∈ (proj (step acc b)).entries ∨
        ∃ r, (x.inner, Reject.resolve r) ∈ projE (step acc b))
    (hmono : ∀ acc b, ∀ ev ∈ projE acc, ev ∈ projE (step acc b)) :
    ∀ (l : List β) (acc : γ), ∀ x ∈ (proj acc).entries,
      x ∈ (proj (l.foldl step acc)).entries ∨
        ∃ r, (x.inner, Reject.resolve r) ∈ projE (l.foldl step acc) := by
  intro l
  induction l with
  | nil => intro acc x hx; exact Or.inl hx
  | cons b bs ih =>
    intro acc x hx
    rcases hstep acc b x hx with h2 | h2
    · exact ih (step acc b) x h2
    · rcases h2 with ⟨r, hr⟩
      exact Or.inr ⟨r, foldl_events_mono projE step hmono bs (step acc b) _ hr⟩

theorem resolveStep_conserve (i : OutPoint)
    (acc : TxPool × List (TxEntry × Reject)) (sid : Nat) :
    ∀ x ∈ acc.1.entries, x ∈ (resolveStep i acc sid).1.entries ∨
      ∃ r, (x.inner, Reject.resolve r) ∈ (resolveStep i acc sid).2 := by
  intro x hx
  rcases removeWithDesc_conserve acc.1 sid
    (fun _ => Reject.resolve (ResolveErr.dead i)) x hx with h2 | h2
  · exact Or.inl h2
  · refine Or.inr ⟨ResolveErr.dead i, ?_⟩
    show (x.inner, Reject.resolve (ResolveErr.dead i)) ∈ acc.2 ++
      (removeWithDescAndReject acc.1 sid
        (fun _ => Reject.resolve (ResolveErr.dead i))).2
    exact List.mem_append.mpr (Or.inr h2)

theorem resolveStep_events_mono (i : OutPoint)
    (acc : TxPool × List (TxEntry × Reject)) (sid : Nat) :
    ∀ ev ∈ acc.2, ev ∈ (resolveStep i acc sid).2 := by
  intro ev hev
  show ev ∈ acc.2 ++ (removeWithDescAndReject acc.1 sid
    (fun _ => Reject.resolve (ResolveErr.dead i))).2
  exact List.mem_append.mpr (Or.inl hev)

theorem resolveConflict_conserve (p : TxPool) (tx : Tx) :
    ∀ x ∈ p.entries, x ∈ (resolveConflict p tx).1.entries ∨
      ∃ r, (x.inner, Reject.resolve r) ∈ (resolveConflict p tx).2 := by
  unfold resolveConflict
  exact foldl_conserve (fun a => a.1) (fun a => a.2)
    (fun acc i =>
      ((acc.1.entries.filter (fun e => decide (i ∈ e.inner.tx.inputs))).map
        PoolEntry.entryId).foldl (resolveStep i) acc)
    (fun acc i => foldl_conserve (fun a => a.1) (fun a => a.2) (resolveStep i)
      (fun acc2 sid => resolveStep_conserve i acc2 sid)
      (fun acc2 sid => resolveStep_events_mono i acc2 sid) _ acc)
    (fun acc i => foldl_events_mono (fun a => a.2) (resolveStep i)
      (fun acc2 sid => resolveStep_events_mono i acc2 sid) _ acc)
    tx.inputs (p, [])

theorem removeCommittedTx_conserve (p : TxPool) (tx : Tx)
    (hnodup : (poolIds p.entries).Nodup) :
    ∀ x ∈ p.entries, x ∈ (removeCommittedTx p tx).1.entries ∨
      x.inner ∈ (removeCommittedTx p tx).2.1 ∨
      ∃ r, (x.inner, Reject.resolve r) ∈ (removeCommittedTx p tx).2.2 := by
  simp only [removeCommittedTx]
  cases hsome : (poolMapRemoveEntry p tx.shortId).2 with
  | some entry =>
    have hget : getById p.entries tx.shortId = some entry := by
      unfold poolMapRemoveEntry at hsome
      cases hg : getById p.entries tx.shortId with
      | none => rw [hg] at hsome; exact absurd hsome (by simp)
      | some x2 =>
        rw [hg] at hsome
        simpa using hsome
    obtain ⟨hemem, heid⟩ := getById_some p.entries tx.shortId entry hget
    have hpr1 : (poolMapRemoveEntry p tx.shortId).1.entries =
        p.entries.filter (fun x => decide (x.entryId ≠ tx.shortId)) := by
      unfold poolMapRemoveEntry
      rw [hget]
    simp only
    intro x hx
    by_cases hxid : x.entryId = tx.shortId
    · right
      left
      have hxe : x = entry := nodup_same_id_eq p.entries hnodup x entry hx
        hemem (by rw [hxid, heid])
      subst hxe
      show x.inner ∈ [x.inner]
      exact List.mem_cons_self _ _
    · have hx2 : x ∈ (callCommitted (poolMapRemoveEntry p tx.shortId).1
          entry.inner).1.entries := by
        show x ∈ (poolMapRemoveEntry p tx.shortId).1.entries
        rw [hpr1]
        exact List.mem_filter.mpr ⟨hx, by simp [hxid]⟩
      rcases resolveConflict_conserve _ tx x hx2 with h2 | h2
      · exact Or.inl h2
      · exact Or.inr (Or.inr h2)
  | none =>
    have hpr1 : (poolMapRemoveEntry p tx.shortId).1 = p := by
      unfold poolMapRemoveEntry at hsome ⊢
      cases hg : getById p.entries tx.shortId with
      | none => rfl
      | some x2 => rw [hg] at hsome; exact absurd hsome (by simp)
    simp only
    intro x hx
    have hx2 : x ∈ (poolMapRemoveEntry p tx.shortId).1.entries := by
      rw [hpr1]
      exact hx
    rcases resolveConflict_conserve _ tx x hx2 with h2 | h2
    · exact Or.inl h2
    · exact Or.inr (Or.inr h2)

theorem committedStep_conserve
    (acc : TxPool × List TxEntry × List (TxEntry × Reject)) (tx : Tx)
    (hnodup : (poolIds acc.1.entries).Nodup) :
    ∀ x ∈ acc.1.entries, x ∈ (committedStep acc tx).1.entries ∨
      x.inner ∈ (committedStep acc tx).2.1 ∨
      ∃ r, (x.inner, Reject.resolve r) ∈ (committedStep acc tx).2.2 := by
  intro x hx
  rcases removeCommittedTx_conserve acc.1 tx hnodup x hx with h2 | h2 | h2
  · exact Or.inl h2
  · refine Or.inr (Or.inl ?_)
    show x.inner ∈ acc.2.1 ++ (removeCommittedTx acc.1 tx).2.1
    exact List.mem_append.mpr (Or.inr h2)
  · rcases h2 with ⟨r, hr⟩
    refine Or.inr (Or.inr ⟨r, ?_⟩)
    show (x.inner, Reject.resolve r) ∈ acc.2.2 ++ (removeCommittedTx acc.1 tx).2.2
    exact List.mem_append.mpr (Or.inr hr)

theorem committedStep_committed_mono
    (acc : TxPool × List TxEntry × List (TxEntry × Reject)) (tx : Tx) :
    ∀ en ∈ acc.2.1, en ∈ (committedStep acc tx).2.1 := by
  intro en hen
  show en ∈ acc.2.1 ++ (removeCommittedTx acc.1 tx).2.1
  exact List.mem_append.mpr (Or.inl hen)

theorem committedStep_events_mono
    (acc : TxPool × List TxEntry × List (TxEntry × Reject)) (tx : Tx) :
    ∀ ev ∈ acc.2.2, ev ∈ (committedStep acc tx).2.2 := by
  intro ev hev
  show ev ∈ acc.2.2 ++ (removeCommittedTx acc.1 tx).2.2
  exact List.mem_append.mpr (Or.inl hev)

theorem committed_fold_conserve (txs : List Tx) :
    ∀ (acc : TxPool × List TxEntry × List (TxEntry × Reject)), WF acc.1 →
      ∀ x ∈ acc.1.entries,
        x ∈ (txs.foldl committedStep acc).1.entries ∨
        x.inner ∈ (txs.foldl committedStep acc).2.1 ∨
        ∃ r, (x.inner, Reject.resolve r) ∈ (txs.foldl committedStep acc).2.2 := by
  induction txs with
  | nil => intro acc _ x hx; exact Or.inl hx
  | cons a as ih =>
    intro acc hWF x hx
    simp only [List.foldl_cons]
    rcases committedStep_conserve acc a hWF.1 x hx with h2 | h2 | h2
    · exact ih (committedStep acc a) (WF_committedStep acc a hWF) x h2
    · exact Or.inr (Or.inl (foldl_list_mono (fun q => q.2.1) committedStep
        committedStep_committed_mono as (committedStep acc a) _ h2))
    · rcases h2 with ⟨r, hr⟩
      exact Or.inr (Or.inr ⟨r, foldl_list_mono (fun q => q.2.2) committedStep
        committedStep_events_mono as (committedStep acc a) _ hr⟩)

theorem headerDep_conserve (p : TxPool) (detached : List Nat) :
    ∀ x ∈ p.entries, x ∈ (resolveConflictHeaderDep p detached).1.entries ∨
      ∃ r, (x.inner, Reject.resolve r) ∈ (resolveConflictHeaderDep p detached).2 := by
  unfold resolveConflictHeaderDep
  exact foldl_conserve (fun a => a.1) (fun a => a.2)
    (fun acc aid =>
      let pr := removeWithDescAndReject acc.1 aid
        (fun x2 => Reject.resolve (ResolveErr.invalidHeader (detached.headD 0)))
      (pr.1, acc.2 ++ pr.2))
    (by
      intro acc aid x hx
      rcases removeWithDesc_conserve acc.1 aid
        (fun x2 => Reject.resolve (ResolveErr.invalidHeader (detached.headD 0)))
        x hx with h2 | h2
      · exact Or.inl h2
      · refine Or.inr ⟨ResolveErr.invalidHeader (detached.headD 0), ?_⟩
        show (x.inner, Reject.resolve (ResolveErr.invalidHeader
          (detached.headD 0))) ∈ acc.2 ++
            (removeWithDescAndReject acc.1 aid
              (fun x2 => Reject.resolve
                (ResolveErr.invalidHeader (detached.headD 0)))).2
        exact List.mem_append.mpr (Or.inr h2))
    (by
      intro acc aid ev hev
      show ev ∈ acc.2 ++ (removeWithDescAndReject acc.1 aid
        (fun x2 => Reject.resolve (ResolveErr.invalidHeader
          (detached.headD 0)))).2
      exact List.mem_append.mpr (Or.inl hev))
    _ (p, [])

theorem removeCommittedTxs_conserve (p : TxPool) (txs : List Tx)
    (dh : List Nat) (h : WF p) :
    ∀ x ∈ p.entries, x ∈ (removeCommittedTxs p txs dh).1.entries ∨
      x.inner ∈ (removeCommittedTxs p txs dh).2.1 ∨
      ∃ r, (x.inner, Reject.resolve r) ∈ (removeCommittedTxs p txs dh).2.2 := by
  unfold removeCommittedTxs
  by_cases hd : dh.isEmpty
  · rw [if_pos hd]
    exact committed_fold_conserve txs (p, [], []) h
  · rw [if_neg hd]
    intro x hx
    rcases committed_fold_conserve txs (p, [], []) h x hx with h2 | h2 | h2
    · rcases headerDep_conserve (txs.foldl committedStep (p, [], [])).1 dh
        x h2 with h3 | h3
      · exact Or.inl h3
      · rcases h3 with ⟨r, hr⟩
        refine Or.inr (Or.inr ⟨r, ?_⟩)
        show (x.inner, Reject.resolve r) ∈
          (txs.foldl committedStep (p, [], [])).2.2 ++
            (resolveConflictHeaderDep
              (txs.foldl committedStep (p, [], [])).1 dh).2
        exact List.mem_append.mpr (Or.inr hr)
    · exact Or.inr (Or.inl h2)
    · rcases h2 with ⟨r, hr⟩
      refine Or.inr (Or.inr ⟨r, ?_⟩)
      show (x.inner, Reject.resolve r) ∈
        (txs.foldl committedStep (p, [], [])).2.2 ++
          (resolveConflictHeaderDep
            (txs.foldl committedStep (p, [], [])).1 dh).2
      exact List.mem_append.mpr (Or.inl hr)

theorem committedStep_committed_src
    (acc : TxPool × List TxEntry × List (TxEntry × Reject)) (tx : Tx) :
    ∀ en ∈ (committedStep acc tx).2.1,
      en ∈ acc.2.1 ∨ en.tx.shortId = tx.shortId := by
  intro en hen
  have hen2 : en ∈ acc.2.1 ++ (removeCommittedTx acc.1 tx).2.1 := hen
  rcases List.mem_append.mp hen2 with h2 | h2
  · exact Or.inl h2
  · right
    revert h2
    simp only [removeCommittedTx]
    cases hsome : (poolMapRemoveEntry acc.1 tx.shortId).2 with
    | some entry =>
      have hget : getById acc.1.entries tx.shortId = some entry := by
        unfold poolMapRemoveEntry at hsome
        cases hg : getById acc.1.entries tx.shortId with
        | none => rw [hg] at hsome; exact absurd hsome (by simp)
        | some x2 =>
          rw [hg] at hsome
          simpa using hsome
      obtain ⟨-, heid⟩ := getById_some acc.1.entries tx.shortId entry hget
      simp only
      intro h2
      have : en = entry.inner := by simpa using h2
      rw [this]
      exact heid
    | none =>
      simp only
      intro h2
      exact absurd h2 (List.not_mem_nil en)

theorem committed_fold_src (txs : List Tx) :
    ∀ (acc : TxPool × List TxEntry × List (TxEntry × Reject)),
      ∀ en ∈ (txs.foldl committedStep acc).2.1,
        en ∈ acc.2.1 ∨ ∃ t ∈ txs, en.tx.shortId = t.shortId := by
  induction txs with
  | nil => intro acc en hen; exact Or.inl hen
  | cons a as ih =>
    intro acc en hen
    simp only [List.foldl_cons] at hen
    rcases ih (committedStep acc a) en hen with h2 | h2
    · rcases committedStep_committed_src acc a en h2 with h3 | h3
      · exact Or.inl h3
      · exact Or.inr ⟨a, List.mem_cons_self a as, h3⟩
    · rcases h2 with ⟨t, ht, hts⟩
      exact Or.inr ⟨t, List.mem_cons.mpr (Or.inr ht), hts⟩

theorem removeCommittedTxs_committed_src (p : TxPool) (txs : List Tx)
    (dh : List Nat) :
    ∀ en ∈ (removeCommittedTxs p txs dh).2.1,
      ∃ t ∈ txs, en.tx.shortId = t.shortId := by
  unfold removeCommittedTxs
  by_cases hd : dh.isEmpty
  · rw [if_pos hd]
    intro en hen
    rcases committed_fold_src txs (p, [], []) en hen with h2 | h2
    · exact absurd h2 (List.not_mem_nil en)
    · exact h2
  · rw [if_neg hd]
    intro en hen
    rcases committed_fold_src txs (p, [], []) en hen with h2 | h2
    · exact absurd h2 (List.not_mem_nil en)
    · exact h2

theorem removeCommittedTxs_absent (p : TxPool) (txs : List Tx) (dh : List Nat)
    (t : Tx) (ht : t ∈ txs) :
    (∀ x ∈ (removeCommittedTxs p txs dh).1.entries, x.entryId ≠ t.shortId) ∧
    (∀ i ∈ t.inputs, ∀ x ∈ (removeCommittedTxs p txs dh).1.entries,
      ¬ i ∈ x.inner.tx.inputs) := by
  unfold removeCommittedTxs
  by_cases hd : dh.isEmpty
  · rw [if_pos hd]
    exact committed_fold_absent txs (p, [], []) t ht
  · rw [if_neg hd]
    obtain ⟨h1, h2⟩ := committed_fold_absent txs (p, [], []) t ht
    constructor
    · intro x hx
      exact h1 x (headerDep_subset _ dh x hx)
    · intro i hi x hx
      exact h2 i hi x (headerDep_subset _ dh x hx)

theorem removeCommittedTxs_header_absent (p : TxPool) (txs : List Tx)
    (dh : List Nat) (hne : ¬ dh.isEmpty) :
    ∀ x ∈ (removeCommittedTxs p txs dh).1.entries,
      x.inner.tx.headerDeps.any (fun hh => inList hh dh) = false := by
  unfold removeCommittedTxs
  rw [if_neg hne]
  intro x hx
  exact headerDep_absent _ dh x hx

theorem cacheHolds_put_self (c : List (Nat × Nat)) (sid hv : Nat) :
    CacheHolds (lruPut c sid hv) sid hv 0 := by
  unfold lruPut
  rw [show COMMITTED_HASH_CACHE_SIZE = 99999 + 1 from rfl,
    List.take_succ_cons]
  exact ⟨[], _, rfl, fun q hq => absurd hq (List.not_mem_nil q), Nat.le_refl 0⟩

theorem cacheHolds_put_other (c : List (Nat × Nat)) (sid hv cnt k v : Nat)
    (hch : CacheHolds c sid hv cnt) (hk : k ≠ sid)
    (hcnt : cnt + 2 ≤ COMMITTED_HASH_CACHE_SIZE) :
    CacheHolds (lruPut c k v) sid hv (cnt + 1) := by
  obtain ⟨l1, l2, rfl, hkeys, hlen⟩ := hch
  unfold lruPut
  rw [List.filter_append]
  rw [List.filter_cons_of_pos (by simp [Ne.symm hk])]
  rw [show ((k, v) :: (l1.filter (fun q => decide (q.1 ≠ k)) ++
      (sid, hv) :: l2.filter (fun q => decide (q.1 ≠ k)))) =
    ((k, v) :: l1.filter (fun q => decide (q.1 ≠ k))) ++
      (sid, hv) :: l2.filter (fun q => decide (q.1 ≠ k)) from rfl]
  rw [List.take_append_eq_append_take]
  have hl1len : ((k, v) :: l1.filter (fun q => decide (q.1 ≠ k))).length ≤
      cnt + 1 := by
    simp only [List.length_cons]
    have := List.length_filter_le (fun q => decide (q.1 ≠ k)) l1
    omega
  rw [List.take_of_length_le (by
    refine Nat.le_trans hl1len ?_
    unfold COMMITTED_HASH_CACHE_SIZE at hcnt ⊢
    omega)]
  obtain ⟨m, hm⟩ : ∃ m, COMMITTED_HASH_CACHE_SIZE -
      ((k, v) :: l1.filter (fun q => decide (q.1 ≠ k))).length = m + 1 := by
    refine ⟨COMMITTED_HASH_CACHE_SIZE -
      ((k, v) :: l1.filter (fun q => decide (q.1 ≠ k))).length - 1, ?_⟩
    unfold COMMITTED_HASH_CACHE_SIZE at hcnt ⊢
    omega
  rw [hm, List.take_succ_cons]
  refine ⟨(k, v) :: l1.filter (fun q => decide (q.1 ≠ k)), _, rfl, ?_, hl1len⟩
  intro q hq
  rcases List.mem_cons.mp hq with rfl | hq2
  · exact hk
  · exact hkeys q (List.mem_filter.mp hq2).1

theorem cacheHolds_peek (c : List (Nat × Nat)) (sid hv cnt : Nat)
    (hch : CacheHolds c sid hv cnt) : lruPeek c sid = some hv := by
  obtain ⟨l1, l2, rfl, hkeys, -⟩ := hch
  unfold lruPeek
  have hfind : (l1 ++ (sid, hv) :: l2).find?
      (fun q => decide (q.1 = sid)) = some (sid, hv) := by
    induction l1 with
    | nil =>
      rw [List.nil_append, List.find?_cons]
      simp
    | cons a as ih =>
      rw [List.cons_append, List.find?_cons]
      rw [show (decide (a.1 = sid)) = false from by
        simp [hkeys a (List.mem_cons_self a as)]]
      exact ih (fun q hq => hkeys q (List.mem_cons.mpr (Or.inr hq)))
  rw [hfind]
  rfl

theorem lru_fold_survives (sid hv : Nat) :
    ∀ (rest : List Tx)
      (acc : TxPool × List TxEntry × List (TxEntry × Reject)) (cnt : Nat),
      CacheHolds acc.1.committedTxsHashCache sid hv cnt →
      (∀ t2 ∈ rest, t2.shortId ≠ sid) →
      cnt + rest.length + 1 ≤ COMMITTED_HASH_CACHE_SIZE →
      CacheHolds (rest.foldl committedStep acc).1.committedTxsHashCache sid hv
        (cnt + rest.length) := by
  intro rest
  induction rest with
  | nil =>
    intro acc cnt hch _ _
    simpa using hch
  | cons t2 ts ih =>
    intro acc cnt hch hne hlen
    simp only [List.foldl_cons]
    have hstep : CacheHolds (committedStep acc t2).1.committedTxsHashCache
        sid hv (cnt + 1) := by
      rw [committedStep_cache]
      apply cacheHolds_put_other _ _ _ _ _ _ hch
        (hne t2 (List.mem_cons_self t2 ts))
      simp only [List.length_cons] at hlen
      omega
    have hres := ih (committedStep acc t2) (cnt + 1) hstep
      (fun t3 ht3 => hne t3 (List.mem_cons.mpr (Or.inr ht3)))
      (by simp only [List.length_cons] at hlen; omega)
    have harith : cnt + (t2 :: ts).length = cnt + 1 + ts.length := by
      simp only [List.length_cons]
      omega
    rw [harith]
    exact hres

theorem removeCommittedTxs_lru (p : TxPool) (txs : List Tx) (dh : List Nat)
    (hnodup : (txs.map Tx.shortId).Nodup)
    (hlen : txs.length ≤ COMMITTED_HASH_CACHE_SIZE)
    (t : Tx) (ht : t ∈ txs) :
    lruPeek (removeCommittedTxs p txs dh).1.committedTxsHashCache t.shortId =
      some t.txHash := by
  obtain ⟨s1, s2, rfl⟩ := List.append_of_mem ht
  have hfold : (s1 ++ t :: s2).foldl committedStep
      ((p, [], []) : TxPool × List TxEntry × List (TxEntry × Reject)) =
      s2.foldl committedStep
        (committedStep (s1.foldl committedStep (p, [], [])) t) := by
    rw [List.foldl_append, List.foldl_cons]
  have hids : t.shortId ∉ s2.map Tx.shortId := by
    rw [List.map_append, List.map_cons] at hnodup
    have h2 := (List.nodup_append.mp hnodup).2.1
    exact (List.nodup_cons.mp h2).1
  have hne : ∀ t2 ∈ s2, t2.shortId ≠ t.shortId := by
    intro t2 ht2 hcon
    exact hids (hcon ▸ List.mem_map_of_mem Tx.shortId ht2)
  have hstart : CacheHolds (committedStep
      (s1.foldl committedStep (p, [], [])) t).1.committedTxsHashCache
      t.shortId t.txHash 0 := by
    rw [committedStep_cache]
    exact cacheHolds_put_self _ t.shortId t.txHash
  have hlen2 : 0 + s2.length + 1 ≤ COMMITTED_HASH_CACHE_SIZE := by
    rw [List.length_append, List.length_cons] at hlen
    omega
  have hsurv := lru_fold_survives t.shortId t.txHash s2
    (committedStep (s1.foldl committedStep (p, [], [])) t) 0 hstart hne hlen2
  rw [← hfold] at hsurv
  unfold removeCommittedTxs
  by_cases hd : dh.isEmpty
  · rw [if_pos hd]
    exact cacheHolds_peek _ _ _ _ hsurv
  · rw [if_neg hd]
    have hc := headerDep_cache
      ((s1 ++ t :: s2).foldl committedStep (p, [], [])).1 dh
    show lruPeek (resolveConflictHeaderDep
      ((s1 ++ t :: s2).foldl committedStep (p, [], [])).1
        dh).1.committedTxsHashCache t.shortId = some t.txHash
    rw [hc]
    exact cacheHolds_peek _ _ _ _ hsurv

theorem resolveStep_eq (q : TxPool) (evts : List (TxEntry × Reject))
    (i : OutPoint) (sid : Nat) :
    resolveStep i (q, evts) sid =
      ({ q with entries := q.entries.filter (fun x => !(inList x.entryId (sid :: calcDescendants q.entries sid))), totalTxSize := q.totalTxSize - sizeSum (q.entries.filter (fun x => inList x.entryId (sid :: calcDescendants q.entries sid))), totalTxCycles := q.totalTxCycles - cycleSum (q.entries.filter (fun x => inList x.entryId (sid :: calcDescendants q.entries sid))) },
        evts ++ (q.entries.filter (fun x => inList x.entryId (sid :: calcDescendants q.entries sid))).map (fun e => (e.inner, Reject.resolve (ResolveErr.dead i)))) := by
  unfold resolveStep
  simp only
  rw [removeWithDesc_eq]

theorem edgeClosed_self (p : TxPool) (banned : List Nat) :
    EdgeClosed p.entries banned p := by
  intro aid cid hedge hban habs
  exfalso
  apply habs
  unfold parentEdgeB at hedge
  cases hga : getById p.entries aid with
  | none => rw [hga] at hedge; exact absurd hedge (by simp)
  | some a1 =>
    obtain ⟨ha1mem, ha1id⟩ := getById_some p.entries aid a1 hga
    rw [← ha1id]
    exact List.mem_map_of_mem PoolEntry.entryId ha1mem

theorem edgeClosed_cascade (base : List PoolEntry)
    (hbase : (poolIds base).Nodup) (banned : List Nat) (cur : TxPool)
    (hnodup : (poolIds cur.entries).Nodup)
    (hsub : ∀ e ∈ cur.entries, e ∈ base)
    (hec : EdgeClosed base banned cur) (sid : Nat) (mkr : TxEntry → Reject) :
    EdgeClosed base banned (removeWithDescAndReject cur sid mkr).1 := by
  intro aid cid hedge hban habs
  by_cases hacur : aid ∈ poolIds cur.entries
  · rcases List.mem_map.mp hacur with ⟨a2, ha2, ha2id⟩
    have ha2S : inList a2.entryId (sid :: calcDescendants cur.entries sid) = true := by
      by_contra ha2S
      apply habs
      rw [removeWithDesc_eq]
      apply List.mem_map.mpr
      refine ⟨a2, ?_, ha2id⟩
      apply List.mem_filter.mpr
      refine ⟨ha2, ?_⟩
      show (!(inList a2.entryId (sid :: calcDescendants cur.entries sid))) = true
      cases hbv : inList a2.entryId (sid :: calcDescendants cur.entries sid) with
      | false => rfl
      | true => exact absurd hbv ha2S
    intro hccur
    rw [removeWithDesc_eq] at hccur
    rcases List.mem_map.mp hccur with ⟨c3, hc3, hc3id⟩
    rcases List.mem_filter.mp hc3 with ⟨hc3cur, hc3pred⟩
    unfold parentEdgeB at hedge
    cases hga : getById base aid with
    | none => rw [hga] at hedge; exact absurd hedge (by simp)
    | some a1 =>
      cases hgc : getById base cid with
      | none => rw [hga, hgc] at hedge; exact absurd hedge (by simp)
      | some c1 =>
        rw [hga, hgc] at hedge
        obtain ⟨ha1mem, ha1id⟩ := getById_some base aid a1 hga
        obtain ⟨hc1mem, hc1id⟩ := getById_some base cid c1 hgc
        have ha2e : a2 = a1 := nodup_same_id_eq base hbase a2 a1
          (hsub a2 ha2) ha1mem (by rw [ha2id, ha1id])
        have hc3e : c3 = c1 := nodup_same_id_eq base hbase c3 c1
          (hsub c3 hc3cur) hc1mem (by rw [hc3id, hc1id])
        have hedge2 : txParentOf a2.inner.tx c3.inner.tx = true := by
          rw [ha2e, hc3e]
          exact hedge
        have hc3S : c3.entryId ∈ sid :: calcDescendants cur.entries sid :=
          desc_closed cur.entries sid hnodup a2 c3 ha2 hc3cur
            ((inList_iff _ _).mp ha2S) hedge2
        have hc3in : inList c3.entryId
            (sid :: calcDescendants cur.entries sid) = true :=
          (inList_iff _ _).mpr hc3S
        rw [hc3in] at hc3pred
        exact absurd hc3pred (by simp)
  · intro hccur
    apply hec aid cid hedge hban hacur
    rcases List.mem_map.mp hccur with ⟨c3, hc3, hc3id⟩
    have hc3cur : c3 ∈ cur.entries :=
      removeWithDesc_entries_subset cur sid mkr c3 hc3
    exact hc3id ▸ List.mem_map_of_mem PoolEntry.entryId hc3cur

theorem resolveInv_cascade (base : List PoolEntry)
    (hbase : (poolIds base).Nodup) (banned : List Nat) (cur : TxPool)
    (hinv : ResolveInv base banned cur) (sid : Nat) (mkr : TxEntry → Reject) :
    ResolveInv base banned (removeWithDescAndReject cur sid mkr).1 := by
  obtain ⟨hnodup, hsub, hec⟩ := hinv
  refine ⟨?_, ?_, ?_⟩
  · rw [removeWithDesc_eq]
    exact nodup_poolIds_filter _ _ hnodup
  · intro e he
    exact hsub e (removeWithDesc_entries_subset cur sid mkr e he)
  · exact edgeClosed_cascade base hbase banned cur hnodup hsub hec sid mkr

theorem foldl_pres {β γ : Type} (P : γ → Prop) (step : γ → β → γ)
    (hstep : ∀ acc b, P acc → P (step acc b)) :
    ∀ (l : List β) (acc : γ), P acc → P (l.foldl step acc) := by
  intro l
  induction l with
  | nil => intro acc h; exact h
  | cons b bs ih => intro acc h; exact ih (step acc b) (hstep acc b h)

theorem resolveInv_resolveConflict (base : List PoolEntry)
    (hbase : (poolIds base).Nodup) (banned : List Nat) (q : TxPool) (t : Tx)
    (hinv : ResolveInv base banned q) :
    ResolveInv base banned (resolveConflict q t).1 := by
  unfold resolveConflict
  exact foldl_pres (fun acc => ResolveInv base banned acc.1)
    (fun acc i =>
      ((acc.1.entries.filter (fun e => decide (i ∈ e.inner.tx.inputs))).map
        PoolEntry.entryId).foldl (resolveStep i) acc)
    (fun acc i hacc => foldl_pres (fun acc2 => ResolveInv base banned acc2.1)
      (resolveStep i)
      (fun acc2 sid hacc2 =>
        resolveInv_cascade base hbase banned acc2.1 hacc2 sid _)
      _ acc hacc)
    t.inputs (q, []) hinv

theorem resolveInv_removeEntry (base : List PoolEntry) (banned : List Nat)
    (cur : TxPool) (hinv : ResolveInv base banned cur) (sid2 : Nat) :
    ResolveInv base (banned ++ [sid2]) (poolMapRemoveEntry cur sid2).1 := by
  obtain ⟨hnodup, hsub, hec⟩ := hinv
  unfold poolMapRemoveEntry
  cases hg : getById cur.entries sid2 with
  | none =>
    refine ⟨hnodup, hsub, ?_⟩
    intro aid cid hedge hban habs
    exact hec aid cid hedge
      (fun hmem => hban (List.mem_append.mpr (Or.inl hmem))) habs
  | some e =>
    refine ⟨?_, ?_, ?_⟩
    · exact nodup_poolIds_filter _ _ hnodup
    · intro e2 he2
      exact hsub e2 (List.mem_filter.mp he2).1
    · intro aid cid hedge hban habs
      by_cases hacur : aid ∈ poolIds cur.entries
      · exfalso
        rcases List.mem_map.mp hacur with ⟨a2, ha2, ha2id⟩
        have ha2f : ¬ (decide (a2.entryId ≠ sid2)) = true := by
          intro hpred
          apply habs
          rw [← ha2id]
          exact List.mem_map.mpr ⟨a2, List.mem_filter.mpr ⟨ha2, hpred⟩, rfl⟩
        have ha2sid : a2.entryId = sid2 := by
          by_contra hne
          exact ha2f (by simp [hne])
        apply hban
        apply List.mem_append.mpr
        right
        rw [← ha2id, ha2sid]
        exact List.mem_cons_self _ _
      · intro hccur
        apply hec aid cid hedge
          (fun hmem => hban (List.mem_append.mpr (Or.inl hmem))) hacur
        rcases List.mem_map.mp hccur with ⟨c3, hc3, hc3id⟩
        exact hc3id ▸ List.mem_map_of_mem PoolEntry.entryId
          (List.mem_filter.mp hc3).1

theorem resolveInv_committedStep (base : List PoolEntry)
    (hbase : (poolIds base).Nodup) (banned : List Nat)
    (acc : TxPool × List TxEntry × List (TxEntry × Reject)) (t2 : Tx)
    (hinv : ResolveInv base banned acc.1) :
    ResolveInv base (banned ++ [t2.shortId]) (committedStep acc t2).1 := by
  have h1 := resolveInv_removeEntry base banned acc.1 hinv t2.shortId
  have h2 : ResolveInv base (banned ++ [t2.shortId])
      (removeCommittedTx acc.1 t2).1 := by
    simp only [removeCommittedTx]
    cases hsome : (poolMapRemoveEntry acc.1 t2.shortId).2 with
    | some entry =>
      simp only
      apply resolveInv_resolveConflict base hbase _ _ t2
      exact h1
    | none =>
      simp only
      exact resolveInv_resolveConflict base hbase _ _ t2 h1
  exact h2

theorem resolveInv_committedFold (base : List PoolEntry)
    (hbase : (poolIds base).Nodup) :
    ∀ (txs2 : List Tx)
      (acc : TxPool × List TxEntry × List (TxEntry × Reject))
      (banned : List Nat), ResolveInv base banned acc.1 →
      ResolveInv base (banned ++ txs2.map Tx.shortId)
        ((txs2.foldl committedStep acc).1) := by
  intro txs2
  induction txs2 with
  | nil =>
    intro acc banned h
    simpa using h
  | cons a as ih =>
    intro acc banned h
    simp only [List.foldl_cons, List.map_cons]
    have hstep := resolveInv_committedStep base hbase banned acc a h
    have hres := ih (committedStep acc a) (banned ++ [a.shortId]) hstep
    have heq : (banned ++ [a.shortId]) ++ as.map Tx.shortId =
        banned ++ (a.shortId :: as.map Tx.shortId) := by
      simp [List.append_assoc]
    rw [heq] at hres
    exact hres

theorem resolveInv_headerDep (base : List PoolEntry)
    (hbase : (poolIds base).Nodup) (banned : List Nat) (q : TxPool)
    (detached : List Nat) (hinv : ResolveInv base banned q) :
    ResolveInv base banned (resolveConflictHeaderDep q detached).1 := by
  unfold resolveConflictHeaderDep
  exact foldl_pres (fun acc => ResolveInv base banned acc.1)
    (fun acc aid =>
      let pr := removeWithDescAndReject acc.1 aid
        (fun x2 => Reject.resolve (ResolveErr.invalidHeader (detached.headD 0)))
      (pr.1, acc.2 ++ pr.2))
    (fun acc aid hacc => resolveInv_cascade base hbase banned acc.1 hacc aid _)
    _ (q, []) hinv

theorem removeCommittedTxs_resolveInv (p : TxPool) (txs : List Tx)
    (dh : List Nat) (h : WF p) :
    ResolveInv p.entries (txs.map Tx.shortId)
      (removeCommittedTxs p txs dh).1 := by
  have h0 : ResolveInv p.entries [] p :=
    ⟨h.1, fun e he => he, edgeClosed_self p []⟩
  have hfold := resolveInv_committedFold p.entries h.1 txs (p, [], []) [] h0
  rw [List.nil_append] at hfold
  unfold removeCommittedTxs
  by_cases hd : dh.isEmpty
  · rw [if_pos hd]
    exact hfold
  · rw [if_neg hd]
    exact resolveInv_headerDep p.entries h.1 _ _ dh hfold

theorem removeCommittedTxs_desc (p : TxPool) (txs : List Tx) (dh : List Nat)
    (h : WF p) (t : Tx) (ht : t ∈ txs) (x : PoolEntry) (hx : x ∈ p.entries)
    (hspend : ∃ i ∈ t.inputs, i ∈ x.inner.tx.inputs)
    (hxnc : ¬ x.entryId ∈ txs.map Tx.shortId)
    (hdnc : ∀ d ∈ calcDescendants p.entries x.entryId,
      ¬ d ∈ txs.map Tx.shortId) :
    ∀ y ∈ p.entries, y.entryId ∈ calcDescendants p.entries x.entryId →
      ¬ y ∈ (removeCommittedTxs p txs dh).1.entries ∧
      ∃ r, (y.inner, Reject.resolve r) ∈ (removeCommittedTxs p txs dh).2.2 := by
  obtain ⟨hnodupF, hsubF, hec⟩ := removeCommittedTxs_resolveInv p txs dh h
  have hxabs : ¬ x.entryId ∈ poolIds (removeCommittedTxs p txs dh).1.entries := by
    intro hmem
    rcases List.mem_map.mp hmem with ⟨x3, hx3, hx3id⟩
    have hx3p : x3 ∈ p.entries := hsubF x3 hx3
    have hx3e : x3 = x := nodup_same_id_eq p.entries h.1 x3 x hx3p hx hx3id
    subst hx3e
    rcases hspend with ⟨i, hi, hxi⟩
    exact (removeCommittedTxs_absent p txs dh t ht).2 i hi x3 hx3 hxi
  have hreach : ∀ id2, ReachG (poolIds p.entries)
      (fun a b => parentEdgeB p.entries a b) [x.entryId] id2 →
      ¬ id2 ∈ poolIds (removeCommittedTxs p txs dh).1.entries := by
    intro id2 hre
    induction hre with
    | seed z hz =>
      have hzx : z = x.entryId := by simpa using hz
      subst hzx
      exact hxabs
    | step a c ha hadj hcm ih =>
      have haC : a ∈ relClosure p.entries
          (fun a b => parentEdgeB p.entries a b) [x.entryId] :=
        (mem_relClosure_iff p.entries _ [x.entryId] a).mpr ha
      have hanb : ¬ a ∈ txs.map Tx.shortId := by
        by_cases hax : a = x.entryId
        · subst hax
          exact hxnc
        · apply hdnc
          unfold calcDescendants
          exact List.mem_filter.mpr ⟨haC, by simp [hax]⟩
      exact hec a c hadj hanb ih
  intro y hy hyd
  have hyabs : ¬ y.entryId ∈ poolIds (removeCommittedTxs p txs dh).1.entries := by
    apply hreach
    apply (mem_relClosure_iff p.entries _ [x.entryId] y.entryId).mp
    unfold calcDescendants at hyd
    exact (List.mem_filter.mp hyd).1
  have hynt : ¬ y ∈ (removeCommittedTxs p txs dh).1.entries := by
    intro hmem
    exact hyabs (List.mem_map_of_mem PoolEntry.entryId hmem)
  refine ⟨hynt, ?_⟩
  rcases removeCommittedTxs_conserve p txs dh h y hy with h2 | h2 | h2
  · exact absurd h2 hynt
  · exfalso
    rcases removeCommittedTxs_committed_src p txs dh y.inner h2
      with ⟨t2, ht2, hts⟩
    apply hdnc y.entryId hyd
    show y.inner.tx.shortId ∈ txs.map Tx.shortId
    rw [hts]
    exact List.mem_map_of_mem Tx.shortId ht2
  · exact h2

/-- C8: for every committed transaction `t` of the batch, after
`remove_committed_txs`: the entry with `t`'s short id is absent; `t`'s
short id maps to `t`'s hash in the committed LRU cache (capacity
100,000); no remaining entry spends an outpoint spent by `t`, and every
initially-present entry that did (and is not itself a committed
transaction of the batch) is reported via `call_reject` with
`Reject::Resolve`; every reported rejection of the call is a `Resolve`;
when headers were detached, no remaining entry references a detached
header, the offenders likewise being reported as `Resolve`; each
conflicting spender is evicted together with all of its in-pool
descendants: the per-spender removal step deletes exactly the spender
with its descendant closure and reports every deleted entry with
`Reject::Resolve(Dead(outpoint))`, and — provided neither the spender
nor any of its descendants is itself a committed transaction of the
batch (a committed chain node is removed without cascade, which can
orphan the tail) — every initial descendant of the spender is absent
from the final pool and reported as `Resolve`. -/
theorem remove_committed_txs_spec (p : TxPool) (txs : List Tx)
    (detachedHeaders : List Nat) (h : WF p)
    (hnodup : (txs.map Tx.shortId).Nodup)
    (hlen : txs.length ≤ COMMITTED_HASH_CACHE_SIZE) :
    ∀ t ∈ txs,
      (∀ x ∈ (removeCommittedTxs p txs detachedHeaders).1.entries,
        x.entryId ≠ t.shortId) ∧
      lruPeek (removeCommittedTxs p txs detachedHeaders).1.committedTxsHashCache
          t.shortId = some t.txHash ∧
      (∀ i ∈ t.inputs, ∀ x ∈ (removeCommittedTxs p txs detachedHeaders).1.entries,
        ¬ i ∈ x.inner.tx.inputs) ∧
      (∀ ev ∈ (removeCommittedTxs p txs detachedHeaders).2.2,
        ∃ r, ev.2 = Reject.resolve r) ∧
      (∀ x ∈ p.entries, (∃ i ∈ t.inputs, i ∈ x.inner.tx.inputs) →
        x.entryId ∉ txs.map Tx.shortId →
        ∃ r, (x.inner, Reject.resolve r) ∈
          (removeCommittedTxs p txs detachedHeaders).2.2) ∧
      (¬ detachedHeaders.isEmpty →
        (∀ x ∈ (removeCommittedTxs p txs detachedHeaders).1.entries,
          ∀ hh ∈ x.inner.tx.headerDeps, hh ∉ detachedHeaders) ∧
        (∀ x ∈ p.entries,
          (∃ hh ∈ x.inner.tx.headerDeps, hh ∈ detachedHeaders) →
          x.entryId ∉ txs.map Tx.shortId →
          ∃ r, (x.inner, Reject.resolve r) ∈
            (removeCommittedTxs p txs detachedHeaders).2.2)) ∧
      (∀ (q : TxPool) (evts : List (TxEntry × Reject)) (sid : Nat),
        ∀ i ∈ t.inputs,
        (resolveStep i (q, evts) sid).1.entries =
          q.entries.filter (fun x =>
            !(inList x.entryId (sid :: calcDescendants q.entries sid))) ∧
        (resolveStep i (q, evts) sid).2 =
          evts ++ (q.entries.filter (fun x =>
            inList x.entryId (sid :: calcDescendants q.entries sid))).map
              (fun e => (e.inner, Reject.resolve (ResolveErr.dead i)))) ∧
      (∀ x ∈ p.entries, (∃ i ∈ t.inputs, i ∈ x.inner.tx.inputs) →
        x.entryId ∉ txs.map Tx.shortId →
        (∀ d ∈ calcDescendants p.entries x.entryId,
          d ∉ txs.map Tx.shortId) →
        ∀ y ∈ p.entries, y.entryId ∈ calcDescendants p.entries x.entryId →
          ¬ y ∈ (removeCommittedTxs p txs detachedHeaders).1.entries ∧
          ∃ r, (y.inner, Reject.resolve r) ∈
            (removeCommittedTxs p txs detachedHeaders).2.2) := by
  intro t ht
  obtain ⟨habs, hnosp⟩ := removeCommittedTxs_absent p txs detachedHeaders t ht
  refine ⟨habs,
    removeCommittedTxs_lru p txs detachedHeaders hnodup hlen t ht,
    hnosp,
    removeCommittedTxs_events p txs detachedHeaders, ?_, ?_, ?_, ?_⟩
  · intro x hx hspend hnotc
    rcases removeCommittedTxs_conserve p txs detachedHeaders h x hx
      with h2 | h2 | h2
    · exfalso
      rcases hspend with ⟨i, hi, hxi⟩
      exact hnosp i hi x h2 hxi
    · exfalso
      rcases removeCommittedTxs_committed_src p txs detachedHeaders
        x.inner h2 with ⟨t2, ht2, hts⟩
      apply hnotc
      show x.inner.tx.shortId ∈ txs.map Tx.shortId
      rw [hts]
      exact List.mem_map_of_mem Tx.shortId ht2
    · exact h2
  · intro hdne
    constructor
    · intro x hx hh hhd hhmem
      have hany := removeCommittedTxs_header_absent p txs detachedHeaders
        hdne x hx
      rw [List.any_eq_false] at hany
      have := hany hh hhd
      rw [(inList_iff hh detachedHeaders).mpr hhmem] at this
      exact absurd rfl this
    · intro x hx hdep hnotc
      rcases removeCommittedTxs_conserve p txs detachedHeaders h x hx
        with h2 | h2 | h2
      · exfalso
        have hany := removeCommittedTxs_header_absent p txs detachedHeaders
          hdne x h2
        rw [List.any_eq_false] at hany
        rcases hdep with ⟨hh, hhd, hhmem⟩
        have := hany hh hhd
        rw [(inList_iff hh detachedHeaders).mpr hhmem] at this
        exact absurd rfl this
      · exfalso
        rcases removeCommittedTxs_committed_src p txs detachedHeaders
          x.inner h2 with ⟨t2, ht2, hts⟩
        apply hnotc
        show x.inner.tx.shortId ∈ txs.map Tx.shortId
        rw [hts]
        exact List.mem_map_of_mem Tx.shortId ht2
      · exact h2
  · intro q evts sid i hi
    constructor
    · rw [resolveStep_eq]
    · rw [resolveStep_eq]
  · intro x hx hspend hxnc hdnc y hy hyd
    exact removeCommittedTxs_desc p txs detachedHeaders h t ht x hx hspend
      hxnc hdnc y hy hyd

/-- C8 witness: committing `c8Tx` against `c8Pool` with header 7 detached
records the hash in the LRU under the short id, and the descendant
(id 61) of the conflicting spender (id 60) is evicted with it. -/
theorem remove_committed_txs_spec_witness :
    WF c8Pool ∧
    lruPeek (removeCommittedTxs c8Pool [c8Tx] [7]).1.committedTxsHashCache
      c8Tx.shortId = some c8Tx.txHash ∧
    ¬ (⟨Status.pending, ⟨⟨61, 61, [⟨60, 0⟩], 1, [], []⟩, 100, 10, 100, 0⟩⟩ : PoolEntry)
        ∈ (removeCommittedTxs c8Pool [c8Tx] [7]).1.entries :=
  ⟨by unfold WF AncBound Acyclic; decide,
    (remove_committed_txs_spec c8Pool [c8Tx] [7]
        (by unfold WF AncBound Acyclic; decide) (by decide) (by decide)
      c8Tx (by decide)).2.1,
    ((remove_committed_txs_spec c8Pool [c8Tx] [7]
        (by unfold WF AncBound Acyclic; decide) (by decide) (by decide)
      c8Tx (by decide)).2.2.2.2.2.2.2
      ⟨Status.pending, ⟨⟨60, 60, [exOut 0], 1, [], []⟩, 100, 10, 100, 0⟩⟩
      (by decide) ⟨exOut 0, by decide, by decide⟩ (by decide) (by decide)
      ⟨Status.pending, ⟨⟨61, 61, [⟨60, 0⟩], 1, [], []⟩, 100, 10, 100, 0⟩⟩
      (by decide) (by decide)).1⟩
